import Mathlib

set_option linter.unusedSectionVars false

/-!
Verification of the `trie` crate: a log-structured stack of tuple tries.

The development shallowly embeds the Rust source:
* `advance` — the exponential-gap scan of `src/trie.rs` (`advance`),
  with the two `while` loops rendered as fuelled structural recursions;
* leaf storage `Vec<(K, i32)>` / `Vec<(K, isize)>` — lists of `K × Int`
  (`extendTrie0`, `extMerge0`, `extendTuple0`, `fromOrdered0`);
* `TrieLayer<K, L>` instantiated at a leaf inner layer (`TrieL`,
  `extendTrie1`, `extMerge1`, `extendTuple1`);
* `SliceCursor` / `TrieCursor` and the k-way `CursorMerger`;
* `Arbor::append` and `ArborIndex::append` / `get_into`, with the
  `HashMap` rendered as an association list.

Machine integers (`usize`, `i32`, `isize`) are modelled as `Nat` / `Int`;
none of the verified paths exercise overflow.
-/

namespace TrieV

/-- The grow loop of `advance` (src/trie.rs): while `index + step` is in
range and the predicate holds there, advance `index` by `step` and double
`step`.  `fuel` bounds the number of iterations; `advance` supplies
`l.length + 1`, which is always sufficient since `index` grows by at least
one per iteration. -/
def advGrow (l : List α) (p : α → Bool) : Nat → Nat → Nat → Nat × Nat
  | 0, index, step => (index, step)
  | fuel + 1, index, step =>
    if h : index + step < l.length then
      if p (l.get ⟨index + step, h⟩) then advGrow l p fuel (index + step) (step * 2)
      else (index, step)
    else (index, step)

/-- The shrink loop of `advance` (src/trie.rs): while `step > 0`, adopt
`index + step` whenever it is in range and the predicate holds there, and
halve `step`.  Fuelled like `advGrow`. -/
def advShrink (l : List α) (p : α → Bool) : Nat → Nat → Nat → Nat
  | 0, index, _ => index
  | fuel + 1, index, step =>
    if step = 0 then index
    else
      if h : index + step < l.length then
        if p (l.get ⟨index + step, h⟩) then advShrink l p fuel (index + step) (step / 2)
        else advShrink l p fuel index (step / 2)
      else advShrink l p fuel index (step / 2)

/-- `advance` from src/trie.rs: reports the number of elements satisfying
the predicate, assuming the predicate is true on an initial segment and
false afterwards.  Exponential growth followed by binary shrinking. -/
def advance (l : List α) (p : α → Bool) : Nat :=
  if h : 0 < l.length then
    if p (l.get ⟨0, h⟩) then
      let g := advGrow l p (l.length + 1) 0 1
      advShrink l p (g.2 + 1) g.1 (g.2 / 2) + 1
    else 0
  else 0

/-- The predicate is false on every element at or beyond the first false
position: the monotonicity assumption `advance` relies on. -/
def MonoOn (p : α → Bool) (l : List α) : Prop :=
  ∀ x ∈ l.dropWhile p, p x = false

instance (p : α → Bool) (l : List α) : Decidable (MonoOn p l) :=
  inferInstanceAs (Decidable (∀ x ∈ l.dropWhile p, p x = false))

theorem dropWhile_eq_drop_len (p : α → Bool) (l : List α) :
    l.dropWhile p = l.drop (l.takeWhile p).length := by
  induction l with
  | nil => rfl
  | cons a t ih =>
    by_cases h : p a
    · simp [List.dropWhile_cons, List.takeWhile_cons, h, ih]
    · simp [List.dropWhile_cons, List.takeWhile_cons, h]

theorem take_takeWhile_len (p : α → Bool) (l : List α) :
    l.take (l.takeWhile p).length = l.takeWhile p := by
  induction l with
  | nil => rfl
  | cons a t ih =>
    by_cases h : p a
    · simp [List.takeWhile_cons, h, ih]
    · simp [List.takeWhile_cons, h]

theorem length_takeWhile_le' (p : α → Bool) (l : List α) :
    (l.takeWhile p).length ≤ l.length := by
  induction l with
  | nil => simp
  | cons a t ih =>
    by_cases h : p a
    · simp [List.takeWhile_cons, h]; omega
    · simp [List.takeWhile_cons, h]

theorem takeWhile_get_true (p : α → Bool) (l : List α) (i : Nat) (h : i < l.length)
    (hi : i < (l.takeWhile p).length) : p (l.get ⟨i, h⟩) = true := by
  induction l generalizing i with
  | nil => simp at h
  | cons a t ih =>
    by_cases hp : p a
    · cases i with
      | zero => simpa using hp
      | succ j =>
        simp only [List.takeWhile_cons, hp, if_true, List.length_cons] at hi
        exact ih j (by simpa using h) (by omega)
    · simp [List.takeWhile_cons, hp] at hi

/-- On a monotone predicate, truth at a position is equivalent to the
position lying inside the true initial segment. -/
theorem monoOn_get_iff (p : α → Bool) (l : List α) (hm : MonoOn p l)
    (i : Nat) (h : i < l.length) :
    p (l.get ⟨i, h⟩) = true ↔ i < (l.takeWhile p).length := by
  constructor
  · intro hp
    by_contra hge
    push_neg at hge
    have hlen : i - (l.takeWhile p).length < (l.drop (l.takeWhile p).length).length := by
      simp only [List.length_drop]; omega
    have heq : (l.drop (l.takeWhile p).length).get ⟨i - (l.takeWhile p).length, hlen⟩ =
        l.get ⟨i, h⟩ := by
      simp only [List.get_eq_getElem, List.getElem_drop]
      congr 1
      omega
    have hx : l.get ⟨i, h⟩ ∈ l.dropWhile p := by
      rw [dropWhile_eq_drop_len, ← heq]
      exact List.get_mem _ _ _
    have hfalse := hm _ hx
    rw [hp] at hfalse
    exact absurd hfalse (by simp)
  · exact takeWhile_get_true p l i h

theorem advGrow_spec (l : List α) (p : α → Bool) (c : Nat)
    (hc : c ≤ l.length)
    (hp : ∀ (i : Nat) (h : i < l.length), p (l.get ⟨i, h⟩) = true ↔ i < c) :
    ∀ (fuel index step m : Nat), step = 2 ^ m → index < c → l.length - index < fuel →
      ∃ (i' m' : Nat), advGrow l p fuel index step = (i', 2 ^ m') ∧
        i' < c ∧ c ≤ i' + 2 ^ m' := by
  intro fuel
  induction fuel with
  | zero => intro index step m _ hic hfuel; omega
  | succ fuel ih =>
    intro index step m hstep hic hfuel
    rw [advGrow]
    by_cases h : index + step < l.length
    · rw [dif_pos h]
      by_cases hpp : p (l.get ⟨index + step, h⟩) = true
      · rw [if_pos hpp]
        have hlt : index + step < c := (hp _ h).mp hpp
        have hstep1 : 1 ≤ step := by rw [hstep]; exact Nat.one_le_two_pow
        refine ih (index + step) (step * 2) (m + 1) ?_ hlt (by omega)
        rw [hstep, pow_succ]
      · rw [if_neg hpp]
        refine ⟨index, m, by rw [hstep], hic, ?_⟩
        have : ¬ index + step < c := fun hlt => hpp ((hp _ h).mpr hlt)
        rw [hstep] at this
        omega
    · rw [dif_neg h]
      refine ⟨index, m, by rw [hstep], hic, ?_⟩
      rw [hstep] at h
      omega

theorem advShrink_spec (l : List α) (p : α → Bool) (c : Nat)
    (hc : c ≤ l.length)
    (hp : ∀ (i : Nat) (h : i < l.length), p (l.get ⟨i, h⟩) = true ↔ i < c) :
    ∀ (m fuel index : Nat), 2 ^ m < fuel → index < c → c ≤ index + 2 ^ m * 2 →
      advShrink l p fuel index (2 ^ m) = c - 1 := by
  intro m
  induction m with
  | zero =>
    intro fuel index hfuel hlt hle
    obtain ⟨f, rfl⟩ : ∃ f, fuel = f + 2 := ⟨fuel - 2, by omega⟩
    have hle2 : c ≤ index + 2 := by simpa using hle
    rw [advShrink]
    simp only [pow_zero]
    have h1 : ¬ ((1 : Nat) = 0) := by omega
    rw [if_neg h1]
    have h12 : (1 : Nat) / 2 = 0 := by norm_num
    by_cases h : index + 1 < l.length
    · rw [dif_pos h]
      by_cases hpp : p (l.get ⟨index + 1, h⟩) = true
      · rw [if_pos hpp, h12, advShrink]
        simp only [reduceIte]
        have : index + 1 < c := (hp _ h).mp hpp
        omega
      · rw [if_neg hpp, h12, advShrink]
        simp only [reduceIte]
        have : ¬ index + 1 < c := fun hlt2 => hpp ((hp _ h).mpr hlt2)
        omega
    · rw [dif_neg h, h12, advShrink]
      simp only [reduceIte]
      omega
  | succ m ih =>
    intro fuel index hfuel hlt hle
    obtain ⟨f, rfl⟩ : ∃ f, fuel = f + 1 :=
      ⟨fuel - 1, by have := Nat.lt_of_le_of_lt Nat.one_le_two_pow hfuel; omega⟩
    rw [advShrink]
    have hne : ¬ (2 ^ (m + 1) = 0) := by positivity
    rw [if_neg hne]
    have hhalf : 2 ^ (m + 1) / 2 = 2 ^ m := by
      rw [pow_succ, Nat.mul_div_cancel]
      omega
    have hmono : 2 ^ m < 2 ^ (m + 1) := Nat.pow_lt_pow_right (by omega) (by omega)
    have hdouble : 2 ^ m * 2 = 2 ^ (m + 1) := by rw [pow_succ]
    by_cases h : index + 2 ^ (m + 1) < l.length
    · rw [dif_pos h]
      by_cases hpp : p (l.get ⟨index + 2 ^ (m + 1), h⟩) = true
      · rw [if_pos hpp, hhalf]
        have hlt2 : index + 2 ^ (m + 1) < c := (hp _ h).mp hpp
        exact ih f (index + 2 ^ (m + 1)) (by omega) hlt2 (by omega)
      · rw [if_neg hpp, hhalf]
        have hge : ¬ index + 2 ^ (m + 1) < c := fun hlt2 => hpp ((hp _ h).mpr hlt2)
        exact ih f index (by omega) hlt (by omega)
    · rw [dif_neg h, hhalf]
      have hge : c ≤ index + 2 ^ (m + 1) := by omega
      exact ih f index (by omega) hlt (by omega)

theorem advance_eq_of_char (l : List α) (p : α → Bool) (c : Nat)
    (hc : c ≤ l.length)
    (hp : ∀ (i : Nat) (h : i < l.length), p (l.get ⟨i, h⟩) = true ↔ i < c) :
    advance l p = c := by
  rw [advance]
  by_cases h0 : 0 < l.length
  · rw [dif_pos h0]
    by_cases hp0 : p (l.get ⟨0, h0⟩) = true
    · rw [if_pos hp0]
      have hc0 : 0 < c := (hp _ h0).mp hp0
      obtain ⟨i', m', heq, hlt, hle⟩ :=
        advGrow_spec l p c hc hp (l.length + 1) 0 1 0 (by norm_num) hc0 (by omega)
      simp only [heq]
      cases m' with
      | zero =>
        have h20 : (2 : Nat) ^ 0 / 2 = 0 := by norm_num
        have h21 : (2 : Nat) ^ 0 + 1 = 1 + 1 := by norm_num
        rw [h20, h21, advShrink]
        simp only [reduceIte]
        simp only [pow_zero] at hle
        omega
      | succ m =>
        have hhalf : 2 ^ (m + 1) / 2 = 2 ^ m := by
          rw [pow_succ, Nat.mul_div_cancel]; omega
        rw [hhalf]
        have hres := advShrink_spec l p c hc hp m (2 ^ (m + 1) + 1) i'
          (by have : 2 ^ m < 2 ^ (m + 1) := Nat.pow_lt_pow_right (by omega) (by omega); omega)
          hlt
          (by
            have hd : 2 ^ m * 2 = 2 ^ (m + 1) := by rw [pow_succ]
            omega)
        rw [hres]
        omega
    · rw [if_neg hp0]
      by_contra hne
      have : 0 < c := by omega
      exact hp0 ((hp _ h0).mpr this)
  · rw [dif_neg h0]
    omega

/-- C6.  For every slice `s` and every predicate `p` that is true on an
initial segment of `s` and false thereafter (monotone), `advance s p`
returns exactly the length of the `p`-true initial segment, i.e. the same
value as a linear left-to-right count (`takeWhile`). -/
theorem claim_C6 (l : List α) (p : α → Bool) (hm : MonoOn p l) :
    advance l p = (l.takeWhile p).length :=
  advance_eq_of_char l p _ (length_takeWhile_le' p l) (monoOn_get_iff p l hm)

/-- Helper restatement of the `advance` correctness used by later proofs. -/
theorem advance_takeWhile (l : List α) (p : α → Bool) (hm : MonoOn p l) :
    advance l p = (l.takeWhile p).length :=
  advance_eq_of_char l p _ (length_takeWhile_le' p l) (monoOn_get_iff p l hm)

/-- Witness for C6 at a concrete monotone predicate. -/
theorem claim_C6_witness :
    MonoOn (fun n => decide (n < 3)) [0, 1, 2, 3, 4] ∧
      advance [0, 1, 2, 3, 4] (fun n => decide (n < 3)) =
        ([0, 1, 2, 3, 4].takeWhile (fun n => decide (n < 3))).length :=
  ⟨by decide, claim_C6 _ _ (by decide)⟩

/-! ### Leaf storage: the `Vec<(K, i32)>` and `Vec<(K, isize)>` impls of
`TrieStorage` (src/trie.rs).  Weights are modelled as `Int` in both cases. -/

/-- The sub-slice `l[lower .. upper]` of a vector. -/
def slice (l : List α) (lower upper : Nat) : List α :=
  (l.drop lower).take (upper - lower)

variable {K : Type} [LinearOrder K]

/-- Strictly increasing by key: the ordering invariant of every layer. -/
def KeySorted {β : Type} (l : List (K × β)) : Prop :=
  List.Pairwise (fun a b => a.1 < b.1) l

instance {β : Type} (l : List (K × β)) : Decidable (KeySorted l) :=
  inferInstanceAs (Decidable (List.Pairwise _ l))

/-- Leaf `extend_trie`: appends `other[lower .. upper]` to `self`. -/
def extendTrie0 (self other : List (K × Int)) (lower upper : Nat) : List (K × Int) :=
  self ++ slice other lower upper

/-- Leaf `extend_tuple` of the `Vec<(K, i32)>` impl: pushes the tuple. -/
def extendTuple0 (self : List (K × Int)) (tuple : K × Int) (_isNew : Bool) : List (K × Int) :=
  self ++ [tuple]

/-- Leaf `extend_tuple` of the `Vec<(K, isize)>` impl (identical body). -/
def extendTupleW (self : List (K × Int)) (tuple : K × Int) (_isNew : Bool) : List (K × Int) :=
  self ++ [tuple]

/-- `TrieStorage::from_ordered`: repeatedly `extend_tuple(item, false)`
starting from `new()`. -/
def fromOrdered0 (iter : List (K × Int)) : List (K × Int) :=
  iter.foldl (fun acc item => extendTuple0 acc item false) []

theorem foldl_push_eq (l : List α) : ∀ acc : List α,
    l.foldl (fun a x => a ++ [x]) acc = acc ++ l := by
  induction l with
  | nil => intro acc; simp
  | cons x t ih => intro acc; simp [ih]

theorem fromOrdered0_eq (iter : List (K × Int)) : fromOrdered0 iter = iter := by
  have h : fromOrdered0 iter = iter.foldl (fun a x => a ++ [x]) [] := by
    simp [fromOrdered0, extendTuple0]
  rw [h, foldl_push_eq]
  simp

/-- C10.  The leaf `extend_tuple` implementations (both the `i32` and the
`isize` specialisation) ignore the `is_new` flag and push unconditionally,
so `from_ordered` over any iterator returns exactly the collected iterator;
in particular equal-key tuples within one batch stay separate entries. -/
theorem claim_C10 :
    (∀ (self : List (K × Int)) (t : K × Int) (b1 b2 : Bool),
        extendTuple0 self t b1 = extendTuple0 self t b2) ∧
    (∀ (self : List (K × Int)) (t : K × Int) (b1 b2 : Bool),
        extendTupleW self t b1 = extendTupleW self t b2) ∧
    (∀ iter : List (K × Int), fromOrdered0 iter = iter) :=
  ⟨fun _ _ _ _ => rfl, fun _ _ _ _ => rfl, fromOrdered0_eq⟩

/-! ### Leaf `extend_merge` and its clean recursive description -/

/-- Leaf `extend_merge` (the `Vec<(K, i32)>` impl in src/trie.rs): two-pointer
walk; on `Less`/`Greater` a whole run is located with `advance` and copied
with `extend_trie`; on `Equal` the weights are summed and the pair is pushed
only when the sum is non-zero; any leftover side is drained with
`extend_trie`.  The `while` loop is rendered with fuel; every entry point
supplies fuel exceeding the loop's iteration count. -/
def extMerge0 (fuel : Nat) (self : List (K × Int)) (vec1 : List (K × Int))
    (lower1 upper1 : Nat) (vec2 : List (K × Int)) (lower2 upper2 : Nat) :
    List (K × Int) :=
  match fuel with
  | 0 => self
  | fuel + 1 =>
    if lower1 < upper1 ∧ lower2 < upper2 then
      match vec1.get? lower1, vec2.get? lower2 with
      | some e1, some e2 =>
        if e1.1 < e2.1 then
          let step := 1 + advance (slice vec1 (1 + lower1) upper1)
            (fun x => decide (x.1 < e2.1))
          extMerge0 fuel (extendTrie0 self vec1 lower1 (lower1 + step))
            vec1 (lower1 + step) upper1 vec2 lower2 upper2
        else if e1.1 = e2.1 then
          let count := e1.2 + e2.2
          extMerge0 fuel (if count = 0 then self else self ++ [(e1.1, count)])
            vec1 (lower1 + 1) upper1 vec2 (lower2 + 1) upper2
        else
          let step := 1 + advance (slice vec2 (1 + lower2) upper2)
            (fun x => decide (x.1 < e1.1))
          extMerge0 fuel (extendTrie0 self vec2 lower2 (lower2 + step))
            vec1 lower1 upper1 vec2 (lower2 + step) upper2
      | _, _ => self
    else if lower1 < upper1 then extendTrie0 self vec1 lower1 upper1
    else if lower2 < upper2 then extendTrie0 self vec2 lower2 upper2
    else self

/-- `TrieStorage::merge` at the leaf: a fresh vector extended by
`extend_merge` over the full ranges of both inputs. -/
def merge0 (a b : List (K × Int)) : List (K × Int) :=
  extMerge0 (a.length + b.length + 1) [] a 0 a.length b 0 b.length

/-- Clean one-element-at-a-time description of the leaf merge. -/
def leafMerge : List (K × Int) → List (K × Int) → List (K × Int)
  | [], l2 => l2
  | l1, [] => l1
  | e1 :: t1, e2 :: t2 =>
    if e1.1 < e2.1 then e1 :: leafMerge t1 (e2 :: t2)
    else if e1.1 = e2.1 then
      if e1.2 + e2.2 = 0 then leafMerge t1 t2
      else (e1.1, e1.2 + e2.2) :: leafMerge t1 t2
    else e2 :: leafMerge (e1 :: t1) t2
termination_by l1 l2 => l1.length + l2.length

theorem leafMerge_nil_left (l2 : List (K × Int)) : leafMerge [] l2 = l2 := by
  cases l2 <;> rw [leafMerge]

theorem leafMerge_nil_right (l1 : List (K × Int)) : leafMerge l1 [] = l1 := by
  cases l1 with
  | nil => rw [leafMerge]
  | cons h t =>
    rw [leafMerge]
    simp

theorem slice_length (l : List α) (lower upper : Nat) (h : upper ≤ l.length) :
    (slice l lower upper).length = upper - lower := by
  simp only [slice, List.length_take, List.length_drop]
  omega

theorem slice_all (l : List α) : slice l 0 l.length = l := by
  simp [slice]

theorem slice_eq_cons (l : List α) (lower upper : Nat) (h1 : lower < upper)
    (h2 : lower < l.length) :
    slice l lower upper = l.get ⟨lower, h2⟩ :: slice l (1 + lower) upper := by
  simp only [slice]
  rw [List.drop_eq_getElem_cons h2]
  have h3 : upper - lower = (upper - (1 + lower)) + 1 := by omega
  have h4 : lower + 1 = 1 + lower := by omega
  rw [h3, h4]
  simp only [List.take_succ_cons, List.get_eq_getElem]

theorem slice_split (l : List α) (lower mid upper : Nat) (h1 : lower ≤ mid)
    (h2 : mid ≤ upper) :
    slice l lower upper = slice l lower mid ++ slice l mid upper := by
  simp only [slice]
  have hd : l.drop mid = (l.drop lower).drop (mid - lower) := by
    rw [List.drop_drop]
    congr 1
    omega
  rw [hd]
  have : upper - lower = (mid - lower) + (upper - mid) := by omega
  rw [this, List.take_add]

theorem slice_take (l : List α) (lower upper n : Nat) (h : n ≤ upper - lower) :
    (slice l lower upper).take n = slice l lower (lower + n) := by
  simp only [slice, List.take_take]
  congr 1
  omega

theorem slice_nil (l : List α) (lower upper : Nat) (h : upper ≤ lower) :
    slice l lower upper = [] := by
  simp [slice, Nat.sub_eq_zero_of_le h]

theorem keySorted_slice {β : Type} (l : List (K × β)) (hs : KeySorted l)
    (lower upper : Nat) : KeySorted (slice l lower upper) :=
  List.Pairwise.sublist
    (List.Sublist.trans (List.take_sublist _ _) (List.drop_sublist _ _)) hs

theorem keySorted_monoOn_lt {β : Type} (l : List (K × β)) (hs : KeySorted l)
    (T : K) : MonoOn (fun x => decide (x.1 < T)) l := by
  induction l with
  | nil => intro x hx; simp at hx
  | cons a t ih =>
    intro x hx
    rw [List.dropWhile_cons] at hx
    by_cases hp : a.1 < T
    · rw [if_pos (by simpa using hp)] at hx
      exact ih hs.of_cons x hx
    · rw [if_neg (by simpa using hp)] at hx
      rcases List.mem_cons.mp hx with rfl | hxt
      · simp [hp]
      · have hax : a.1 < x.1 := (List.pairwise_cons.mp hs).1 x hxt
        simp only [decide_eq_false_iff_not]
        intro hlt
        exact hp (lt_trans hax hlt)

theorem leafMerge_run (run rest : List (K × Int)) (e2 : K × Int)
    (b : List (K × Int)) (hrun : ∀ x ∈ run, x.1 < e2.1) :
    leafMerge (run ++ rest) (e2 :: b) = run ++ leafMerge rest (e2 :: b) := by
  induction run with
  | nil => simp
  | cons x r ihr =>
    have hx : x.1 < e2.1 := hrun x (by simp)
    rw [List.cons_append, leafMerge, if_pos hx,
      ihr (fun y hy => hrun y (by simp [hy]))]
    simp

theorem leafMerge_swap_run (e1 : K × Int) (a : List (K × Int))
    (run rest : List (K × Int)) (hrun : ∀ x ∈ run, x.1 < e1.1) :
    leafMerge (e1 :: a) (run ++ rest) = run ++ leafMerge (e1 :: a) rest := by
  induction run with
  | nil => simp
  | cons x r ihr =>
    have hx : x.1 < e1.1 := hrun x (by simp)
    rw [List.cons_append, leafMerge, if_neg (by exact fun hh => absurd hx (asymm hh)),
      if_neg (by exact fun hh => absurd hx (by rw [hh]; exact lt_irrefl _)),
      ihr (fun y hy => hrun y (by simp [hy]))]
    simp

/-- The fuelled leaf `extend_merge` agrees with the clean recursive merge on
sorted in-bounds ranges. -/
theorem extMerge0_eq_leafMerge (v1 v2 : List (K × Int)) :
    ∀ (fuel l1 u1 l2 u2 : Nat) (acc : List (K × Int)),
      u1 ≤ v1.length → u2 ≤ v2.length →
      KeySorted (slice v1 l1 u1) → KeySorted (slice v2 l2 u2) →
      (u1 - l1) + (u2 - l2) < fuel →
      extMerge0 fuel acc v1 l1 u1 v2 l2 u2 =
        acc ++ leafMerge (slice v1 l1 u1) (slice v2 l2 u2) := by
  intro fuel
  induction fuel with
  | zero => intro l1 u1 l2 u2 acc _ _ _ _ hf; omega
  | succ fuel ih =>
    intro l1 u1 l2 u2 acc hb1 hb2 hs1 hs2 hf
    by_cases hcond : l1 < u1 ∧ l2 < u2
    · obtain ⟨h1, h2⟩ := hcond
      have hl1 : l1 < v1.length := lt_of_lt_of_le h1 hb1
      have hl2 : l2 < v2.length := lt_of_lt_of_le h2 hb2
      simp only [extMerge0, List.get?_eq_get hl1, List.get?_eq_get hl2]
      rw [if_pos ⟨h1, h2⟩]
      set e1 := v1.get ⟨l1, hl1⟩ with he1
      set e2 := v2.get ⟨l2, hl2⟩ with he2
      have hslice1 : slice v1 l1 u1 = e1 :: slice v1 (1 + l1) u1 :=
        slice_eq_cons v1 l1 u1 h1 hl1
      have hslice2 : slice v2 l2 u2 = e2 :: slice v2 (1 + l2) u2 :=
        slice_eq_cons v2 l2 u2 h2 hl2
      by_cases hlt : e1.1 < e2.1
      · rw [if_pos hlt]
        have hsub1 : KeySorted (slice v1 (1 + l1) u1) := by
          rw [hslice1] at hs1; exact hs1.of_cons
        have hadv : advance (slice v1 (1 + l1) u1) (fun x => decide (x.1 < e2.1)) =
            ((slice v1 (1 + l1) u1).takeWhile (fun x => decide (x.1 < e2.1))).length :=
          advance_takeWhile _ _ (keySorted_monoOn_lt _ hsub1 _)
        set tw := (slice v1 (1 + l1) u1).takeWhile (fun x => decide (x.1 < e2.1)) with htw
        have htwle : tw.length ≤ u1 - (1 + l1) := by
          have hll := length_takeWhile_le' (fun x => decide (x.1 < e2.1))
            (slice v1 (1 + l1) u1)
          rw [slice_length v1 (1 + l1) u1 hb1] at hll
          exact hll
        set step := 1 + advance (slice v1 (1 + l1) u1) (fun x => decide (x.1 < e2.1))
          with hstep
        have hstepeq : step = 1 + tw.length := by rw [hstep, hadv]
        have hstep1 : l1 + step ≤ u1 := by omega
        have h5 : (slice v1 (1 + l1) u1).take tw.length = tw := by
          rw [htw, take_takeWhile_len]
        have h6 : (slice v1 (1 + l1) u1).take tw.length =
            slice v1 (1 + l1) ((1 + l1) + tw.length) :=
          slice_take v1 (1 + l1) u1 tw.length (by omega)
        have h7 : slice v1 (1 + l1) (l1 + step) = tw := by
          rw [show l1 + step = (1 + l1) + tw.length by omega, ← h6, h5]
        have hrun : slice v1 l1 (l1 + step) = e1 :: tw := by
          rw [slice_eq_cons v1 l1 (l1 + step) (by omega) hl1, h7]
        have hsplit : slice v1 l1 u1 =
            slice v1 l1 (l1 + step) ++ slice v1 (l1 + step) u1 :=
          slice_split v1 l1 (l1 + step) u1 (by omega) hstep1
        have hsortrest : KeySorted (slice v1 (l1 + step) u1) := by
          rw [hsplit] at hs1
          exact (List.pairwise_append.mp hs1).2.1
        have hrunlt : ∀ x ∈ slice v1 l1 (l1 + step), x.1 < e2.1 := by
          intro x hx
          rw [hrun] at hx
          rcases List.mem_cons.mp hx with rfl | hxt
          · exact hlt
          · have := List.mem_takeWhile_imp (htw ▸ hxt)
            simpa using this
        rw [ih (l1 + step) u1 l2 u2 _ hb1 hb2 hsortrest hs2 (by omega)]
        rw [hsplit, hslice2, leafMerge_run _ _ _ _ hrunlt, extendTrie0]
        simp
      · rw [if_neg hlt]
        by_cases heq : e1.1 = e2.1
        · rw [if_pos heq]
          have hsub1 : KeySorted (slice v1 (1 + l1) u1) := by
            rw [hslice1] at hs1; exact hs1.of_cons
          have hsub2 : KeySorted (slice v2 (1 + l2) u2) := by
            rw [hslice2] at hs2; exact hs2.of_cons
          have hc1 : l1 + 1 = 1 + l1 := by omega
          have hc2 : l2 + 1 = 1 + l2 := by omega
          rw [hc1, hc2, ih (1 + l1) u1 (1 + l2) u2 _ hb1 hb2 hsub1 hsub2 (by omega)]
          rw [hslice1, hslice2, leafMerge, if_neg hlt, if_pos heq]
          by_cases hz : e1.2 + e2.2 = 0
          · rw [if_pos hz, if_pos hz]
          · rw [if_neg hz, if_neg hz]
            simp
        · rw [if_neg heq]
          have hgt : e2.1 < e1.1 := by
            rcases lt_trichotomy e1.1 e2.1 with h | h | h
            · exact absurd h hlt
            · exact absurd h heq
            · exact h
          have hsub2 : KeySorted (slice v2 (1 + l2) u2) := by
            rw [hslice2] at hs2; exact hs2.of_cons
          have hadv : advance (slice v2 (1 + l2) u2) (fun x => decide (x.1 < e1.1)) =
              ((slice v2 (1 + l2) u2).takeWhile (fun x => decide (x.1 < e1.1))).length :=
            advance_takeWhile _ _ (keySorted_monoOn_lt _ hsub2 _)
          set tw := (slice v2 (1 + l2) u2).takeWhile (fun x => decide (x.1 < e1.1)) with htw
          have htwle : tw.length ≤ u2 - (1 + l2) := by
            have hll := length_takeWhile_le' (fun x => decide (x.1 < e1.1))
              (slice v2 (1 + l2) u2)
            rw [slice_length v2 (1 + l2) u2 hb2] at hll
            exact hll
          set step := 1 + advance (slice v2 (1 + l2) u2) (fun x => decide (x.1 < e1.1))
            with hstep
          have hstepeq : step = 1 + tw.length := by rw [hstep, hadv]
          have hstep2 : l2 + step ≤ u2 := by omega
          have h5 : (slice v2 (1 + l2) u2).take tw.length = tw := by
            rw [htw, take_takeWhile_len]
          have h6 : (slice v2 (1 + l2) u2).take tw.length =
              slice v2 (1 + l2) ((1 + l2) + tw.length) :=
            slice_take v2 (1 + l2) u2 tw.length (by omega)
          have h7 : slice v2 (1 + l2) (l2 + step) = tw := by
            rw [show l2 + step = (1 + l2) + tw.length by omega, ← h6, h5]
          have hrun : slice v2 l2 (l2 + step) = e2 :: tw := by
            rw [slice_eq_cons v2 l2 (l2 + step) (by omega) hl2, h7]
          have hsplit : slice v2 l2 u2 =
              slice v2 l2 (l2 + step) ++ slice v2 (l2 + step) u2 :=
            slice_split v2 l2 (l2 + step) u2 (by omega) hstep2
          have hsortrest : KeySorted (slice v2 (l2 + step) u2) := by
            rw [hsplit] at hs2
            exact (List.pairwise_append.mp hs2).2.1
          have hrunlt : ∀ x ∈ slice v2 l2 (l2 + step), x.1 < e1.1 := by
            intro x hx
            rw [hrun] at hx
            rcases List.mem_cons.mp hx with rfl | hxt
            · exact hgt
            · have := List.mem_takeWhile_imp (htw ▸ hxt)
              simpa using this
          rw [ih l1 u1 (l2 + step) u2 _ hb1 hb2 hs1 hsortrest (by omega)]
          rw [hsplit, hslice1, leafMerge_swap_run _ _ _ _ hrunlt, extendTrie0]
          simp
    · rw [extMerge0, if_neg hcond]
      by_cases h1 : l1 < u1
      · rw [if_pos h1]
        have h2 : ¬ l2 < u2 := fun hh => hcond ⟨h1, hh⟩
        rw [slice_nil v2 l2 u2 (by omega), leafMerge_nil_right, extendTrie0]
      · rw [if_neg h1]
        rw [slice_nil v1 l1 u1 (by omega), leafMerge_nil_left]
        by_cases h2 : l2 < u2
        · rw [if_pos h2, extendTrie0]
        · rw [if_neg h2, slice_nil v2 l2 u2 (by omega)]
          simp

/-- `merge0` of sorted vectors is the clean recursive merge. -/
theorem merge0_eq_leafMerge (a b : List (K × Int)) (ha : KeySorted a)
    (hb : KeySorted b) : merge0 a b = leafMerge a b := by
  have h := extMerge0_eq_leafMerge a b (a.length + b.length + 1) 0 a.length 0 b.length []
    (le_refl _) (le_refl _) (by rw [slice_all]; exact ha) (by rw [slice_all]; exact hb)
    (by omega)
  rw [merge0, h, slice_all, slice_all]
  simp

/-! ### Weights and semantic facts about the leaf merge -/

/-- Total weight carried by key `k` in a leaf vector. -/
def wt (l : List (K × Int)) (k : K) : Int :=
  ((l.filter (fun e => decide (e.1 = k))).map (fun e => e.2)).sum

theorem wt_nil (k : K) : wt ([] : List (K × Int)) k = 0 := rfl

theorem wt_cons (e : K × Int) (t : List (K × Int)) (k : K) :
    wt (e :: t) k = (if e.1 = k then e.2 else 0) + wt t k := by
  by_cases h : e.1 = k
  · simp [wt, List.filter_cons, h]
  · simp [wt, List.filter_cons, h]

theorem wt_append (a b : List (K × Int)) (k : K) :
    wt (a ++ b) k = wt a k + wt b k := by
  simp [wt, List.filter_append]

theorem wt_zero_of_ne (l : List (K × Int)) (k : K) (h : ∀ e ∈ l, ¬ e.1 = k) :
    wt l k = 0 := by
  induction l with
  | nil => rfl
  | cons e t ih =>
    rw [wt_cons, if_neg (h e (by simp)), ih (fun x hx => h x (by simp [hx]))]
    ring

theorem leafMerge_keys_sub (a b : List (K × Int)) :
    ∀ e ∈ leafMerge a b, e.1 ∈ a.map Prod.fst ∨ e.1 ∈ b.map Prod.fst := by
  induction a, b using leafMerge.induct with
  | case1 l2 =>
    intro e he
    rw [leafMerge_nil_left] at he
    exact Or.inr (List.mem_map_of_mem _ he)
  | case2 l1 _ =>
    intro e he
    rw [leafMerge_nil_right] at he
    exact Or.inl (List.mem_map_of_mem _ he)
  | case3 e1 t1 e2 t2 hlt ih =>
    intro e he
    rw [leafMerge, if_pos hlt] at he
    rcases List.mem_cons.mp he with rfl | ht
    · left; simp
    · rcases ih e ht with h | h
      · left; simp only [List.map_cons, List.mem_cons]; right; exact h
      · right; exact h
  | case4 e1 t1 e2 t2 hlt heq hz ih =>
    intro e he
    rw [leafMerge, if_neg hlt, if_pos heq, if_pos hz] at he
    rcases ih e he with h | h
    · left; simp only [List.map_cons, List.mem_cons]; right; exact h
    · right; simp only [List.map_cons, List.mem_cons]; right; exact h
  | case5 e1 t1 e2 t2 hlt heq hz ih =>
    intro e he
    rw [leafMerge, if_neg hlt, if_pos heq, if_neg hz] at he
    rcases List.mem_cons.mp he with rfl | ht
    · left; simp
    · rcases ih e ht with h | h
      · left; simp only [List.map_cons, List.mem_cons]; right; exact h
      · right; simp only [List.map_cons, List.mem_cons]; right; exact h
  | case6 e1 t1 e2 t2 hlt hne ih =>
    intro e he
    rw [leafMerge, if_neg hlt, if_neg hne] at he
    rcases List.mem_cons.mp he with rfl | ht
    · right; simp
    · rcases ih e ht with h | h
      · left; exact h
      · right; simp only [List.map_cons, List.mem_cons]; right; exact h

theorem keySorted_head_lt {β : Type} (e : K × β) (t : List (K × β))
    (hs : KeySorted (e :: t)) : ∀ y ∈ t, e.1 < y.1 :=
  (List.pairwise_cons.mp hs).1

theorem leafMerge_sorted (a b : List (K × Int)) :
    KeySorted a → KeySorted b → KeySorted (leafMerge a b) := by
  induction a, b using leafMerge.induct with
  | case1 l2 => intro _ hb; rwa [leafMerge_nil_left]
  | case2 l1 _ => intro ha _; rwa [leafMerge_nil_right]
  | case3 e1 t1 e2 t2 hlt ih =>
    intro ha hb
    rw [leafMerge, if_pos hlt, KeySorted, List.pairwise_cons]
    refine ⟨?_, ih ha.of_cons hb⟩
    intro y hy
    rcases leafMerge_keys_sub _ _ y hy with h | h
    · obtain ⟨z, hz, hz2⟩ := List.mem_map.mp h
      rw [← hz2]
      exact keySorted_head_lt e1 t1 ha z hz
    · obtain ⟨z, hz, hz2⟩ := List.mem_map.mp h
      rcases List.mem_cons.mp hz with rfl | hzz
      · rw [← hz2]; exact hlt
      · rw [← hz2]; exact lt_trans hlt (keySorted_head_lt e2 t2 hb z hzz)
  | case4 e1 t1 e2 t2 hlt heq hz ih =>
    intro ha hb
    rw [leafMerge, if_neg hlt, if_pos heq, if_pos hz]
    exact ih ha.of_cons hb.of_cons
  | case5 e1 t1 e2 t2 hlt heq hz ih =>
    intro ha hb
    rw [leafMerge, if_neg hlt, if_pos heq, if_neg hz, KeySorted, List.pairwise_cons]
    refine ⟨?_, ih ha.of_cons hb.of_cons⟩
    intro y hy
    rcases leafMerge_keys_sub _ _ y hy with h | h
    · obtain ⟨z, hz, hz2⟩ := List.mem_map.mp h
      rw [← hz2]
      exact keySorted_head_lt e1 t1 ha z hz
    · obtain ⟨z, hz, hz2⟩ := List.mem_map.mp h
      rw [← hz2, heq]
      exact keySorted_head_lt e2 t2 hb z hz
  | case6 e1 t1 e2 t2 hlt hne ih =>
    intro ha hb
    have hgt : e2.1 < e1.1 := by
      rcases lt_trichotomy e1.1 e2.1 with h | h | h
      · exact absurd h hlt
      · exact absurd h hne
      · exact h
    rw [leafMerge, if_neg hlt, if_neg hne, KeySorted, List.pairwise_cons]
    refine ⟨?_, ih ha hb.of_cons⟩
    intro y hy
    rcases leafMerge_keys_sub _ _ y hy with h | h
    · obtain ⟨z, hz, hz2⟩ := List.mem_map.mp h
      rcases List.mem_cons.mp hz with rfl | hzz
      · rw [← hz2]; exact hgt
      · rw [← hz2]; exact lt_trans hgt (keySorted_head_lt e1 t1 ha z hzz)
    · obtain ⟨z, hz, hz2⟩ := List.mem_map.mp h
      rw [← hz2]
      exact keySorted_head_lt e2 t2 hb z hz

theorem wt_leafMerge (a b : List (K × Int)) (k : K) :
    KeySorted a → KeySorted b → wt (leafMerge a b) k = wt a k + wt b k := by
  induction a, b using leafMerge.induct with
  | case1 l2 => intro _ _; rw [leafMerge_nil_left, wt_nil]; ring
  | case2 l1 _ => intro _ _; rw [leafMerge_nil_right, wt_nil]; ring
  | case3 e1 t1 e2 t2 hlt ih =>
    intro ha hb
    rw [leafMerge, if_pos hlt, wt_cons, ih ha.of_cons hb, wt_cons, wt_cons e1 t1 k]
    ring
  | case4 e1 t1 e2 t2 hlt heq hz ih =>
    intro ha hb
    rw [leafMerge, if_neg hlt, if_pos heq, if_pos hz, ih ha.of_cons hb.of_cons,
      wt_cons, wt_cons]
    by_cases hk : e1.1 = k
    · rw [if_pos hk, if_pos (heq ▸ hk)]
      omega
    · rw [if_neg hk, if_neg (heq ▸ hk)]
      ring
  | case5 e1 t1 e2 t2 hlt heq hz ih =>
    intro ha hb
    rw [leafMerge, if_neg hlt, if_pos heq, if_neg hz, wt_cons,
      ih ha.of_cons hb.of_cons, wt_cons, wt_cons]
    by_cases hk : e1.1 = k
    · rw [if_pos hk, if_pos hk, if_pos (heq ▸ hk)]
      ring
    · rw [if_neg hk, if_neg hk, if_neg (heq ▸ hk)]
      ring
  | case6 e1 t1 e2 t2 hlt hne ih =>
    intro ha hb
    rw [leafMerge, if_neg hlt, if_neg hne, wt_cons, ih ha hb.of_cons, wt_cons,
      wt_cons e2 t2 k]
    ring

/-! ### `Arbor` (src/arbor.rs) at the leaf layer -/

/-- The merge-accumulate loop of `Arbor::append`, acting on the reversed
(newest-first) list of resident tries: while the just-pushed trie is within
2× of the previous top (`trie1.tuples() > trie2.tuples() / 2`), pop both and
merge. -/
def arborAppendLoop : List (List (K × Int)) → List (K × Int) → List (List (K × Int))
  | [], t1 => [t1]
  | t2 :: rest, t1 =>
    if t2.length / 2 < t1.length then arborAppendLoop rest (merge0 t1 t2)
    else t1 :: t2 :: rest

/-- `Arbor::append` (src/arbor.rs): tries are kept in `Vec` order (oldest
first); the pop-merge loop works on the reversed list. -/
def arborAppend (tries : List (List (K × Int))) (t : List (K × Int)) :
    List (List (K × Int)) :=
  (arborAppendLoop tries.reverse t).reverse

/-- `Arbor::extend_ordered`: build a trie with `from_ordered`, then `append`. -/
def arborExtendOrdered (tries : List (List (K × Int))) (batch : List (K × Int)) :
    List (List (K × Int)) :=
  arborAppend tries (fromOrdered0 batch)

/-- `Arbor::size`: total tuples over resident tries. -/
def arborSize (tries : List (List (K × Int))) : Nat :=
  (tries.map List.length).sum

/-- Executable adjacent-pair test, used to state the Arbor size invariants. -/
def chainB (r : α → α → Bool) : List α → Bool
  | a :: b :: rest => r a b && chainB r (b :: rest)
  | _ => true

theorem chainB_iff (r : α → α → Bool) (l : List α) :
    chainB r l = true ↔ List.Chain' (fun a b => r a b = true) l := by
  induction l with
  | nil => simp [chainB]
  | cons a t ih =>
    cases t with
    | nil => simp [chainB]
    | cons b rest =>
      rw [chainB, Bool.and_eq_true, List.chain'_cons, ih]

/-- The documented size invariant: each later trie at most half the size of
the one before it (integer division). -/
def SpacedHalf (tries : List (List (K × Int))) : Prop :=
  chainB (fun a b => decide (b.length ≤ a.length / 2)) tries = true

/-- The spec's strict geometric claim: each earlier trie strictly more than
twice the size of the next. -/
def SpacedStrict (tries : List (List (K × Int))) : Prop :=
  chainB (fun a b => decide (2 * b.length < a.length)) tries = true

/-- The amended geometric claim: each earlier trie at least twice the size
of the next. -/
def SpacedTwice (tries : List (List (K × Int))) : Prop :=
  chainB (fun a b => decide (2 * b.length ≤ a.length)) tries = true

instance (tries : List (List (K × Int))) : Decidable (SpacedHalf tries) := by
  unfold SpacedHalf; infer_instance

instance (tries : List (List (K × Int))) : Decidable (SpacedStrict tries) := by
  unfold SpacedStrict; infer_instance

instance (tries : List (List (K × Int))) : Decidable (SpacedTwice tries) := by
  unfold SpacedTwice; infer_instance

theorem arborAppendLoop_chain (r : List (K × Int) → List (K × Int) → Bool)
    (hr : ∀ t2 t1, ¬ t2.length / 2 < t1.length → r t1 t2 = true)
    (rev : List (List (K × Int))) (t : List (K × Int))
    (h : List.Chain' (fun a b => r a b = true) rev) :
    List.Chain' (fun a b => r a b = true) (arborAppendLoop rev t) := by
  induction rev generalizing t with
  | nil => simp [arborAppendLoop]
  | cons t2 rest ih =>
    rw [arborAppendLoop]
    by_cases hc : t2.length / 2 < t.length
    · rw [if_pos hc]
      exact ih _ h.tail
    · rw [if_neg hc]
      rw [List.chain'_cons]
      exact ⟨hr t2 t hc, h⟩

theorem arborAppend_chain (r : List (K × Int) → List (K × Int) → Bool)
    (hr : ∀ t2 t1, ¬ t2.length / 2 < t1.length → r t1 t2 = true)
    (tries : List (List (K × Int))) (t : List (K × Int))
    (h : chainB (fun a b => r b a) tries = true) :
    chainB (fun a b => r b a) (arborAppend tries t) = true := by
  rw [chainB_iff] at h ⊢
  rw [arborAppend]
  rw [List.chain'_reverse]
  have hrev : List.Chain' (fun a b => r a b = true) tries.reverse := by
    rw [List.chain'_reverse]
    exact h
  exact arborAppendLoop_chain r hr tries.reverse t hrev

/-- C2.  After every `Arbor::append` (hence also after `push` and
`extend_ordered`) on an arbor already satisfying the size invariant, every
adjacent pair of resident tries `(earlier, later)` satisfies
`later.tuples() ≤ earlier.tuples() / 2`. -/
theorem claim_C2 (tries : List (List (K × Int))) (t : List (K × Int))
    (h : SpacedHalf tries) : SpacedHalf (arborAppend tries t) := by
  have := arborAppend_chain (fun t1 t2 => decide (t1.length ≤ t2.length / 2))
    (fun t2 t1 hc => by simp; omega) tries t
  exact this h

/-- Witness for C2 at a concrete arbor. -/
theorem claim_C2_witness :
    SpacedHalf [[((0 : Nat), (1 : Int)), (1, 1), (2, 1), (3, 1)], [(4, 1), (5, 1)]] ∧
      SpacedHalf (arborAppend
        [[((0 : Nat), (1 : Int)), (1, 1), (2, 1), (3, 1)], [(4, 1), (5, 1)]] [(9, 1)]) :=
  ⟨by decide, claim_C2 _ _ (by decide)⟩

/-- Counterexample to C3 as stated: two `extend_ordered` batches of four and
two tuples leave the arbor as `[4-trie, 2-trie]`, and `4 > 2 · 2` fails. -/
theorem claim_C3_cex :
    ¬ SpacedStrict (arborExtendOrdered
      (arborExtendOrdered [] [((0 : Nat), (1 : Int)), (1, 1), (2, 1), (3, 1)])
      [(4, 1), (5, 1)]) := by
  decide

/-- C3 (amended).  After every `Arbor::append` on an arbor satisfying the
`≥ 2×` spacing, every adjacent pair satisfies
`tries[i].tuples() ≥ 2 * tries[i+1].tuples()` — the strict `>` claimed by the
spec fails (see the counterexample), the loop guard only enforces `≥`. -/
theorem claim_C3_amended (tries : List (List (K × Int))) (t : List (K × Int))
    (h : SpacedTwice tries) : SpacedTwice (arborAppend tries t) := by
  have := arborAppend_chain (fun t1 t2 => decide (2 * t1.length ≤ t2.length))
    (fun t2 t1 hc => by simp; omega) tries t
  exact this h

/-- Witness for the amended C3 at a concrete arbor. -/
theorem claim_C3_amended_witness :
    SpacedTwice [[((0 : Nat), (1 : Int)), (1, 1), (2, 1), (3, 1)], [(4, 1), (5, 1)]] ∧
      SpacedTwice (arborAppend
        [[((0 : Nat), (1 : Int)), (1, 1), (2, 1), (3, 1)], [(4, 1), (5, 1)]] [(9, 1)]) :=
  ⟨by decide, claim_C3_amended _ _ (by decide)⟩

/-! ### Cursors (src/trie.rs): `SliceCursor` and `TrieCursor` -/

/-- `SliceCursor`: an index into a slice of `(K, V)` pairs. -/
structure SliceCursor (K V : Type) where
  index : Nat
  slice : List (K × V)

/-- `SliceCursor::next`: yield the current element and advance. -/
def sliceNext {V : Type} (c : SliceCursor K V) : Option ((K × V) × SliceCursor K V) :=
  if h : c.index < c.slice.length then
    some (c.slice.get ⟨c.index, h⟩, ⟨c.index + 1, c.slice⟩)
  else none

/-- `SliceCursor::seek`: advance the index past every key `< key`. -/
def sliceSeek {V : Type} (c : SliceCursor K V) (key : K) : SliceCursor K V :=
  ⟨c.index + advance (c.slice.drop c.index) (fun x => decide (x.1 < key)), c.slice⟩

/-- `SliceCursor::peek`. -/
def slicePeek {V : Type} (c : SliceCursor K V) : Option K :=
  (c.slice.get? c.index).map Prod.fst

/-- Drain a slice cursor with repeated `next`, fuelled. -/
def sliceRun {V : Type} : Nat → SliceCursor K V → List (K × V)
  | 0, _ => []
  | fuel + 1, c =>
    match sliceNext c with
    | none => []
    | some (e, c') => e :: sliceRun fuel c'

/-- All elements a slice cursor will yield. -/
def sliceTraverse {V : Type} (c : SliceCursor K V) : List (K × V) :=
  sliceRun c.slice.length c

/-- `TrieCursor`: an index into a `(K, end_offset)` key slice.  `next`
yields the key together with the value range `[v_lower, v_upper)`. -/
structure TrieCursorM (K : Type) where
  index : Nat
  keys : List (K × Nat)

/-- The element `TrieCursor::next` yields at position `i`. -/
def trieElem (keys : List (K × Nat)) (i : Nat) (h : i < keys.length) :
    K × Nat × Nat :=
  ((keys.get ⟨i, h⟩).1,
    (if i = 0 then 0 else ((keys.get? (i - 1)).map Prod.snd).getD 0,
     (keys.get ⟨i, h⟩).2))

/-- `TrieCursor::next`. -/
def trieNext (c : TrieCursorM K) : Option ((K × Nat × Nat) × TrieCursorM K) :=
  if h : c.index < c.keys.length then
    some (trieElem c.keys c.index h, ⟨c.index + 1, c.keys⟩)
  else none

/-- `TrieCursor::seek`. -/
def trieSeek (c : TrieCursorM K) (key : K) : TrieCursorM K :=
  ⟨c.index + advance (c.keys.drop c.index) (fun x => decide (x.1 < key)), c.keys⟩

/-- `TrieCursor::peek`. -/
def triePeek (c : TrieCursorM K) : Option K :=
  (c.keys.get? c.index).map Prod.fst

/-- Drain a trie cursor with repeated `next`, fuelled. -/
def trieRun : Nat → TrieCursorM K → List (K × Nat × Nat)
  | 0, _ => []
  | fuel + 1, c =>
    match trieNext c with
    | none => []
    | some (e, c') => e :: trieRun fuel c'

/-- All elements a trie cursor will yield. -/
def trieTraverse (c : TrieCursorM K) : List (K × Nat × Nat) :=
  trieRun c.keys.length c

theorem sliceRun_eq_drop {V : Type} :
    ∀ (fuel : Nat) (c : SliceCursor K V), c.slice.length - c.index ≤ fuel →
      sliceRun fuel c = c.slice.drop c.index := by
  intro fuel
  induction fuel with
  | zero =>
    intro c hf
    rw [sliceRun, List.drop_eq_nil_of_le]
    omega
  | succ fuel ih =>
    intro c hf
    rw [sliceRun]
    by_cases h : c.index < c.slice.length
    · rw [sliceNext, dif_pos h]
      show c.slice.get ⟨c.index, h⟩ :: sliceRun fuel ⟨c.index + 1, c.slice⟩ =
        c.slice.drop c.index
      rw [ih ⟨c.index + 1, c.slice⟩ (by simp; omega), List.drop_eq_getElem_cons h]
      rfl
    · rw [sliceNext, dif_neg h]
      show ([] : List (K × V)) = c.slice.drop c.index
      rw [List.drop_eq_nil_of_le]
      omega

theorem sliceTraverse_eq_drop {V : Type} (c : SliceCursor K V) :
    sliceTraverse c = c.slice.drop c.index :=
  sliceRun_eq_drop c.slice.length c (by omega)

theorem dropWhile_head_false (p : α → Bool) (l : List α) (x : α) (rest : List α)
    (h : l.dropWhile p = x :: rest) : p x = false := by
  induction l with
  | nil => simp at h
  | cons a t ih =>
    rw [List.dropWhile_cons] at h
    by_cases hp : p a = true
    · rw [if_pos hp] at h
      exact ih h
    · rw [if_neg hp] at h
      cases h
      simpa using hp

/-- Seek over a sorted slice leaves exactly the `dropWhile` tail. -/
theorem sliceSeek_traverse {V : Type} (c : SliceCursor K V) (T : K)
    (hs : KeySorted c.slice) :
    sliceTraverse (sliceSeek c T) =
      (sliceTraverse c).dropWhile (fun e => decide (e.1 < T)) := by
  rw [sliceTraverse_eq_drop, sliceTraverse_eq_drop, sliceSeek]
  simp only
  have hsuf : KeySorted (c.slice.drop c.index) :=
    List.Pairwise.sublist (List.drop_sublist _ _) hs
  rw [advance_takeWhile _ _ (keySorted_monoOn_lt _ hsuf T)]
  rw [← List.drop_drop, ← dropWhile_eq_drop_len]

theorem sliceSeek_peek {V : Type} (c : SliceCursor K V) (T : K)
    (hs : KeySorted c.slice) :
    ∀ k, slicePeek (sliceSeek c T) = some k → T ≤ k := by
  intro k hk
  have htr := sliceSeek_traverse c T hs
  rw [sliceTraverse_eq_drop, sliceTraverse_eq_drop] at htr
  rw [slicePeek] at hk
  rcases hget : (sliceSeek c T).slice.get? (sliceSeek c T).index with _ | e
  · rw [hget] at hk; simp at hk
  · rw [hget] at hk
    simp only [Option.map] at hk
    rw [Option.some_inj] at hk
    have hdrop : ((sliceSeek c T).slice.drop (sliceSeek c T).index).head? = some e := by
      rw [← List.get?_zero, List.get?_drop]
      simpa using hget
    rcases hcons : (sliceSeek c T).slice.drop (sliceSeek c T).index with _ | ⟨x, rest⟩
    · rw [hcons] at hdrop; simp at hdrop
    · rw [hcons] at hdrop
      simp only [List.head?_cons, Option.some_inj] at hdrop
      have hfalse : decide (x.1 < T) = false := by
        have hseekslice : (sliceSeek c T).slice = c.slice := rfl
        rw [hseekslice] at htr hcons
        rw [hcons] at htr
        exact dropWhile_head_false (fun e => decide (e.1 < T))
          (c.slice.drop c.index) x rest htr.symm
      rw [hdrop] at hfalse
      rw [← hk]
      exact le_of_not_lt (by simpa using hfalse)

theorem trieRun_step (fuel : Nat) (keys : List (K × Nat)) (i : Nat)
    (h : i < keys.length) :
    trieRun (fuel + 1) ⟨i, keys⟩ = trieElem keys i h :: trieRun fuel ⟨i + 1, keys⟩ := by
  rw [trieRun, trieNext]
  simp only [dif_pos h]

theorem trieRun_nil (fuel : Nat) (keys : List (K × Nat)) (i : Nat)
    (h : ¬ i < keys.length) : trieRun fuel ⟨i, keys⟩ = [] := by
  cases fuel with
  | zero => rw [trieRun]
  | succ fuel =>
    rw [trieRun, trieNext]
    simp only [dif_neg h]

theorem trieRun_fuel : ∀ (fuel fuel' i : Nat) (keys : List (K × Nat)),
    keys.length - i ≤ fuel → keys.length - i ≤ fuel' →
    trieRun fuel ⟨i, keys⟩ = trieRun fuel' ⟨i, keys⟩ := by
  intro fuel
  induction fuel with
  | zero =>
    intro fuel' i keys hf hf'
    have h : ¬ i < keys.length := by omega
    rw [trieRun_nil fuel' keys i h, trieRun]
  | succ fuel ih =>
    intro fuel' i keys hf hf'
    by_cases h : i < keys.length
    · obtain ⟨f', rfl⟩ : ∃ f', fuel' = f' + 1 := ⟨fuel' - 1, by omega⟩
      rw [trieRun_step fuel keys i h, trieRun_step f' keys i h,
        ih f' (i + 1) keys (by omega) (by omega)]
    · rw [trieRun_nil _ keys i h, trieRun_nil _ keys i h]

theorem trieRun_dropWhile (keys : List (K × Nat)) (T : K) :
    ∀ (d i : Nat), i + d ≤ keys.length →
      (∀ (j : Nat) (e : K × Nat), keys.get? j = some e → i ≤ j → j < i + d →
        e.1 < T) →
      (∀ e : K × Nat, keys.get? (i + d) = some e → ¬ e.1 < T) →
      (trieRun (keys.length - i) ⟨i, keys⟩).dropWhile (fun e => decide (e.1 < T)) =
        trieRun (keys.length - (i + d)) ⟨i + d, keys⟩ := by
  intro d
  induction d with
  | zero =>
    intro i hle htrue hfalse
    by_cases h : i < keys.length
    · rw [show keys.length - i = (keys.length - (i + 1)) + 1 by omega,
        trieRun_step _ keys i h, List.dropWhile_cons]
      have hpred : ¬ (trieElem keys i h).1 < T := by
        have := hfalse (keys.get ⟨i, h⟩) (by rw [Nat.add_zero, List.get?_eq_get h])
        simpa [trieElem] using this
      rw [if_neg (by simpa using hpred)]
      rw [show i + 0 = i from rfl,
        show keys.length - i = (keys.length - (i + 1)) + 1 by omega,
        trieRun_step _ keys i h]
    · rw [trieRun_nil _ keys i h, trieRun_nil _ keys (i + 0) (by omega)]
      rfl
  | succ d ih =>
    intro i hle htrue hfalse
    have h : i < keys.length := by omega
    rw [show keys.length - i = (keys.length - (i + 1)) + 1 by omega,
      trieRun_step _ keys i h, List.dropWhile_cons]
    have hpred : (trieElem keys i h).1 < T :=
      htrue i (keys.get ⟨i, h⟩) (List.get?_eq_get h) (le_refl i) (by omega)
    rw [if_pos (by simpa using hpred)]
    have hrec := ih (i + 1) (by omega)
      (fun j e hje h1 h2 => htrue j e hje (by omega) (by omega))
      (fun e hje => hfalse e (by rw [show i + (d + 1) = i + 1 + d by omega]; exact hje))
    rw [show i + (d + 1) = i + 1 + d by omega, hrec]

/-- Seek over a sorted trie cursor leaves exactly the `dropWhile` tail of the
yielded element stream. -/
theorem trieSeek_traverse (c : TrieCursorM K) (T : K) (ht : KeySorted c.keys) :
    trieTraverse (trieSeek c T) =
      (trieTraverse c).dropWhile (fun e => decide (e.1 < T)) := by
  obtain ⟨i, keys⟩ := c
  simp only [trieSeek, trieTraverse] at *
  by_cases hbound : i ≤ keys.length
  · have hsuf : KeySorted (keys.drop i) := List.Pairwise.sublist (List.drop_sublist _ _) ht
    rw [advance_takeWhile _ _ (keySorted_monoOn_lt _ hsuf T)]
    set tw := ((keys.drop i).takeWhile (fun x => decide (x.1 < T))).length with htw
    have htwle : tw ≤ keys.length - i := by
      have hl := length_takeWhile_le' (fun x : K × Nat => decide (x.1 < T)) (keys.drop i)
      rw [List.length_drop] at hl
      omega
    have hchar := monoOn_get_iff (fun x : K × Nat => decide (x.1 < T)) (keys.drop i)
      (keySorted_monoOn_lt _ hsuf T)
    have hd := trieRun_dropWhile keys T tw i (by omega)
      (fun j e hje h1 h2 => by
        have hjlen : j < keys.length := (List.get?_eq_some.mp hje).1
        have hjd : j - i < (keys.drop i).length := by
          rw [List.length_drop]; omega
        have hget2 : (keys.drop i).get? (j - i) = some e := by
          rw [List.get?_drop, show i + (j - i) = j by omega]
          exact hje
        have hgeteq : (keys.drop i).get ⟨j - i, hjd⟩ = e := by
          rw [List.get?_eq_get hjd, Option.some_inj] at hget2
          exact hget2.symm ▸ rfl
        have := (hchar (j - i) hjd).mpr (by omega)
        rw [hgeteq] at this
        simpa using this)
      (fun e hje => by
        have hjlen : i + tw < keys.length := (List.get?_eq_some.mp hje).1
        have hjd : tw < (keys.drop i).length := by
          rw [List.length_drop]; omega
        have hget2 : (keys.drop i).get? tw = some e := by
          rw [List.get?_drop]
          exact hje
        have hgeteq : (keys.drop i).get ⟨tw, hjd⟩ = e := by
          rw [List.get?_eq_get hjd, Option.some_inj] at hget2
          exact hget2.symm ▸ rfl
        intro hcon
        have := (hchar tw hjd).mp (by rw [hgeteq]; simpa using hcon)
        omega)
    rw [trieRun_fuel keys.length (keys.length - i) i keys (by omega) (by omega),
      trieRun_fuel keys.length (keys.length - (i + tw)) (i + tw) keys (by omega) (by omega),
      hd]
  · have h1 : ¬ i < keys.length := by omega
    rw [trieRun_nil _ keys i h1]
    have hdrop : keys.drop i = [] := List.drop_eq_nil_of_le (by omega)
    rw [hdrop]
    have hadv : advance ([] : List (K × Nat)) (fun x => decide (x.1 < T)) = 0 := by
      rw [advance]
      simp
    rw [hadv, trieRun_nil _ keys (i + 0) (by omega)]
    rfl

theorem trieSeek_peek (c : TrieCursorM K) (T : K) (ht : KeySorted c.keys) :
    ∀ k, triePeek (trieSeek c T) = some k → T ≤ k := by
  obtain ⟨i, keys⟩ := c
  intro k hk
  simp only [trieSeek, triePeek] at hk
  set adv := advance (keys.drop i) (fun x => decide (x.1 < T)) with hadv
  rcases hget : keys.get? (i + adv) with _ | e
  · rw [hget] at hk; simp at hk
  · rw [hget] at hk
    simp only [Option.map] at hk
    rw [Option.some_inj] at hk
    have hlt : i + adv < keys.length := (List.get?_eq_some.mp hget).1
    have hsuf : KeySorted (keys.drop i) := List.Pairwise.sublist (List.drop_sublist _ _) ht
    have hadveq : adv = ((keys.drop i).takeWhile (fun x => decide (x.1 < T))).length := by
      rw [hadv, advance_takeWhile _ _ (keySorted_monoOn_lt _ hsuf T)]
    have hchar := monoOn_get_iff (fun x : K × Nat => decide (x.1 < T)) (keys.drop i)
      (keySorted_monoOn_lt _ hsuf T)
    have hjd : adv < (keys.drop i).length := by
      rw [List.length_drop]; omega
    have hget2 : (keys.drop i).get? adv = some e := by
      rw [List.get?_drop]
      exact hget
    have hgeteq : (keys.drop i).get ⟨adv, hjd⟩ = e := by
      rw [List.get?_eq_get hjd, Option.some_inj] at hget2
      exact hget2.symm ▸ rfl
    have hnot : ¬ e.1 < T := by
      intro hcon
      have := (hchar adv hjd).mp (by rw [hgeteq]; simpa using hcon)
      omega
    rw [← hk]
    exact le_of_not_lt hnot

/-- C5.  For every cursor (`TrieCursor` or `SliceCursor`) over a strictly
key-increasing slice and every target `T`: after `seek(T)`, `peek` returns
none or a key `≥ T`, and the elements subsequently yielded by `next` are
exactly the tail of the pre-seek element stream starting at the first
element with key `≥ T`. -/
theorem claim_C5 {V : Type} (cs : SliceCursor K V) (ct : TrieCursorM K) (T : K)
    (hs : KeySorted cs.slice) (ht : KeySorted ct.keys) :
    (sliceTraverse (sliceSeek cs T) =
        (sliceTraverse cs).dropWhile (fun e => decide (e.1 < T)) ∧
      ∀ k, slicePeek (sliceSeek cs T) = some k → T ≤ k) ∧
    (trieTraverse (trieSeek ct T) =
        (trieTraverse ct).dropWhile (fun e => decide (e.1 < T)) ∧
      ∀ k, triePeek (trieSeek ct T) = some k → T ≤ k) :=
  ⟨⟨sliceSeek_traverse cs T hs, sliceSeek_peek cs T hs⟩,
   ⟨trieSeek_traverse ct T ht, trieSeek_peek ct T ht⟩⟩

/-- Concrete slice cursor for the C5 witness (spec scenario S5). -/
def c5s : SliceCursor Nat Int := ⟨0, [(10, 1), (20, 1), (30, 1), (40, 1), (50, 1)]⟩

/-- Concrete trie cursor for the C5 witness. -/
def c5t : TrieCursorM Nat := ⟨0, [(10, 2), (20, 4), (30, 5)]⟩

/-- Witness for C5 at the spec's seek scenario. -/
theorem claim_C5_witness :
    KeySorted c5s.slice ∧ KeySorted c5t.keys ∧
    ((sliceTraverse (sliceSeek c5s 25) =
        (sliceTraverse c5s).dropWhile (fun e => decide (e.1 < 25)) ∧
      ∀ k, slicePeek (sliceSeek c5s 25) = some k → 25 ≤ k) ∧
     (trieTraverse (trieSeek c5t 25) =
        (trieTraverse c5t).dropWhile (fun e => decide (e.1 < 25)) ∧
      ∀ k, triePeek (trieSeek c5t 25) = some k → 25 ≤ k)) :=
  ⟨by decide, by decide, claim_C5 c5s c5t 25 (by decide) (by decide)⟩

/-! ### The k-way `CursorMerger` (src/merge.rs), over leaf slice cursors.

A loaded cursor is modelled as `(front, remaining)`; `sort_by` on front keys
is modelled by a stable insertion sort (extensionally equal to any stable
sort). -/

/-- One loaded cursor: the pre-fetched front item and the rest. -/
abbrev CursorEntry (K : Type) := (K × Int) × List (K × Int)

/-- Stable insert into a front-key-sorted cursor list. -/
def insertByKey (e : CursorEntry K) : List (CursorEntry K) → List (CursorEntry K)
  | [] => [e]
  | x :: xs => if e.1.1 ≤ x.1.1 then e :: x :: xs else x :: insertByKey e xs

/-- Stable sort by front key: models Rust's stable
`sort_by(|x,y| (x.0).0.cmp(&(y.0).0))`. -/
def sortByKey : List (CursorEntry K) → List (CursorEntry K)
  | [] => []
  | x :: xs => insertByKey x (sortByKey xs)

/-- Pairs sorted (non-strictly) by front key. -/
def FrontsSorted (cs : List (CursorEntry K)) : Prop :=
  List.Pairwise (fun a b : CursorEntry K => a.1.1 ≤ b.1.1) cs

theorem insertByKey_perm (e : CursorEntry K) (l : List (CursorEntry K)) :
    List.Perm (insertByKey e l) (e :: l) := by
  induction l with
  | nil => simp [insertByKey]
  | cons x xs ih =>
    rw [insertByKey]
    by_cases h : e.1.1 ≤ x.1.1
    · rw [if_pos h]
    · rw [if_neg h]
      exact List.Perm.trans (List.Perm.cons x ih) (List.Perm.swap e x xs)

theorem sortByKey_perm (l : List (CursorEntry K)) :
    List.Perm (sortByKey l) l := by
  induction l with
  | nil => simp [sortByKey]
  | cons x xs ih =>
    rw [sortByKey]
    exact List.Perm.trans (insertByKey_perm x (sortByKey xs)) (List.Perm.cons x ih)

theorem insertByKey_sorted (e : CursorEntry K) (l : List (CursorEntry K))
    (hl : FrontsSorted l) : FrontsSorted (insertByKey e l) := by
  induction l with
  | nil => simp [insertByKey, FrontsSorted]
  | cons x xs ih =>
    rw [insertByKey]
    by_cases h : e.1.1 ≤ x.1.1
    · rw [if_pos h]
      rw [FrontsSorted, List.pairwise_cons]
      refine ⟨?_, hl⟩
      intro b hb
      rcases List.mem_cons.mp hb with rfl | hbx
      · exact h
      · exact le_trans h ((List.pairwise_cons.mp hl).1 b hbx)
    · rw [if_neg h]
      rw [FrontsSorted, List.pairwise_cons]
      refine ⟨?_, ih (List.Pairwise.of_cons hl)⟩
      intro b hb
      have hmem := (insertByKey_perm e xs).mem_iff.mp hb
      rcases List.mem_cons.mp hmem with rfl | hbx
      · exact le_of_not_le h
      · exact (List.pairwise_cons.mp hl).1 b hbx

theorem sortByKey_sorted (l : List (CursorEntry K)) :
    FrontsSorted (sortByKey l) := by
  induction l with
  | nil => simp [sortByKey, FrontsSorted]
  | cons x xs ih =>
    rw [sortByKey]
    exact insertByKey_sorted x (sortByKey xs) ih

/-- `CursorMerger` state: the consumed-prefix marker and the loaded cursors. -/
structure CM (K : Type) where
  started : Option Nat
  cursors : List (CursorEntry K)

/-- `CursorMerger::from`: pre-advance each cursor once, drop empties, sort
by front key.  A full-range `SliceCursor` over a trie yields its head. -/
def cmFrom (tries : List (List (K × Int))) : CM K :=
  ⟨none, sortByKey (tries.filterMap (fun t =>
    match t with
    | [] => none
    | h :: r => some (h, r)))⟩

/-- `Arbor::cursor`: a merger over the full-range cursors of all tries, in
`Vec` order. -/
def arborCursor (tries : List (List (K × Int))) : CM K := cmFrom tries

/-- The advance phase of `CursorMerger::next`: step each of the first `p`
cursors, dropping the drained ones. -/
def advanceFirst : Nat → List (CursorEntry K) → List (CursorEntry K)
  | 0, l => l
  | _ + 1, [] => []
  | p + 1, e :: l =>
    match e.2 with
    | [] => advanceFirst p l
    | h :: t => (h, t) :: advanceFirst p l

/-- The running maximum the disturbed-prefix scan computes. -/
def maxOf (k : K) (ks : List K) : K :=
  ks.foldl (fun a b => if a < b then b else a) k

/-- The disturbed-prefix re-sort of `CursorMerger::next`: take the maximum
of the `survived` new front keys, extend the prefix while old front keys do
not exceed it, and re-sort that prefix. -/
def resort (survived : Nat) (l : List (CursorEntry K)) : List (CursorEntry K) :=
  match (l.take survived).map (fun e : CursorEntry K => e.1.1) with
  | [] => l
  | k :: ks =>
    sortByKey (l.take (survived +
      ((l.drop survived).takeWhile
        (fun e : CursorEntry K => decide (e.1.1 ≤ maxOf k ks))).length)) ++
    l.drop (survived +
      ((l.drop survived).takeWhile
        (fun e : CursorEntry K => decide (e.1.1 ≤ maxOf k ks))).length)

/-- The advance-and-re-sort phase of `CursorMerger::next`, applied when a
previous group of size `p` was exposed. -/
def normStep (p : Nat) (cs : List (CursorEntry K)) : List (CursorEntry K) :=
  resort ((cs.take p).countP (fun e : CursorEntry K => !(e.2.isEmpty)))
    (advanceFirst p cs)

/-- One call of `CursorMerger::next`: advance the previously exposed prefix,
re-sort, then expose the new equal-key prefix. -/
def cmNext (st : CM K) : Option (List (CursorEntry K)) × CM K :=
  match (match st.started with
    | none => st.cursors
    | some p => normStep p st.cursors) with
  | [] => (none, ⟨st.started, []⟩)
  | c :: rest =>
    (some ((c :: rest).take
      (1 + (rest.takeWhile (fun e : CursorEntry K => decide (e.1.1 = c.1.1))).length)),
     ⟨some (1 + (rest.takeWhile (fun e : CursorEntry K => decide (e.1.1 = c.1.1))).length),
      c :: rest⟩)

/-- Drive `next` to exhaustion, collecting the exposed groups. -/
def cmRun : Nat → CM K → List (List (CursorEntry K))
  | 0, _ => []
  | fuel + 1, st =>
    match cmNext st with
    | (none, _) => []
    | (some g, st') => g :: cmRun fuel st'

/-- All items remaining in a merger's cursors. -/
def cmContents : List (CursorEntry K) → List (K × Int)
  | [] => []
  | e :: rest => (e.1 :: e.2) ++ cmContents rest

/-- Remaining item count of a merger. -/
def cmSize (st : CM K) : Nat := (cmContents st.cursors).length

/-- A full traversal of the merger. -/
def cmTraverse (st : CM K) : List (List (CursorEntry K)) :=
  cmRun (cmSize st + 1) st

/-- The key of a group together with its accumulated weight. -/
def groupTotal (g : List (CursorEntry K)) : Option (K × Int) :=
  match g with
  | [] => none
  | e :: _ => some (e.1.1, (g.map (fun x => x.1.2)).sum)

theorem perm_append_swap (A B C : List α) :
    List.Perm (A ++ (B ++ C)) (B ++ (A ++ C)) := by
  have h1 : A ++ (B ++ C) = (A ++ B) ++ C := by rw [List.append_assoc]
  have h2 : (B ++ A) ++ C = B ++ (A ++ C) := by rw [List.append_assoc]
  rw [h1, ← h2]
  exact List.perm_append_comm.append_right C

theorem cmContents_append (a b : List (CursorEntry K)) :
    cmContents (a ++ b) = cmContents a ++ cmContents b := by
  induction a with
  | nil => simp [cmContents]
  | cons e t ih => simp [cmContents, ih]

theorem cmContents_eq_flatten (l : List (CursorEntry K)) :
    cmContents l = (l.map (fun e => e.1 :: e.2)).flatten := by
  induction l with
  | nil => rfl
  | cons e t ih => simp [cmContents, ih]

theorem cmContents_perm (a b : List (CursorEntry K)) (h : List.Perm a b) :
    List.Perm (cmContents a) (cmContents b) := by
  rw [cmContents_eq_flatten, cmContents_eq_flatten]
  exact (h.map _).flatten

theorem cmContents_advanceFirst_perm :
    ∀ (p : Nat) (cs : List (CursorEntry K)),
      List.Perm (cmContents cs)
        ((cs.take p).map (fun e => e.1) ++ cmContents (advanceFirst p cs)) := by
  intro p
  induction p with
  | zero => intro cs; simp [advanceFirst]
  | succ p ih =>
    intro cs
    cases cs with
    | nil => simp [advanceFirst, cmContents]
    | cons e l =>
      rw [advanceFirst]
      rcases he : e.2 with _ | ⟨h, t⟩
      · simp only [List.take_succ_cons, List.map_cons, cmContents, he]
        simp only [List.nil_append, List.cons_append]
        exact List.Perm.cons e.1 (ih l)
      · simp only [List.take_succ_cons, List.map_cons, cmContents, he]
        simp only [List.cons_append, List.nil_append]
        refine List.Perm.cons e.1 ?_
        have hih : List.Perm ((h :: t) ++ cmContents l)
            ((h :: t) ++ ((l.take p).map (fun e => e.1) ++ cmContents (advanceFirst p l))) :=
          (ih l).append_left (h :: t)
        have hsw := perm_append_swap (h :: t) ((l.take p).map (fun e => e.1))
          (cmContents (advanceFirst p l))
        exact List.Perm.trans hih hsw

theorem advanceFirst_entrySorted :
    ∀ (p : Nat) (cs : List (CursorEntry K)),
      (∀ f ∈ cs, KeySorted (f.1 :: f.2)) →
      ∀ e ∈ advanceFirst p cs, KeySorted (e.1 :: e.2) := by
  intro p
  induction p with
  | zero => intro cs h; simpa [advanceFirst] using h
  | succ p ih =>
    intro cs h
    cases cs with
    | nil => simp [advanceFirst]
    | cons e l =>
      rw [advanceFirst]
      rcases he : e.2 with _ | ⟨hh, tt⟩
      · exact ih l (fun f hf => h f (by simp [hf]))
      · intro x hx
        rcases List.mem_cons.mp hx with rfl | hxl
        · have := h e (by simp)
          rw [he] at this
          exact this.of_cons
        · exact ih l (fun f hf => h f (by simp [hf])) x hxl

theorem advanceFirst_eq_append :
    ∀ (p : Nat) (cs : List (CursorEntry K)),
      ∃ nw : List (CursorEntry K), advanceFirst p cs = nw ++ cs.drop p ∧
        nw.length = (cs.take p).countP (fun e : CursorEntry K => !(e.2.isEmpty)) := by
  intro p
  induction p with
  | zero => intro cs; exact ⟨[], by simp [advanceFirst], by simp⟩
  | succ p ih =>
    intro cs
    cases cs with
    | nil => exact ⟨[], by simp [advanceFirst], by simp⟩
    | cons e l =>
      rw [advanceFirst]
      obtain ⟨nw, hnw, hlen⟩ := ih l
      rcases he : e.2 with _ | ⟨hh, tt⟩
      · refine ⟨nw, by simpa using hnw, ?_⟩
        rw [List.take_succ_cons, List.countP_cons]
        simp [he, hlen]
      · refine ⟨(hh, tt) :: nw, by simpa using hnw, ?_⟩
        rw [List.take_succ_cons, List.countP_cons]
        simp [he, hlen]

theorem cmContents_advanceFirst_mem :
    ∀ (p : Nat) (cs : List (CursorEntry K)) (x : K × Int),
      x ∈ cmContents (advanceFirst p cs) →
      (∃ f ∈ cs.take p, x ∈ f.2) ∨ x ∈ cmContents (cs.drop p) := by
  intro p
  induction p with
  | zero => intro cs x hx; right; simpa [advanceFirst] using hx
  | succ p ih =>
    intro cs x hx
    cases cs with
    | nil => simp [advanceFirst, cmContents] at hx
    | cons e l =>
      rw [advanceFirst] at hx
      rcases he : e.2 with _ | ⟨hh, tt⟩
      · rw [he] at hx
        rcases ih l x hx with ⟨f, hf, hxf⟩ | h
        · exact Or.inl ⟨f, by simp [hf], hxf⟩
        · right; simpa using h
      · rw [he] at hx
        rw [cmContents, List.cons_append] at hx
        rcases List.mem_cons.mp hx with rfl | hx2
        · exact Or.inl ⟨e, by simp, by rw [he]; simp⟩
        · rcases List.mem_append.mp hx2 with hx3 | hx4
          · exact Or.inl ⟨e, by simp, by rw [he]; simp [hx3]⟩
          · rcases ih l x hx4 with ⟨f, hf, hxf⟩ | h
            · exact Or.inl ⟨f, by simp [hf], hxf⟩
            · right; simpa using h

theorem le_maxOf (k : K) (ks : List K) :
    k ≤ maxOf k ks ∧ ∀ x ∈ ks, x ≤ maxOf k ks := by
  induction ks generalizing k with
  | nil => exact ⟨le_refl k, by simp⟩
  | cons b bs ih =>
    rw [maxOf, List.foldl_cons]
    have hbase : k ≤ (if k < b then b else k) ∧ b ≤ (if k < b then b else k) := by
      by_cases h : k < b
      · rw [if_pos h]; exact ⟨le_of_lt h, le_refl b⟩
      · rw [if_neg h]; exact ⟨le_refl k, le_of_not_lt h⟩
    obtain ⟨h1, h2⟩ := ih (if k < b then b else k)
    refine ⟨le_trans hbase.1 h1, ?_⟩
    intro x hx
    rcases List.mem_cons.mp hx with rfl | hxs
    · exact le_trans hbase.2 h1
    · exact h2 x hxs

theorem frontsSorted_monoOn_le (l : List (CursorEntry K)) (hs : FrontsSorted l)
    (T : K) : MonoOn (fun e : CursorEntry K => decide (e.1.1 ≤ T)) l := by
  induction l with
  | nil => intro x hx; simp at hx
  | cons a t ih =>
    intro x hx
    rw [List.dropWhile_cons] at hx
    by_cases hp : a.1.1 ≤ T
    · rw [if_pos (by simpa using hp)] at hx
      exact ih hs.of_cons x hx
    · rw [if_neg (by simpa using hp)] at hx
      rcases List.mem_cons.mp hx with rfl | hxt
      · simp [hp]
      · have hax : a.1.1 ≤ x.1.1 := (List.pairwise_cons.mp hs).1 x hxt
        simp only [decide_eq_false_iff_not]
        intro hle
        exact hp (le_trans hax hle)

theorem resort_perm (s : Nat) (l : List (CursorEntry K)) :
    List.Perm (resort s l) l := by
  rcases hm : (l.take s).map (fun e : CursorEntry K => e.1.1) with _ | ⟨k, ks⟩
  · simp only [resort, hm]
    exact List.Perm.refl l
  · simp only [resort, hm]
    refine List.Perm.trans ((sortByKey_perm _).append_right _) ?_
    rw [List.take_append_drop]

theorem resort_sorted (s : Nat) (l : List (CursorEntry K))
    (hs : FrontsSorted (l.drop s)) : FrontsSorted (resort s l) := by
  rcases hm : (l.take s).map (fun e : CursorEntry K => e.1.1) with _ | ⟨k, ks⟩
  · simp only [resort, hm]
    have htake : l.take s = [] := by
      rcases hts : l.take s with _ | ⟨a, b⟩
      · rfl
      · rw [hts] at hm; simp at hm
    rcases List.take_eq_nil_iff.mp htake with rfl | rfl
    · simpa using hs
    · simp [FrontsSorted]
  · simp only [resort, hm]
    set M := maxOf k ks with hM
    set D := l.drop s with hD
    set tw := D.takeWhile (fun e : CursorEntry K => decide (e.1.1 ≤ M)) with htwdef
    have htake2 : l.take (s + tw.length) = l.take s ++ (D.take tw.length) := by
      rw [List.take_add, hD]
    have htakewhile : D.take tw.length = tw := by
      rw [htwdef, take_takeWhile_len]
    have hdrop2 : l.drop (s + tw.length) = D.drop tw.length := by
      rw [hD, List.drop_drop]
    have hdw : D.drop tw.length = D.dropWhile (fun e : CursorEntry K => decide (e.1.1 ≤ M)) := by
      rw [htwdef, ← dropWhile_eq_drop_len]
    rw [FrontsSorted, List.pairwise_append]
    refine ⟨sortByKey_sorted _, ?_, ?_⟩
    · rw [hdrop2]
      exact List.Pairwise.sublist (List.drop_sublist _ _) hs
    · intro a ha b hb
      have ha2 : a ∈ l.take (s + tw.length) := (sortByKey_perm _).mem_iff.mp ha
      have haM : a.1.1 ≤ M := by
        rw [htake2, htakewhile] at ha2
        rcases List.mem_append.mp ha2 with h1 | h2
        · have : a.1.1 ∈ (l.take s).map (fun e : CursorEntry K => e.1.1) :=
            List.mem_map_of_mem _ h1
          rw [hm] at this
          rcases List.mem_cons.mp this with heq | hks
          · rw [heq]; exact (le_maxOf k ks).1
          · exact (le_maxOf k ks).2 _ hks
        · have := List.mem_takeWhile_imp (htwdef ▸ h2)
          simpa using this
      have hbM : M < b.1.1 := by
        rw [hdrop2, hdw] at hb
        have := frontsSorted_monoOn_le D hs M b hb
        simp only [decide_eq_false_iff_not] at this
        exact lt_of_not_le this
      exact le_of_lt (lt_of_le_of_lt haM hbM)

/-! ### Canonical sorted key lists -/

/-- Insert a key into a strictly sorted key list, dropping duplicates. -/
def insertKeySorted (k : K) : List K → List K
  | [] => [k]
  | x :: xs =>
    if k < x then k :: x :: xs
    else if k = x then x :: xs
    else x :: insertKeySorted k xs

/-- The strictly sorted list of distinct keys of a leaf vector. -/
def sortedKeys (l : List (K × Int)) : List K :=
  l.foldr (fun e acc => insertKeySorted e.1 acc) []

theorem insertKeySorted_mem (k a : K) (ks : List K) :
    a ∈ insertKeySorted k ks ↔ a = k ∨ a ∈ ks := by
  induction ks with
  | nil => simp [insertKeySorted]
  | cons x xs ih =>
    rw [insertKeySorted]
    by_cases h1 : k < x
    · rw [if_pos h1]
      simp [List.mem_cons]
    · rw [if_neg h1]
      by_cases h2 : k = x
      · rw [if_pos h2]
        subst h2
        simp only [List.mem_cons]
        tauto
      · rw [if_neg h2]
        simp only [List.mem_cons, ih]
        tauto

theorem insertKeySorted_sorted (k : K) (ks : List K)
    (h : List.Pairwise (· < ·) ks) :
    List.Pairwise (· < ·) (insertKeySorted k ks) := by
  induction ks with
  | nil => simp [insertKeySorted]
  | cons x xs ih =>
    rw [insertKeySorted]
    by_cases h1 : k < x
    · rw [if_pos h1]
      rw [List.pairwise_cons]
      refine ⟨?_, h⟩
      intro b hb
      rcases List.mem_cons.mp hb with rfl | hbx
      · exact h1
      · exact lt_trans h1 ((List.pairwise_cons.mp h).1 b hbx)
    · rw [if_neg h1]
      by_cases h2 : k = x
      · rw [if_pos h2]; exact h
      · rw [if_neg h2]
        have hxk : x < k := lt_of_le_of_ne (le_of_not_lt h1) (fun hh => h2 hh.symm)
        rw [List.pairwise_cons]
        refine ⟨?_, ih h.of_cons⟩
        intro b hb
        rcases (insertKeySorted_mem k b xs).mp hb with rfl | hbx
        · exact hxk
        · exact (List.pairwise_cons.mp h).1 b hbx

theorem sortedKeys_sorted (l : List (K × Int)) :
    List.Pairwise (· < ·) (sortedKeys l) := by
  induction l with
  | nil => simp [sortedKeys]
  | cons e t ih => exact insertKeySorted_sorted e.1 _ ih

theorem sortedKeys_mem (l : List (K × Int)) (a : K) :
    a ∈ sortedKeys l ↔ a ∈ l.map Prod.fst := by
  induction l with
  | nil => simp [sortedKeys]
  | cons e t ih =>
    rw [sortedKeys, List.foldr_cons]
    rw [show t.foldr (fun e acc => insertKeySorted e.1 acc) [] = sortedKeys t from rfl]
    rw [insertKeySorted_mem, ih]
    simp [List.mem_cons]

theorem sorted_lt_unique : ∀ (m m' : List K), List.Pairwise (· < ·) m →
    List.Pairwise (· < ·) m' → (∀ k, k ∈ m ↔ k ∈ m') → m = m' := by
  intro m
  induction m with
  | nil =>
    intro m' _ _ hmem
    cases m' with
    | nil => rfl
    | cons b t => exact absurd ((hmem b).mpr (by simp)) (by simp)
  | cons a t ih =>
    intro m' hm hm' hmem
    cases m' with
    | nil => exact absurd ((hmem a).mp (by simp)) (by simp)
    | cons b t' =>
      have hab : a = b := by
        rcases List.mem_cons.mp ((hmem a).mp (by simp)) with h | h
        · exact h
        · have hba : b < a := (List.pairwise_cons.mp hm').1 a h
          rcases List.mem_cons.mp ((hmem b).mpr (by simp)) with h2 | h2
          · exact h2.symm
          · exact absurd (lt_trans ((List.pairwise_cons.mp hm).1 b h2) hba) (lt_irrefl a)
      subst hab
      have htails : t = t' := by
        refine ih t' hm.of_cons hm'.of_cons ?_
        intro k
        constructor
        · intro hk
          have hak : a < k := (List.pairwise_cons.mp hm).1 k hk
          rcases List.mem_cons.mp ((hmem k).mp (by simp [hk])) with rfl | h
          · exact absurd hak (lt_irrefl k)
          · exact h
        · intro hk
          have hak : a < k := (List.pairwise_cons.mp hm').1 k hk
          rcases List.mem_cons.mp ((hmem k).mpr (by simp [hk])) with rfl | h
          · exact absurd hak (lt_irrefl k)
          · exact h
      rw [htails]

theorem wt_perm (l l' : List (K × Int)) (h : List.Perm l l') (k : K) :
    wt l k = wt l' k := by
  unfold wt
  exact List.Perm.sum_eq ((h.filter _).map _)

theorem wt_allsame (l : List (K × Int)) (k : K) (h : ∀ e ∈ l, e.1 = k) :
    wt l k = (l.map (fun e => e.2)).sum := by
  induction l with
  | nil => rfl
  | cons e t ih =>
    rw [wt_cons, if_pos (h e (by simp)), ih (fun x hx => h x (by simp [hx]))]
    simp

theorem wt_zero_of_all_gt (l : List (K × Int)) (k : K) (h : ∀ e ∈ l, k < e.1) :
    wt l k = 0 :=
  wt_zero_of_ne l k (fun e he hk => absurd (hk ▸ h e he) (lt_irrefl k))

theorem eqkey_monoOn (rest : List (CursorEntry K)) (hs : FrontsSorted rest) (k : K)
    (hlb : ∀ e ∈ rest, k ≤ e.1.1) :
    MonoOn (fun e : CursorEntry K => decide (e.1.1 = k)) rest := by
  induction rest with
  | nil => intro x hx; simp at hx
  | cons a t ih =>
    intro x hx
    rw [List.dropWhile_cons] at hx
    by_cases hp : a.1.1 = k
    · rw [if_pos (by simpa using hp)] at hx
      exact ih hs.of_cons (fun e he => hlb e (by simp [he])) x hx
    · rw [if_neg (by simpa using hp)] at hx
      rcases List.mem_cons.mp hx with rfl | hxt
      · simp [hp]
      · have h1 : k ≤ a.1.1 := hlb a (by simp)
        have h2 : k < a.1.1 := lt_of_le_of_ne h1 (fun hh => hp hh.symm)
        have h3 : a.1.1 ≤ x.1.1 := (List.pairwise_cons.mp hs).1 x hxt
        simp only [decide_eq_false_iff_not]
        intro hcon
        rw [hcon] at h3
        exact absurd (lt_of_lt_of_le h2 h3) (lt_irrefl k)

theorem cmContents_mem_entry (D : List (CursorEntry K)) (x : K × Int)
    (hx : x ∈ cmContents D) : ∃ e ∈ D, x ∈ e.1 :: e.2 := by
  induction D with
  | nil => simp [cmContents] at hx
  | cons e t ih =>
    rw [cmContents] at hx
    rcases List.mem_append.mp hx with h | h
    · exact ⟨e, by simp, h⟩
    · obtain ⟨e2, he2, hxe2⟩ := ih h
      exact ⟨e2, by simp [he2], hxe2⟩

theorem group_take_eq (c : CursorEntry K) (rest : List (CursorEntry K)) :
    (c :: rest).take
        (1 + (rest.takeWhile (fun e : CursorEntry K => decide (e.1.1 = c.1.1))).length) =
      c :: rest.takeWhile (fun e : CursorEntry K => decide (e.1.1 = c.1.1)) := by
  rw [Nat.add_comm, List.take_succ_cons, take_takeWhile_len]

theorem cmNext_none_cons (c : CursorEntry K) (rest : List (CursorEntry K)) :
    cmNext (⟨none, c :: rest⟩ : CM K) =
      (some ((c :: rest).take
        (1 + (rest.takeWhile (fun e : CursorEntry K => decide (e.1.1 = c.1.1))).length)),
       ⟨some (1 + (rest.takeWhile (fun e : CursorEntry K => decide (e.1.1 = c.1.1))).length),
        c :: rest⟩) := rfl

theorem cmRun_some_eq (fuel p : Nat) (cs : List (CursorEntry K)) :
    cmRun fuel ⟨some p, cs⟩ = cmRun fuel ⟨none, normStep p cs⟩ := by
  cases fuel with
  | zero => rfl
  | succ fuel =>
    rw [cmRun, cmRun]
    rcases h : normStep p cs with _ | ⟨c, rest⟩
    · simp [cmNext, h]
    · simp [cmNext, h]

/-- Full correctness of the `CursorMerger` traversal over sorted cursors:
the per-group `(key, summed weight)` sequence is the ascending key list of
the remaining contents paired with the total weight per key. -/
theorem cmRun_totals :
    ∀ (n : Nat) (cs : List (CursorEntry K)), (cmContents cs).length ≤ n →
      FrontsSorted cs → (∀ f ∈ cs, KeySorted (f.1 :: f.2)) →
      ∀ (fuel : Nat), (cmContents cs).length < fuel →
      (cmRun fuel (⟨none, cs⟩ : CM K)).filterMap groupTotal =
        (sortedKeys (cmContents cs)).map (fun k => (k, wt (cmContents cs) k)) := by
  intro n
  induction n with
  | zero =>
    intro cs hn hfs hes fuel hfuel
    have hcs : cs = [] := by
      cases cs with
      | nil => rfl
      | cons e l => rw [cmContents] at hn; simp at hn
    subst hcs
    obtain ⟨f, rfl⟩ : ∃ f, fuel = f + 1 := ⟨fuel - 1, by omega⟩
    rw [cmRun]
    simp [cmNext, cmContents, sortedKeys]
  | succ n ih =>
    intro cs hn hfs hes fuel hfuel
    cases cs with
    | nil =>
      obtain ⟨f, rfl⟩ : ∃ f, fuel = f + 1 := ⟨fuel - 1, by omega⟩
      rw [cmRun]
      simp [cmNext, cmContents, sortedKeys]
    | cons c rest =>
      obtain ⟨f, rfl⟩ : ∃ f, fuel = f + 1 := ⟨fuel - 1, by omega⟩
      rw [cmRun, cmNext_none_cons]
      set tw := rest.takeWhile (fun e : CursorEntry K => decide (e.1.1 = c.1.1)) with htw
      set cnt := 1 + tw.length with hcnt
      rw [group_take_eq]
      show List.filterMap groupTotal
        ((c :: tw) :: cmRun f (⟨some cnt, c :: rest⟩ : CM K)) = _
      rw [cmRun_some_eq f cnt (c :: rest)]
      set N := normStep cnt (c :: rest) with hN
      -- length bookkeeping
      have htwlen : tw.length ≤ rest.length := by
        have hlt := length_takeWhile_le' (fun e : CursorEntry K => decide (e.1.1 = c.1.1)) rest
        rw [← htw] at hlt
        omega
      have hcntle : cnt ≤ (c :: rest).length := by simp [hcnt]; omega
      -- the group fronts
      set gf := ((c :: rest).take cnt).map (fun e : CursorEntry K => e.1) with hgf
      have hgf2 : gf = (c :: tw).map (fun e : CursorEntry K => e.1) := by
        rw [hgf, hcnt, htw, group_take_eq]
      -- the contents permutation
      have hperm : List.Perm (cmContents (c :: rest)) (gf ++ cmContents N) := by
        refine List.Perm.trans (cmContents_advanceFirst_perm cnt (c :: rest)) ?_
        refine List.Perm.append_left gf ?_
        exact (cmContents_perm _ _ (resort_perm _ _)).symm
      -- group keys
      have hgfkeys : ∀ e ∈ gf, e.1 = c.1.1 := by
        rw [hgf2]
        intro e he
        obtain ⟨x, hx, hxe⟩ := List.mem_map.mp he
        rcases List.mem_cons.mp hx with rfl | hxtw
        · rw [← hxe]
        · have := List.mem_takeWhile_imp (htw ▸ hxtw)
          rw [← hxe]
          simpa using this
      -- every item left in N has key strictly above the group key
      have hNgt : ∀ x ∈ cmContents N, c.1.1 < x.1 := by
        intro x hx
        have hx2 : x ∈ cmContents (advanceFirst cnt (c :: rest)) :=
          (cmContents_perm _ _ (resort_perm _ _)).mem_iff.mp hx
        rcases cmContents_advanceFirst_mem cnt (c :: rest) x hx2 with ⟨fc, hfc, hxf⟩ | hdx
        · have hfckey : fc.1.1 = c.1.1 := by
            have : fc.1 ∈ gf := by
              rw [hgf]
              exact List.mem_map_of_mem _ hfc
            exact hgfkeys _ this
          have hfcmem : fc ∈ c :: rest := List.take_subset _ _ hfc
          have hfcsorted : KeySorted (fc.1 :: fc.2) := hes fc hfcmem
          have : fc.1.1 < x.1 := by
            have := (List.pairwise_cons.mp hfcsorted).1 x hxf
            exact this
          rw [← hfckey]
          exact this
        · have hdrop : (c :: rest).drop cnt =
              rest.dropWhile (fun e : CursorEntry K => decide (e.1.1 = c.1.1)) := by
            rw [hcnt, Nat.add_comm, List.drop_succ_cons, htw, ← dropWhile_eq_drop_len]
          rw [hdrop] at hdx
          have hmono := eqkey_monoOn rest hfs.of_cons c.1.1
            (fun e he => (List.pairwise_cons.mp hfs).1 e he)
          -- identify the entry of the dropWhile region containing x
          obtain ⟨e, he, hxe⟩ : ∃ e ∈ rest.dropWhile
              (fun e : CursorEntry K => decide (e.1.1 = c.1.1)), x ∈ e.1 :: e.2 :=
            cmContents_mem_entry _ x hdx
          have hene : e.1.1 ≠ c.1.1 := by
            have := hmono e he
            simpa using this
          have hele : c.1.1 ≤ e.1.1 := by
            have hemem : e ∈ rest := (List.dropWhile_sublist _).subset he
            exact (List.pairwise_cons.mp hfs).1 e hemem
          have helt : c.1.1 < e.1.1 := lt_of_le_of_ne hele (fun hh => hene hh.symm)
          have hemem : e ∈ c :: rest := by
            have : e ∈ rest := (List.dropWhile_sublist _).subset he
            simp [this]
          have hesorted : KeySorted (e.1 :: e.2) := hes e hemem
          rcases List.mem_cons.mp hxe with rfl | hxe2
          · exact helt
          · exact lt_trans helt ((List.pairwise_cons.mp hesorted).1 x hxe2)
      -- length bookkeeping
      have hgflen : gf.length = cnt := by
        rw [hgf, List.length_map, List.length_take]
        simp only [List.length_cons] at hcntle ⊢
        omega
      have hlen : (cmContents (c :: rest)).length = cnt + (cmContents N).length := by
        rw [hperm.length_eq, List.length_append, hgflen]
      have hlenN : (cmContents N).length ≤ n := by omega
      -- well-formedness of the normalized state
      have hNsorted : FrontsSorted N := by
        rw [hN, normStep]
        apply resort_sorted
        obtain ⟨nw, hnw, hnwlen⟩ := advanceFirst_eq_append cnt (c :: rest)
        rw [hnw, ← hnwlen, List.drop_left]
        exact List.Pairwise.sublist (List.drop_sublist _ _) hfs
      have hNentries : ∀ fc ∈ N, KeySorted (fc.1 :: fc.2) := by
        intro fc hfc
        have hfc2 : fc ∈ advanceFirst cnt (c :: rest) := by
          rw [hN, normStep] at hfc
          exact (resort_perm _ _).mem_iff.mp hfc
        exact advanceFirst_entrySorted cnt (c :: rest) hes fc hfc2
      have hihN := ih N hlenN hNsorted hNentries f (by omega)
      -- the exposed group contributes its key and accumulated weight
      have hfmc : List.filterMap groupTotal ((c :: tw) :: cmRun f (⟨none, N⟩ : CM K)) =
          (c.1.1, ((c :: tw).map (fun x : CursorEntry K => x.1.2)).sum) ::
            List.filterMap groupTotal (cmRun f (⟨none, N⟩ : CM K)) := by
        rw [List.filterMap_cons]
        rfl
      rw [hfmc, hihN]
      -- ascending keys decompose as group key then the rest
      have hkeyseq : sortedKeys (cmContents (c :: rest)) =
          c.1.1 :: sortedKeys (cmContents N) := by
        apply sorted_lt_unique
        · exact sortedKeys_sorted _
        · rw [List.pairwise_cons]
          constructor
          · intro b hb
            obtain ⟨x, hx, hxb⟩ := List.mem_map.mp ((sortedKeys_mem _ _).mp hb)
            rw [← hxb]
            exact hNgt x hx
          · exact sortedKeys_sorted _
        · intro k
          rw [sortedKeys_mem, List.mem_cons, sortedKeys_mem]
          constructor
          · intro hk
            obtain ⟨x, hx, hxk⟩ := List.mem_map.mp hk
            rcases List.mem_append.mp (hperm.mem_iff.mp hx) with h | h
            · left
              rw [← hxk]
              exact hgfkeys x h
            · right
              rw [← hxk]
              exact List.mem_map_of_mem _ h
          · intro hk
            rcases hk with rfl | hk
            · refine List.mem_map.mpr ⟨c.1, ?_, rfl⟩
              rw [cmContents]
              simp
            · obtain ⟨x, hx, hxk⟩ := List.mem_map.mp hk
              refine List.mem_map.mpr ⟨x, ?_, hxk⟩
              exact hperm.mem_iff.mpr (List.mem_append.mpr (Or.inr hx))
      rw [hkeyseq, List.map_cons]
      congr 1
      · congr 1
        have hwt : wt (cmContents (c :: rest)) c.1.1 =
            wt gf c.1.1 + wt (cmContents N) c.1.1 := by
          rw [wt_perm _ _ hperm, wt_append]
        rw [hwt, wt_zero_of_all_gt _ _ hNgt, wt_allsame gf _ hgfkeys, hgf2,
          List.map_map, add_zero]
        rfl
      · apply List.map_congr_left
        intro k hk
        obtain ⟨x, hx, hxk⟩ := List.mem_map.mp ((sortedKeys_mem _ _).mp hk)
        have hkgt : c.1.1 < k := hxk ▸ hNgt x hx
        have hwt : wt (cmContents (c :: rest)) k = wt gf k + wt (cmContents N) k := by
          rw [wt_perm _ _ hperm, wt_append]
        have hgfz : wt gf k = 0 := by
          apply wt_zero_of_ne
          intro e he hek
          rw [hgfkeys e he] at hek
          exact absurd (hek ▸ hkgt) (lt_irrefl k)
        rw [hwt, hgfz, zero_add]

/-! ### From batches to the arbor's cursors -/

theorem merge0_sorted (a b : List (K × Int)) (ha : KeySorted a) (hb : KeySorted b) :
    KeySorted (merge0 a b) := by
  rw [merge0_eq_leafMerge a b ha hb]
  exact leafMerge_sorted a b ha hb

theorem wt_merge0 (a b : List (K × Int)) (ha : KeySorted a) (hb : KeySorted b)
    (k : K) : wt (merge0 a b) k = wt a k + wt b k := by
  rw [merge0_eq_leafMerge a b ha hb]
  exact wt_leafMerge a b k ha hb

theorem merge0_keys_sub (a b : List (K × Int)) (ha : KeySorted a) (hb : KeySorted b) :
    ∀ x ∈ (merge0 a b).map Prod.fst, x ∈ a.map Prod.fst ∨ x ∈ b.map Prod.fst := by
  rw [merge0_eq_leafMerge a b ha hb]
  intro x hx
  obtain ⟨e, he, hex⟩ := List.mem_map.mp hx
  rcases leafMerge_keys_sub a b e he with h | h
  · exact Or.inl (hex ▸ h)
  · exact Or.inr (hex ▸ h)

theorem arborAppendLoop_facts :
    ∀ (rev : List (List (K × Int))) (t : List (K × Int)),
      (∀ x ∈ rev, KeySorted x) → KeySorted t →
      (∀ x ∈ arborAppendLoop rev t, KeySorted x) ∧
      (∀ k, wt (arborAppendLoop rev t).flatten k = wt rev.flatten k + wt t k) ∧
      (∀ a, a ∈ (arborAppendLoop rev t).flatten.map Prod.fst →
        a ∈ rev.flatten.map Prod.fst ∨ a ∈ t.map Prod.fst) := by
  intro rev
  induction rev with
  | nil =>
    intro t _ ht
    refine ⟨?_, ?_, ?_⟩
    · intro x hx
      rw [arborAppendLoop] at hx
      rcases List.mem_cons.mp hx with rfl | h
      · exact ht
      · simp at h
    · intro k
      rw [arborAppendLoop]
      simp [wt_nil]
    · intro a ha
      rw [arborAppendLoop] at ha
      simp only [List.flatten] at ha
      right
      simpa using ha
  | cons t2 rest ih =>
    intro t hrev ht
    rw [arborAppendLoop]
    by_cases hc : t2.length / 2 < t.length
    · rw [if_pos hc]
      have ht2 : KeySorted t2 := hrev t2 (by simp)
      have hm : KeySorted (merge0 t t2) := merge0_sorted t t2 ht ht2
      obtain ⟨ih1, ih2, ih3⟩ := ih (merge0 t t2) (fun x hx => hrev x (by simp [hx])) hm
      refine ⟨ih1, ?_, ?_⟩
      · intro k
        rw [ih2 k, wt_merge0 t t2 ht ht2 k]
        have hflat : (t2 :: rest).flatten = t2 ++ rest.flatten := rfl
        rw [hflat, wt_append]
        ring
      · intro a ha
        rcases ih3 a ha with h | h
        · left
          have hflat : (t2 :: rest).flatten = t2 ++ rest.flatten := rfl
          rw [hflat, List.map_append, List.mem_append]
          right
          exact h
        · rcases merge0_keys_sub t t2 ht ht2 a h with h2 | h2
          · right; exact h2
          · left
            have hflat : (t2 :: rest).flatten = t2 ++ rest.flatten := rfl
            rw [hflat, List.map_append, List.mem_append]
            left
            exact h2
    · rw [if_neg hc]
      refine ⟨?_, ?_, ?_⟩
      · intro x hx
        rcases List.mem_cons.mp hx with rfl | h
        · exact ht
        · exact hrev x h
      · intro k
        have hflat : (t :: t2 :: rest).flatten = t ++ (t2 :: rest).flatten := rfl
        rw [hflat, wt_append]
        ring
      · intro a ha
        have hflat : (t :: t2 :: rest).flatten = t ++ (t2 :: rest).flatten := rfl
        rw [hflat, List.map_append, List.mem_append] at ha
        tauto

theorem wt_flatten_reverse (l : List (List (K × Int))) (k : K) :
    wt l.reverse.flatten k = wt l.flatten k :=
  wt_perm _ _ ((l.reverse_perm).flatten) k

theorem mem_flatten_reverse (l : List (List (K × Int))) (a : K) :
    a ∈ l.reverse.flatten.map Prod.fst ↔ a ∈ l.flatten.map Prod.fst :=
  (((l.reverse_perm).flatten).map Prod.fst).mem_iff

theorem arborAppend_facts (tries : List (List (K × Int))) (t : List (K × Int))
    (htries : ∀ x ∈ tries, KeySorted x) (ht : KeySorted t) :
    (∀ x ∈ arborAppend tries t, KeySorted x) ∧
    (∀ k, wt (arborAppend tries t).flatten k = wt tries.flatten k + wt t k) ∧
    (∀ a, a ∈ (arborAppend tries t).flatten.map Prod.fst →
      a ∈ tries.flatten.map Prod.fst ∨ a ∈ t.map Prod.fst) := by
  obtain ⟨h1, h2, h3⟩ := arborAppendLoop_facts tries.reverse t
    (fun x hx => htries x (List.mem_reverse.mp hx)) ht
  refine ⟨?_, ?_, ?_⟩
  · intro x hx
    rw [arborAppend] at hx
    exact h1 x (List.mem_reverse.mp hx)
  · intro k
    rw [arborAppend, wt_flatten_reverse, h2 k, wt_flatten_reverse]
  · intro a ha
    rw [arborAppend, mem_flatten_reverse] at ha
    rcases h3 a ha with h | h
    · left
      exact (mem_flatten_reverse tries a).mp h
    · right; exact h

theorem arbor_fold_facts :
    ∀ (batches acc : List (List (K × Int))),
      (∀ b ∈ batches, KeySorted b) → (∀ x ∈ acc, KeySorted x) →
      (∀ x ∈ batches.foldl arborExtendOrdered acc, KeySorted x) ∧
      (∀ k, wt (batches.foldl arborExtendOrdered acc).flatten k =
        wt acc.flatten k + wt batches.flatten k) ∧
      (∀ a, a ∈ (batches.foldl arborExtendOrdered acc).flatten.map Prod.fst →
        a ∈ acc.flatten.map Prod.fst ∨ a ∈ batches.flatten.map Prod.fst) := by
  intro batches
  induction batches with
  | nil =>
    intro acc _ hacc
    refine ⟨by simpa using hacc, ?_, ?_⟩
    · intro k; simp [wt_nil]
    · intro a ha; left; simpa using ha
  | cons b bs ih =>
    intro acc hb hacc
    rw [List.foldl_cons]
    have hbs : KeySorted b := hb b (by simp)
    have happ := arborAppend_facts acc (fromOrdered0 b) hacc (by rwa [fromOrdered0_eq])
    have hacc2 : ∀ x ∈ arborExtendOrdered acc b, KeySorted x := by
      intro x hx
      rw [arborExtendOrdered] at hx
      exact happ.1 x hx
    obtain ⟨ih1, ih2, ih3⟩ := ih (arborExtendOrdered acc b) (fun x hx => hb x (by simp [hx]))
      hacc2
    refine ⟨ih1, ?_, ?_⟩
    · intro k
      rw [ih2 k]
      have : wt (arborExtendOrdered acc b).flatten k = wt acc.flatten k + wt b k := by
        rw [arborExtendOrdered, (arborAppend_facts acc (fromOrdered0 b) hacc
          (by rwa [fromOrdered0_eq])).2.1 k, fromOrdered0_eq]
      rw [this]
      have hflat : (b :: bs).flatten = b ++ bs.flatten := rfl
      rw [hflat, wt_append]
      ring
    · intro a ha
      rcases ih3 a ha with h | h
      · rw [arborExtendOrdered] at h
        rcases (arborAppend_facts acc (fromOrdered0 b) hacc
            (by rwa [fromOrdered0_eq])).2.2 a h with h2 | h2
        · left; exact h2
        · right
          rw [fromOrdered0_eq] at h2
          have hflat : (b :: bs).flatten = b ++ bs.flatten := rfl
          rw [hflat, List.map_append, List.mem_append]
          left
          exact h2
      · right
        have hflat : (b :: bs).flatten = b ++ bs.flatten := rfl
        rw [hflat, List.map_append, List.mem_append]
        right
        exact h

theorem cmContents_cmFrom (tries : List (List (K × Int))) :
    List.Perm (cmContents (cmFrom tries).cursors) tries.flatten := by
  rw [cmFrom]
  refine List.Perm.trans (cmContents_perm _ _ (sortByKey_perm _)) ?_
  have heq : ∀ ts : List (List (K × Int)),
      cmContents (ts.filterMap (fun t =>
        match t with
        | [] => none
        | h :: r => some (h, r))) = ts.flatten := by
    intro ts
    induction ts with
    | nil => rfl
    | cons t ts2 ih =>
      rcases t with _ | ⟨h, r⟩
      · rw [List.filterMap_cons]
        simpa using ih
      · rw [List.filterMap_cons]
        show cmContents ((h, r) :: _) = _
        rw [cmContents, ih]
        rfl
  rw [heq]

theorem cmFrom_sorted (tries : List (List (K × Int))) :
    FrontsSorted (cmFrom tries).cursors :=
  sortByKey_sorted _

theorem cmFrom_entries (tries : List (List (K × Int)))
    (hs : ∀ t ∈ tries, KeySorted t) :
    ∀ e ∈ (cmFrom tries).cursors, KeySorted (e.1 :: e.2) := by
  intro e he
  have he2 := (sortByKey_perm _).mem_iff.mp he
  obtain ⟨t, ht, hte⟩ := List.mem_filterMap.mp he2
  rcases t with _ | ⟨h, r⟩
  · simp at hte
  · have : e = (h, r) := by
      simpa using hte.symm
    rw [this]
    exact hs (h :: r) ht

/-- The spec's description of the expected traversal output (§8, property
1), following the spec's words: the key-sorted, weight-accumulated multiset
of all input tuples with zero-weight entries removed.  Comparison side of
claim C1. -/
def specAccum (inputs : List (K × Int)) : List (K × Int) :=
  (sortedKeys inputs).filterMap
    (fun k => if wt inputs k = 0 then none else some (k, wt inputs k))

theorem filterMap_if_eq (g : K → Int) (l : List K) :
    l.filterMap (fun k => if g k = 0 then none else some (k, g k)) =
      (l.filter (fun k => decide (g k ≠ 0))).map (fun k => (k, g k)) := by
  induction l with
  | nil => rfl
  | cons a t ih =>
    by_cases h : g a = 0
    · simp [List.filterMap_cons, List.filter_cons, h, ih]
    · simp [List.filterMap_cons, List.filter_cons, h, ih]

/-- Counterexample to C1 as stated.  Batches `[(1,1),…,(5,1)]` and
`[(1,-1)]` do not merge (1 is not greater than 5/2), so the cursor merger
still yields a group for key 1 whose weights sum to zero; the claimed
equality with the zero-free accumulated multiset fails. -/
theorem claim_C1_cex :
    ¬ ((cmTraverse (arborCursor
        (([[((1 : Nat), (1 : Int)), (2, 1), (3, 1), (4, 1), (5, 1)],
           [(1, -1)]]).foldl arborExtendOrdered []))).filterMap groupTotal =
      specAccum ([[((1 : Nat), (1 : Int)), (2, 1), (3, 1), (4, 1), (5, 1)],
        [(1, -1)]]).flatten) := by
  decide

/-- C1 (amended).  For every sequence of `extend_ordered` batches (each
strictly key-sorted) applied to an initially empty `Arbor`, a full traversal
of the `CursorMerger` returned by `cursor()` yields groups whose per-key
accumulated weights — after discarding groups whose accumulated weight is
zero — equal the key-sorted, weight-accumulated multiset of all input tuples
with zero-weight entries removed.  (As stated the claim fails: a group whose
weights cancel across tries that were never merged is still yielded, with
accumulated weight zero; see the counterexample.) -/
theorem claim_C1_amended (batches : List (List (K × Int)))
    (hb : ∀ b ∈ batches, KeySorted b) :
    ((cmTraverse (arborCursor (batches.foldl arborExtendOrdered []))).filterMap
        groupTotal).filter (fun e => decide (e.2 ≠ 0)) =
      specAccum batches.flatten := by
  obtain ⟨hsorted, hwt, hkeys⟩ := arbor_fold_facts batches [] hb (by simp)
  set A := batches.foldl arborExtendOrdered [] with hA
  set CS := (arborCursor A).cursors with hCS
  have hrun := cmRun_totals (cmContents CS).length CS (le_refl _)
    (cmFrom_sorted A) (cmFrom_entries A hsorted) ((cmContents CS).length + 1) (by omega)
  have hstate : arborCursor A = (⟨none, CS⟩ : CM K) := rfl
  have hsz : cmSize (⟨none, CS⟩ : CM K) = (cmContents CS).length := rfl
  rw [cmTraverse, hstate, hsz, hrun]
  have hperm : List.Perm (cmContents CS) A.flatten := cmContents_cmFrom A
  have hwteq : ∀ k, wt (cmContents CS) k = wt batches.flatten k := by
    intro k
    rw [wt_perm _ _ hperm k]
    have h0 := hwt k
    simpa [wt_nil] using h0
  rw [specAccum, filterMap_if_eq, List.filter_map]
  have hpred : ((fun e : K × Int => decide (e.2 ≠ 0)) ∘
      (fun k => (k, wt (cmContents CS) k))) =
      fun k => decide (wt (cmContents CS) k ≠ 0) := rfl
  rw [hpred]
  have hfil : (sortedKeys (cmContents CS)).filter
      (fun k => decide (wt (cmContents CS) k ≠ 0)) =
      (sortedKeys batches.flatten).filter
        (fun k => decide (wt batches.flatten k ≠ 0)) := by
    have h1 : (sortedKeys (cmContents CS)).filter
        (fun k => decide (wt (cmContents CS) k ≠ 0)) =
        (sortedKeys (cmContents CS)).filter
          (fun k => decide (wt batches.flatten k ≠ 0)) :=
      List.filter_congr (fun a _ => by rw [hwteq a])
    rw [h1]
    apply sorted_lt_unique
    · exact List.Pairwise.sublist (List.filter_sublist _) (sortedKeys_sorted _)
    · exact List.Pairwise.sublist (List.filter_sublist _) (sortedKeys_sorted _)
    · intro k
      rw [List.mem_filter, List.mem_filter, sortedKeys_mem, sortedKeys_mem]
      constructor
      · rintro ⟨hmem, hnz⟩
        refine ⟨?_, hnz⟩
        have h2 : k ∈ A.flatten.map Prod.fst := ((hperm.map Prod.fst).mem_iff).mp hmem
        rcases hkeys k h2 with h | h
        · simp at h
        · exact h
      · rintro ⟨hmem, hnz⟩
        refine ⟨?_, hnz⟩
        by_contra hnot
        have h2 : k ∉ A.flatten.map Prod.fst := fun hc =>
          hnot (((hperm.map Prod.fst).mem_iff).mpr hc)
        have h3 : wt A.flatten k = 0 := by
          apply wt_zero_of_ne
          intro e he hek
          exact h2 (List.mem_map.mpr ⟨e, he, hek⟩)
        have h5 : wt A.flatten k = wt batches.flatten k := by
          have h0 := hwt k
          simpa [wt_nil] using h0
        rw [← h5, h3] at hnz
        simp at hnz
  rw [hfil]
  apply List.map_congr_left
  intro k hk
  rw [hwteq k]

/-- Witness for the amended C1 at two concrete batches (spec scenario S3). -/
theorem claim_C1_amended_witness :
    (∀ b ∈ [[((1 : Nat), (1 : Int)), (2, 1)], [(1, -1), (3, 1)]], KeySorted b) ∧
    ((cmTraverse (arborCursor
        (([[((1 : Nat), (1 : Int)), (2, 1)], [(1, -1), (3, 1)]]).foldl
          arborExtendOrdered []))).filterMap groupTotal).filter
        (fun e => decide (e.2 ≠ 0)) =
      specAccum ([[((1 : Nat), (1 : Int)), (2, 1)], [(1, -1), (3, 1)]]).flatten :=
  ⟨by decide, claim_C1_amended _ (by decide)⟩

/-! ### `TrieLayer<K, L>` (src/trie.rs) at a leaf inner layer -/

variable {K2 : Type} [LinearOrder K2]

/-- A `TrieLayer` over a leaf: `(key, end_offset)` pairs plus the inner
leaf vector. -/
structure TrieL (K K2 : Type) where
  keys : List (K × Nat)
  vals : List (K2 × Int)

/-- The end offset stored at position `i` of a key array (0 if absent). -/
def offAt (keys : List (K × Nat)) (i : Nat) : Nat :=
  ((keys.get? i).map Prod.snd).getD 0

/-- `if lower == 0 { 0 } else { keys[lower-1].1 }`: where the value range of
the key at `lower` starts. -/
def basisAt (keys : List (K × Nat)) (lower : Nat) : Nat :=
  if lower = 0 then 0 else offAt keys (lower - 1)

/-- `TrieLayer::extend_trie`: append the key sub-range with offsets
translated by `self_basis - other_basis`, and extend `vals` by the
corresponding value sub-range. -/
def extendTrie1 (self other : TrieL K K2) (lower upper : Nat) : TrieL K K2 :=
  ⟨self.keys ++ (slice other.keys lower upper).map
      (fun e => (e.1, e.2 + self.vals.length - basisAt other.keys lower)),
   extendTrie0 self.vals other.vals (basisAt other.keys lower)
     (offAt other.keys (upper - 1))⟩

/-- The `Equal` arm of `TrieLayer::extend_merge`: record `v_len`,
recursively `extend_merge` the two value sub-ranges into `vals`, and push
`(key, vals.keys())` onto `keys` exactly when the inner merge pushed
something. -/
def mergeValsStep (self t1 : TrieL K K2) (l1 : Nat) (e1 : K × Nat)
    (t2 : TrieL K K2) (l2 : Nat) (e2 : K × Nat) : TrieL K K2 :=
  ⟨if self.vals.length <
      (extMerge0 ((e1.2 - basisAt t1.keys l1) + (e2.2 - basisAt t2.keys l2) + 1)
        self.vals t1.vals (basisAt t1.keys l1) e1.2
        t2.vals (basisAt t2.keys l2) e2.2).length
    then self.keys ++ [(e1.1,
      (extMerge0 ((e1.2 - basisAt t1.keys l1) + (e2.2 - basisAt t2.keys l2) + 1)
        self.vals t1.vals (basisAt t1.keys l1) e1.2
        t2.vals (basisAt t2.keys l2) e2.2).length)]
    else self.keys,
   extMerge0 ((e1.2 - basisAt t1.keys l1) + (e2.2 - basisAt t2.keys l2) + 1)
     self.vals t1.vals (basisAt t1.keys l1) e1.2
     t2.vals (basisAt t2.keys l2) e2.2⟩

/-- `TrieLayer::extend_merge`: two-pointer walk over the key arrays, with
`advance`-located runs copied via `extend_trie`, equal keys handled by
`mergeValsStep`, and leftovers drained.  Fuelled while loop. -/
def extMerge1 (fuel : Nat) (self t1 : TrieL K K2) (l1 u1 : Nat)
    (t2 : TrieL K K2) (l2 u2 : Nat) : TrieL K K2 :=
  match fuel with
  | 0 => self
  | fuel + 1 =>
    if l1 < u1 ∧ l2 < u2 then
      match t1.keys.get? l1, t2.keys.get? l2 with
      | some e1, some e2 =>
        if e1.1 < e2.1 then
          extMerge1 fuel
            (extendTrie1 self t1 l1 (l1 + (1 + advance (slice t1.keys (1 + l1) u1)
              (fun x => decide (x.1 < e2.1)))))
            t1 (l1 + (1 + advance (slice t1.keys (1 + l1) u1)
              (fun x => decide (x.1 < e2.1)))) u1 t2 l2 u2
        else if e1.1 = e2.1 then
          extMerge1 fuel (mergeValsStep self t1 l1 e1 t2 l2 e2)
            t1 (l1 + 1) u1 t2 (l2 + 1) u2
        else
          extMerge1 fuel
            (extendTrie1 self t2 l2 (l2 + (1 + advance (slice t2.keys (1 + l2) u2)
              (fun x => decide (x.1 < e1.1)))))
            t1 l1 u1 t2 (l2 + (1 + advance (slice t2.keys (1 + l2) u2)
              (fun x => decide (x.1 < e1.1)))) u2
      | _, _ => self
    else if l1 < u1 then extendTrie1 self t1 l1 u1
    else if l2 < u2 then extendTrie1 self t2 l2 u2
    else self

/-- `TrieStorage::merge` for a layer: fresh trie extended by `extend_merge`
over the full ranges. -/
def trieMerge (t1 t2 : TrieL K K2) : TrieL K K2 :=
  extMerge1 (t1.keys.length + t2.keys.length + 1) ⟨[], []⟩
    t1 0 t1.keys.length t2 0 t2.keys.length

/-- `TrieLayer::extend_tuple`: push a fresh `(key, 0)` when `is_new` or the
key changed, extend the inner layer, then patch the last end offset. -/
def extendTuple1 (self : TrieL K K2) (tuple : K × (K2 × Int)) (isNew : Bool) :
    TrieL K K2 :=
  match (if (isNew || (match self.keys.getLast? with
      | none => true
      | some e => decide (e.1 ≠ tuple.1))) then self.keys ++ [(tuple.1, 0)]
    else self.keys).getLast? with
  | some e =>
    ⟨(if (isNew || (match self.keys.getLast? with
        | none => true
        | some e => decide (e.1 ≠ tuple.1))) then self.keys ++ [(tuple.1, 0)]
      else self.keys).dropLast ++
        [(e.1, (extendTuple0 self.vals tuple.2
          (isNew || (match self.keys.getLast? with
            | none => true
            | some e => decide (e.1 ≠ tuple.1)))).length)],
     extendTuple0 self.vals tuple.2
       (isNew || (match self.keys.getLast? with
         | none => true
         | some e => decide (e.1 ≠ tuple.1)))⟩
  | none =>
    ⟨self.keys, extendTuple0 self.vals tuple.2
      (isNew || (match self.keys.getLast? with
        | none => true
        | some e => decide (e.1 ≠ tuple.1)))⟩

/-- `TrieStorage::from_ordered` at the layer level. -/
def fromOrdered1 (iter : List (K × (K2 × Int))) : TrieL K K2 :=
  iter.foldl (fun acc item => extendTuple1 acc item false) ⟨[], []⟩

/-- C7.  In `TrieLayer::extend_merge`, when the two front keys are equal the
step recursively merges the two value sub-ranges into `vals` and pushes the
key (paired with the new `vals.keys()`) onto the output keys if and only if
the inner merge strictly increased `vals.keys()`; on full cancellation the
key is omitted. -/
theorem claim_C7 (self t1 t2 : TrieL K K2) (l1 u1 l2 u2 fuel : Nat)
    (h1 : l1 < u1) (h2 : l2 < u2) (e1 e2 : K × Nat)
    (hg1 : t1.keys.get? l1 = some e1) (hg2 : t2.keys.get? l2 = some e2)
    (heq : e1.1 = e2.1) :
    extMerge1 (fuel + 1) self t1 l1 u1 t2 l2 u2 =
      extMerge1 fuel (mergeValsStep self t1 l1 e1 t2 l2 e2)
        t1 (l1 + 1) u1 t2 (l2 + 1) u2 ∧
    ((mergeValsStep self t1 l1 e1 t2 l2 e2).keys =
        self.keys ++ [(e1.1, (mergeValsStep self t1 l1 e1 t2 l2 e2).vals.length)] ↔
      self.vals.length < (mergeValsStep self t1 l1 e1 t2 l2 e2).vals.length) ∧
    ((mergeValsStep self t1 l1 e1 t2 l2 e2).keys = self.keys ↔
      ¬ self.vals.length < (mergeValsStep self t1 l1 e1 t2 l2 e2).vals.length) := by
  refine ⟨?_, ?_, ?_⟩
  · have hne : ¬ e1.1 < e2.1 := by rw [heq]; exact lt_irrefl _
    simp only [extMerge1, hg1, hg2]
    rw [if_pos ⟨h1, h2⟩, if_neg hne, if_pos heq]
  · rw [mergeValsStep]
    by_cases h : self.vals.length <
        (extMerge0 ((e1.2 - basisAt t1.keys l1) + (e2.2 - basisAt t2.keys l2) + 1)
          self.vals t1.vals (basisAt t1.keys l1) e1.2
          t2.vals (basisAt t2.keys l2) e2.2).length
    · rw [if_pos h]
      simp only [h, iff_true]
    · rw [if_neg h]
      simp only [h, iff_false]
      intro hcon
      have := congrArg List.length hcon
      simp at this
  · rw [mergeValsStep]
    by_cases h : self.vals.length <
        (extMerge0 ((e1.2 - basisAt t1.keys l1) + (e2.2 - basisAt t2.keys l2) + 1)
          self.vals t1.vals (basisAt t1.keys l1) e1.2
          t2.vals (basisAt t2.keys l2) e2.2).length
    · rw [if_pos h]
      simp only [h, not_true, iff_false]
      intro hcon
      have := congrArg List.length hcon
      simp at this
    · rw [if_neg h]
      simp only [h, not_false_iff, iff_true]

/-- Concrete tries for the C7 witness: one tuple each, equal keys,
cancelling weights. -/
def c7t1 : TrieL Nat Nat := fromOrdered1 [(5, (1, 1))]

/-- Second concrete trie for the C7 witness. -/
def c7t2 : TrieL Nat Nat := fromOrdered1 [(5, (1, -1))]

/-- Witness for C7: cancelling single-tuple tries, where the key is omitted. -/
theorem claim_C7_witness :
    ((0 : Nat) < 1 ∧ (0 : Nat) < 1 ∧
      c7t1.keys.get? 0 = some (5, 1) ∧ c7t2.keys.get? 0 = some (5, 1)) ∧
    (extMerge1 1 (⟨[], []⟩ : TrieL Nat Nat) c7t1 0 1 c7t2 0 1 =
      extMerge1 0 (mergeValsStep (⟨[], []⟩ : TrieL Nat Nat) c7t1 0 (5, 1) c7t2 0 (5, 1))
        c7t1 1 1 c7t2 1 1) :=
  ⟨⟨by decide, by decide, by decide, by decide⟩,
    (claim_C7 ⟨[], []⟩ c7t1 c7t2 0 1 0 1 0 (by decide) (by decide) (5, 1) (5, 1)
      (by decide) (by decide) rfl).1⟩

/-! ### Key-sortedness of layer merges -/

theorem keySorted_map_fst_nodup {β : Type} (l : List (K × β)) (h : KeySorted l) :
    (l.map Prod.fst).Nodup := by
  rw [List.Nodup, List.pairwise_map]
  exact h.imp (fun hab => ne_of_lt hab)

theorem extendTrie1_sorted (self other : TrieL K K2) (lower upper : Nat)
    (hself : KeySorted self.keys) (hsl : KeySorted (slice other.keys lower upper))
    (hcross : ∀ a ∈ self.keys, ∀ b ∈ slice other.keys lower upper, a.1 < b.1) :
    KeySorted (extendTrie1 self other lower upper).keys := by
  show KeySorted (self.keys ++ (slice other.keys lower upper).map _)
  rw [KeySorted, List.pairwise_append]
  refine ⟨hself, ?_, ?_⟩
  · rw [List.pairwise_map]
    exact hsl
  · intro a ha b hb
    rw [List.mem_map] at hb
    obtain ⟨b', hb', rfl⟩ := hb
    exact hcross a ha b' hb'

theorem mem_extendTrie1_keys (self other : TrieL K K2) (lower upper : Nat)
    (a : K × Nat) (ha : a ∈ (extendTrie1 self other lower upper).keys) :
    a ∈ self.keys ∨ ∃ b ∈ slice other.keys lower upper, a.1 = b.1 := by
  rw [extendTrie1] at ha
  simp only at ha
  rw [List.mem_append] at ha
  rcases ha with ha | ha
  · exact Or.inl ha
  · rw [List.mem_map] at ha
    obtain ⟨b, hb, rfl⟩ := ha
    exact Or.inr ⟨b, hb, rfl⟩

theorem extMerge1_sorted :
    ∀ (fuel : Nat) (self t1 : TrieL K K2) (l1 u1 : Nat) (t2 : TrieL K K2) (l2 u2 : Nat),
      KeySorted t1.keys → KeySorted t2.keys → KeySorted self.keys →
      (∀ a ∈ self.keys, ∀ b ∈ slice t1.keys l1 u1, a.1 < b.1) →
      (∀ a ∈ self.keys, ∀ b ∈ slice t2.keys l2 u2, a.1 < b.1) →
      KeySorted (extMerge1 fuel self t1 l1 u1 t2 l2 u2).keys := by
  intro fuel
  induction fuel with
  | zero => intro self t1 l1 u1 t2 l2 u2 _ _ hs _ _; exact hs
  | succ fuel ih =>
    intro self t1 l1 u1 t2 l2 u2 ht1 ht2 hs hc1 hc2
    by_cases hb : l1 < u1 ∧ l2 < u2
    · rcases h1 : t1.keys.get? l1 with _ | e1
      · simp only [extMerge1, h1]
        rw [if_pos hb]
        exact hs
      rcases h2 : t2.keys.get? l2 with _ | e2
      · simp only [extMerge1, h1, h2]
        rw [if_pos hb]
        exact hs
      have hl1 : l1 < t1.keys.length := (List.get?_eq_some.mp h1).1
      have hl2 : l2 < t2.keys.length := (List.get?_eq_some.mp h2).1
      have hget1 : t1.keys.get ⟨l1, hl1⟩ = e1 := (List.get?_eq_some.mp h1).2
      have hget2 : t2.keys.get ⟨l2, hl2⟩ = e2 := (List.get?_eq_some.mp h2).2
      have hslice1 : slice t1.keys l1 u1 = e1 :: slice t1.keys (1 + l1) u1 := by
        rw [slice_eq_cons t1.keys l1 u1 hb.1 hl1, hget1]
      have hslice2 : slice t2.keys l2 u2 = e2 :: slice t2.keys (1 + l2) u2 := by
        rw [slice_eq_cons t2.keys l2 u2 hb.2 hl2, hget2]
      have hss1 : KeySorted (slice t1.keys l1 u1) := keySorted_slice _ ht1 _ _
      have hss2 : KeySorted (slice t2.keys l2 u2) := keySorted_slice _ ht2 _ _
      simp only [extMerge1, h1, h2]
      rw [if_pos hb]
      by_cases hlt : e1.1 < e2.1
      · rw [if_pos hlt]
        set p := fun x : K × Nat => decide (x.1 < e2.1) with hp
        have hsub1 : KeySorted (slice t1.keys (1 + l1) u1) := by
          rw [hslice1] at hss1; exact hss1.of_cons
        have hadv : advance (slice t1.keys (1 + l1) u1) p =
            ((slice t1.keys (1 + l1) u1).takeWhile p).length :=
          advance_takeWhile _ _ (keySorted_monoOn_lt _ hsub1 _)
        set adv := advance (slice t1.keys (1 + l1) u1) p with hadvdef
        have hadvle : adv ≤ u1 - (1 + l1) := by
          rw [hadv]
          have hll := length_takeWhile_le' p (slice t1.keys (1 + l1) u1)
          have hsl : (slice t1.keys (1 + l1) u1).length ≤ u1 - (1 + l1) := by
            simp only [slice, List.length_take]
            omega
          omega
        set m := l1 + (1 + adv) with hm
        have hmu : m ≤ u1 := by omega
        have hsplit_lm : slice t1.keys l1 m =
            e1 :: (slice t1.keys (1 + l1) u1).takeWhile p := by
          rw [slice_split t1.keys l1 (1 + l1) m (by omega) (by omega)]
          have hfirst : slice t1.keys l1 (1 + l1) = [e1] := by
            rw [slice_eq_cons t1.keys l1 (1 + l1) (by omega) hl1, hget1,
              slice_nil t1.keys (1 + l1) (1 + l1) (le_refl _)]
          have hsecond : slice t1.keys (1 + l1) m =
              (slice t1.keys (1 + l1) u1).takeWhile p := by
            have hmm : m = (1 + l1) + adv := by omega
            rw [hmm, ← slice_take t1.keys (1 + l1) u1 adv hadvle, hadv,
              take_takeWhile_len]
          rw [hfirst, hsecond]
          rfl
        have hsplit_all : slice t1.keys l1 u1 =
            slice t1.keys l1 m ++ slice t1.keys m u1 :=
          slice_split t1.keys l1 m u1 (by omega) hmu
        have hself' : KeySorted (extendTrie1 self t1 l1 m).keys := by
          refine extendTrie1_sorted self t1 l1 m hs ?_ ?_
          · exact keySorted_slice _ ht1 _ _
          · intro a ha b hbm
            refine hc1 a ha b ?_
            rw [hsplit_all]
            exact List.mem_append_left _ hbm
        have hcross1' : ∀ a ∈ (extendTrie1 self t1 l1 m).keys,
            ∀ b ∈ slice t1.keys m u1, a.1 < b.1 := by
          intro a ha b hbm
          rcases mem_extendTrie1_keys self t1 l1 m a ha with ha' | ⟨x, hx, hax⟩
          · refine hc1 a ha' b ?_
            rw [hsplit_all]
            exact List.mem_append_right _ hbm
          · rw [hax]
            rw [hsplit_all, KeySorted, List.pairwise_append] at hss1
            exact hss1.2.2 x hx b hbm
        have hcross2' : ∀ a ∈ (extendTrie1 self t1 l1 m).keys,
            ∀ b ∈ slice t2.keys l2 u2, a.1 < b.1 := by
          intro a ha b hbm
          rcases mem_extendTrie1_keys self t1 l1 m a ha with ha' | ⟨x, hx, hax⟩
          · exact hc2 a ha' b hbm
          · rw [hax]
            have hxlt : x.1 < e2.1 := by
              rw [hsplit_lm] at hx
              rcases List.mem_cons.mp hx with hx' | hx'
              · rw [hx']; exact hlt
              · have := List.mem_takeWhile_imp hx'
                simpa [hp] using this
            have hble : e2.1 ≤ b.1 := by
              rw [hslice2] at hbm hss2
              rcases List.mem_cons.mp hbm with hb' | hb'
              · rw [hb']
              · exact le_of_lt (keySorted_head_lt e2 _ hss2 b hb')
            exact lt_of_lt_of_le hxlt hble
        exact ih (extendTrie1 self t1 l1 m) t1 m u1 t2 l2 u2 ht1 ht2 hself'
          hcross1' hcross2'
      · rw [if_neg hlt]
        by_cases heq : e1.1 = e2.1
        · rw [if_pos heq]
          have hslice1' : slice t1.keys (l1 + 1) u1 = slice t1.keys (1 + l1) u1 := by
            have : l1 + 1 = 1 + l1 := by omega
            rw [this]
          have hslice2' : slice t2.keys (l2 + 1) u2 = slice t2.keys (1 + l2) u2 := by
            have : l2 + 1 = 1 + l2 := by omega
            rw [this]
          have hmem_keys : ∀ a ∈ (mergeValsStep self t1 l1 e1 t2 l2 e2).keys,
              a ∈ self.keys ∨ a.1 = e1.1 := by
            intro a ha
            rw [mergeValsStep] at ha
            simp only at ha
            by_cases hgrow : self.vals.length <
                (extMerge0 ((e1.2 - basisAt t1.keys l1) + (e2.2 - basisAt t2.keys l2) + 1)
                  self.vals t1.vals (basisAt t1.keys l1) e1.2
                  t2.vals (basisAt t2.keys l2) e2.2).length
            · rw [if_pos hgrow] at ha
              rcases List.mem_append.mp ha with ha' | ha'
              · exact Or.inl ha'
              · rw [List.mem_singleton] at ha'
                rw [ha']
                exact Or.inr rfl
            · rw [if_neg hgrow] at ha
              exact Or.inl ha
          have hself' : KeySorted (mergeValsStep self t1 l1 e1 t2 l2 e2).keys := by
            rw [mergeValsStep]
            simp only
            by_cases hgrow : self.vals.length <
                (extMerge0 ((e1.2 - basisAt t1.keys l1) + (e2.2 - basisAt t2.keys l2) + 1)
                  self.vals t1.vals (basisAt t1.keys l1) e1.2
                  t2.vals (basisAt t2.keys l2) e2.2).length
            · rw [if_pos hgrow, KeySorted, List.pairwise_append]
              refine ⟨hs, List.pairwise_singleton _ _, ?_⟩
              intro a ha b hbm
              rw [List.mem_singleton] at hbm
              rw [hbm]
              refine hc1 a ha e1 ?_
              rw [hslice1]
              exact List.mem_cons_self _ _
            · rw [if_neg hgrow]
              exact hs
          have hcross1' : ∀ a ∈ (mergeValsStep self t1 l1 e1 t2 l2 e2).keys,
              ∀ b ∈ slice t1.keys (l1 + 1) u1, a.1 < b.1 := by
            intro a ha b hbm
            rw [hslice1'] at hbm
            rcases hmem_keys a ha with ha' | ha'
            · refine hc1 a ha' b ?_
              rw [hslice1]
              exact List.mem_cons_of_mem _ hbm
            · rw [ha']
              rw [hslice1] at hss1
              exact keySorted_head_lt e1 _ hss1 b hbm
          have hcross2' : ∀ a ∈ (mergeValsStep self t1 l1 e1 t2 l2 e2).keys,
              ∀ b ∈ slice t2.keys (l2 + 1) u2, a.1 < b.1 := by
            intro a ha b hbm
            rw [hslice2'] at hbm
            rcases hmem_keys a ha with ha' | ha'
            · refine hc2 a ha' b ?_
              rw [hslice2]
              exact List.mem_cons_of_mem _ hbm
            · rw [ha', heq]
              rw [hslice2] at hss2
              exact keySorted_head_lt e2 _ hss2 b hbm
          exact ih (mergeValsStep self t1 l1 e1 t2 l2 e2) t1 (l1 + 1) u1 t2 (l2 + 1)
            u2 ht1 ht2 hself' hcross1' hcross2'
        · rw [if_neg heq]
          have hgt : e2.1 < e1.1 := lt_of_le_of_ne (le_of_not_lt hlt) (Ne.symm heq)
          set q := fun x : K × Nat => decide (x.1 < e1.1) with hq
          have hsub2 : KeySorted (slice t2.keys (1 + l2) u2) := by
            rw [hslice2] at hss2; exact hss2.of_cons
          have hadv : advance (slice t2.keys (1 + l2) u2) q =
              ((slice t2.keys (1 + l2) u2).takeWhile q).length :=
            advance_takeWhile _ _ (keySorted_monoOn_lt _ hsub2 _)
          set adv := advance (slice t2.keys (1 + l2) u2) q with hadvdef
          have hadvle : adv ≤ u2 - (1 + l2) := by
            rw [hadv]
            have hll := length_takeWhile_le' q (slice t2.keys (1 + l2) u2)
            have hsl : (slice t2.keys (1 + l2) u2).length ≤ u2 - (1 + l2) := by
              simp only [slice, List.length_take]
              omega
            omega
          set m := l2 + (1 + adv) with hm
          have hmu : m ≤ u2 := by omega
          have hsplit_lm : slice t2.keys l2 m =
              e2 :: (slice t2.keys (1 + l2) u2).takeWhile q := by
            rw [slice_split t2.keys l2 (1 + l2) m (by omega) (by omega)]
            have hfirst : slice t2.keys l2 (1 + l2) = [e2] := by
              rw [slice_eq_cons t2.keys l2 (1 + l2) (by omega) hl2, hget2,
                slice_nil t2.keys (1 + l2) (1 + l2) (le_refl _)]
            have hsecond : slice t2.keys (1 + l2) m =
                (slice t2.keys (1 + l2) u2).takeWhile q := by
              have hmm : m = (1 + l2) + adv := by omega
              rw [hmm, ← slice_take t2.keys (1 + l2) u2 adv hadvle, hadv,
                take_takeWhile_len]
            rw [hfirst, hsecond]
            rfl
          have hsplit_all : slice t2.keys l2 u2 =
              slice t2.keys l2 m ++ slice t2.keys m u2 :=
            slice_split t2.keys l2 m u2 (by omega) hmu
          have hself' : KeySorted (extendTrie1 self t2 l2 m).keys := by
            refine extendTrie1_sorted self t2 l2 m hs ?_ ?_
            · exact keySorted_slice _ ht2 _ _
            · intro a ha b hbm
              refine hc2 a ha b ?_
              rw [hsplit_all]
              exact List.mem_append_left _ hbm
          have hcross1' : ∀ a ∈ (extendTrie1 self t2 l2 m).keys,
              ∀ b ∈ slice t1.keys l1 u1, a.1 < b.1 := by
            intro a ha b hbm
            rcases mem_extendTrie1_keys self t2 l2 m a ha with ha' | ⟨x, hx, hax⟩
            · exact hc1 a ha' b hbm
            · rw [hax]
              have hxlt : x.1 < e1.1 := by
                rw [hsplit_lm] at hx
                rcases List.mem_cons.mp hx with hx' | hx'
                · rw [hx']; exact hgt
                · have := List.mem_takeWhile_imp hx'
                  simpa [hq] using this
              have hble : e1.1 ≤ b.1 := by
                rw [hslice1] at hbm hss1
                rcases List.mem_cons.mp hbm with hb' | hb'
                · rw [hb']
                · exact le_of_lt (keySorted_head_lt e1 _ hss1 b hb')
              exact lt_of_lt_of_le hxlt hble
          have hcross2' : ∀ a ∈ (extendTrie1 self t2 l2 m).keys,
              ∀ b ∈ slice t2.keys m u2, a.1 < b.1 := by
            intro a ha b hbm
            rcases mem_extendTrie1_keys self t2 l2 m a ha with ha' | ⟨x, hx, hax⟩
            · refine hc2 a ha' b ?_
              rw [hsplit_all]
              exact List.mem_append_right _ hbm
            · rw [hax]
              rw [hsplit_all, KeySorted, List.pairwise_append] at hss2
              exact hss2.2.2 x hx b hbm
          exact ih (extendTrie1 self t2 l2 m) t1 l1 u1 t2 m u2 ht1 ht2 hself'
            hcross1' hcross2'
    · simp only [extMerge1]
      rw [if_neg hb]
      by_cases hb1 : l1 < u1
      · rw [if_pos hb1]
        refine extendTrie1_sorted self t1 l1 u1 hs (keySorted_slice _ ht1 _ _) hc1
      · rw [if_neg hb1]
        by_cases hb2 : l2 < u2
        · rw [if_pos hb2]
          refine extendTrie1_sorted self t2 l2 u2 hs (keySorted_slice _ ht2 _ _) hc2
        · rw [if_neg hb2]
          exact hs

theorem trieMerge_sorted (t1 t2 : TrieL K K2) (h1 : KeySorted t1.keys)
    (h2 : KeySorted t2.keys) : KeySorted (trieMerge t1 t2).keys := by
  refine extMerge1_sorted _ ⟨[], []⟩ t1 0 t1.keys.length t2 0 t2.keys.length h1 h2
    ?_ ?_ ?_
  · exact List.Pairwise.nil
  · intro a ha; simp at ha
  · intro a ha; simp at ha

/-! ### `ArborIndex` (src/arbor_index.rs)

The `HashMap<K, (usize, usize, Option<usize>)>` is modelled as an
association list with first-match lookup; the code never iterates the map,
so only `get` / `insert` / `update` / `remove` behaviour matters. -/

/-- A key location: `(trie_index, key_offset, next_spill_slot?)`. -/
abbrev IdxEntry := Nat × Nat × Option Nat

/-- Association list lookup (the `HashMap` model). -/
def alGet {β : Type} : List (K × β) → K → Option β
  | [], _ => none
  | e :: rest, k => if e.1 = k then some e.2 else alGet rest k

/-- Association list insert-or-replace. -/
def alSet {β : Type} : List (K × β) → K → β → List (K × β)
  | [], k, v => [(k, v)]
  | e :: rest, k, v => if e.1 = k then (e.1, v) :: rest else e :: alSet rest k v

/-- Association list removal of the entry for `k`. -/
def alRemove {β : Type} : List (K × β) → K → List (K × β)
  | [], _ => []
  | e :: rest, k => if e.1 = k then rest else e :: alRemove rest k

/-- `ArborIndex` state: resident tries (each with its spill count), the
key→head map, and the spill vector. -/
structure IdxState (K K2 : Type) where
  tries : List (TrieL K K2 × Nat)
  index : List (K × IdxEntry)
  spill : List IdxEntry

/-- The empty `ArborIndex`. -/
def emptyIdx : IdxState K K2 := ⟨[], [], []⟩

/-- The per-key body of the eviction loop in `ArborIndex::append`: replace
the head by its spill successor, or remove it when the chain ends. -/
def evictKey (spill : List IdxEntry) (idx : List (K × IdxEntry)) (k : K) :
    List (K × IdxEntry) :=
  match alGet idx k with
  | some (_, _, some nxt) => alSet idx k ((spill.get? nxt).getD (0, 0, none))
  | some (_, _, none) => alRemove idx k
  | none => idx

/-- Evict every key of the popped trie from its chain. -/
def evictTrie (spill : List IdxEntry) (idx : List (K × IdxEntry))
    (other : TrieL K K2) : List (K × IdxEntry) :=
  (other.keys.map Prod.fst).foldl (fun acc k => evictKey spill acc k) idx

/-- The index-update loop of `ArborIndex::append`: for every `(pos, key)` of
the merged trie, push the old head (if any) onto the spill vector and set
the new head to `(trie_index, pos, old_head_link?)`. -/
def insertKeysIdx (tl : Nat) : List (K × IdxEntry) → List IdxEntry → Nat →
    List (K × Nat) → List (K × IdxEntry) × List IdxEntry
  | idx, spill, _, [] => (idx, spill)
  | idx, spill, pos, e :: rest =>
    match alGet idx e.1 with
    | some old =>
      insertKeysIdx tl (alSet idx e.1 (tl, pos, some spill.length))
        (spill ++ [old]) (pos + 1) rest
    | none =>
      insertKeysIdx tl (alSet idx e.1 (tl, pos, none)) spill (pos + 1) rest

/-- The merge loop of `ArborIndex::append`: while the smallest resident trie
is within 2× of the incoming trie, pop it, splice its keys out of the index,
release its spill entries, and merge.  Fuelled; `indexAppend` supplies
sufficient fuel. -/
def idxLoop : Nat → IdxState K K2 → TrieL K K2 → IdxState K K2 × TrieL K K2
  | 0, st, t => (st, t)
  | fuel + 1, st, t =>
    match st.tries.getLast? with
    | some (other, count) =>
      if other.vals.length ≤ 2 * t.vals.length then
        idxLoop fuel
          ⟨st.tries.dropLast, evictTrie st.spill st.index other,
           st.spill.take (st.spill.length - count)⟩
          (trieMerge t other)
      else (st, t)
    | none => (st, t)

/-- The loop phase of `ArborIndex::append` with its (always sufficient)
fuel. -/
def idxAfterLoop (st : IdxState K K2) (t : TrieL K K2) :
    IdxState K K2 × TrieL K K2 :=
  idxLoop (st.tries.length + 1) st t

/-- `ArborIndex::append`. -/
def indexAppend (st : IdxState K K2) (t : TrieL K K2) : IdxState K K2 :=
  ⟨(idxAfterLoop st t).1.tries ++
      [((idxAfterLoop st t).2,
        (insertKeysIdx (idxAfterLoop st t).1.tries.length
          (idxAfterLoop st t).1.index (idxAfterLoop st t).1.spill 0
          (idxAfterLoop st t).2.keys).2.length -
        (idxAfterLoop st t).1.spill.length)],
   (insertKeysIdx (idxAfterLoop st t).1.tries.length (idxAfterLoop st t).1.index
     (idxAfterLoop st t).1.spill 0 (idxAfterLoop st t).2.keys).1,
   (insertKeysIdx (idxAfterLoop st t).1.tries.length (idxAfterLoop st t).1.index
     (idxAfterLoop st t).1.spill 0 (idxAfterLoop st t).2.keys).2⟩

/-- `ArborIndex::extend_ordered`. -/
def idxExtendOrdered (st : IdxState K K2) (batch : List (K × (K2 × Int))) :
    IdxState K K2 :=
  indexAppend st (fromOrdered1 batch)

/-- Strict `> 2×` spacing of the resident tries of an `ArborIndex`. -/
def IdxSpacedStrict (st : IdxState K K2) : Prop :=
  chainB (fun a b : TrieL K K2 × Nat =>
    decide (2 * b.1.vals.length < a.1.vals.length)) st.tries = true

instance (st : IdxState K K2) : Decidable (IdxSpacedStrict st) := by
  unfold IdxSpacedStrict; infer_instance

theorem idxLoop_spec :
    ∀ (fuel : Nat) (st : IdxState K K2) (t : TrieL K K2),
      st.tries.length < fuel →
      List.Chain' (fun a b : TrieL K K2 × Nat =>
        2 * b.1.vals.length < a.1.vals.length) st.tries →
      List.Chain' (fun a b : TrieL K K2 × Nat =>
        2 * b.1.vals.length < a.1.vals.length) (idxLoop fuel st t).1.tries ∧
      ∀ x, (idxLoop fuel st t).1.tries.getLast? = some x →
        2 * (idxLoop fuel st t).2.vals.length < x.1.vals.length := by
  intro fuel
  induction fuel with
  | zero => intro st t hf; omega
  | succ fuel ih =>
    intro st t hf hchain
    rcases hlast : st.tries.getLast? with _ | ⟨other, count⟩
    · simp only [idxLoop, hlast]
      refine ⟨hchain, ?_⟩
      intro x hx
      simp at hx
    · simp only [idxLoop, hlast]
      by_cases hc : other.vals.length ≤ 2 * t.vals.length
      · rw [if_pos hc]
        have hlen : st.tries.length ≠ 0 := by
          intro h0
          rw [List.length_eq_zero] at h0
          rw [h0] at hlast
          simp at hlast
        refine ih _ _ ?_ ?_
        · simp only [List.length_dropLast]
          omega
        · exact hchain.init
      · rw [if_neg hc]
        refine ⟨hchain, ?_⟩
        intro x hx
        simp only at hx
        rw [hlast] at hx
        rw [Option.some_inj] at hx
        rw [← hx]
        simp only
        omega

/-- The four- and two-tuple batches of the C9 comparison example. -/
def idx4batch : List (Nat × (Nat × Int)) := [(0, (0, 1)), (1, (1, 1)), (2, (2, 1)), (3, (3, 1))]

/-- The two-tuple batch of the C9 comparison example. -/
def idx2batch : List (Nat × (Nat × Int)) := [(4, (0, 1)), (5, (1, 1))]

/-- C9.  After every `ArborIndex::append` on a state with strict `> 2×`
spacing, the spacing `tries[i].0.tuples() > 2 * tries[i+1].0.tuples()`
holds; the merge guard (`smallest.tuples() <= 2 * incoming.tuples()`) is not
the guard `Arbor::append` uses: appending a 2-tuple trie below a 4-tuple
trie merges in `ArborIndex` (one resident trie afterwards) but not in
`Arbor` (two resident tries remain). -/
theorem claim_C9 (st : IdxState K K2) (t : TrieL K K2) (h : IdxSpacedStrict st) :
    IdxSpacedStrict (indexAppend st t) ∧
    (indexAppend (indexAppend (emptyIdx : IdxState Nat Nat)
        (fromOrdered1 idx4batch)) (fromOrdered1 idx2batch)).tries.length = 1 ∧
    (arborExtendOrdered (arborExtendOrdered ([] : List (List (Nat × Int)))
        [(0, 1), (1, 1), (2, 1), (3, 1)]) [(4, 1), (5, 1)]).length = 2 := by
  refine ⟨?_, by decide, by decide⟩
  rw [IdxSpacedStrict, chainB_iff] at h ⊢
  have h2 : List.Chain' (fun a b : TrieL K K2 × Nat =>
      2 * b.1.vals.length < a.1.vals.length) st.tries := by
    refine List.Chain'.imp ?_ h
    intro a b hab
    simpa using hab
  obtain ⟨hchain, hlastrel⟩ := idxLoop_spec (st.tries.length + 1) st t (by omega) h2
  rw [indexAppend]
  simp only
  rw [List.chain'_append]
  refine ⟨?_, by simp, ?_⟩
  · refine List.Chain'.imp ?_ hchain
    intro a b hab
    simpa using hab
  · intro x hx y hy
    simp only [List.head?_cons, Option.mem_def, Option.some_inj] at hy
    have := hlastrel x (by simpa [idxAfterLoop] using hx)
    rw [← hy]
    simp only [decide_eq_true_eq]
    simpa [idxAfterLoop] using this

/-- Witness for C9 at a concrete state and trie. -/
theorem claim_C9_witness :
    IdxSpacedStrict (emptyIdx : IdxState Nat Nat) ∧
    (IdxSpacedStrict (indexAppend (emptyIdx : IdxState Nat Nat)
        (fromOrdered1 idx4batch)) ∧
      (indexAppend (indexAppend (emptyIdx : IdxState Nat Nat)
          (fromOrdered1 idx4batch)) (fromOrdered1 idx2batch)).tries.length = 1 ∧
      (arborExtendOrdered (arborExtendOrdered ([] : List (List (Nat × Int)))
          [(0, 1), (1, 1), (2, 1), (3, 1)]) [(4, 1), (5, 1)]).length = 2) :=
  ⟨by decide, claim_C9 emptyIdx (fromOrdered1 idx4batch) (by decide)⟩

/-! ### Association-list facts -/

theorem alGet_eq_none_of_not_mem {β : Type} (l : List (K × β)) (k : K)
    (h : k ∉ l.map Prod.fst) : alGet l k = none := by
  induction l with
  | nil => rfl
  | cons e rest ih =>
    rw [alGet]
    simp only [List.map_cons, List.mem_cons] at h
    push_neg at h
    rw [if_neg (fun he => h.1 he.symm)]
    exact ih h.2

theorem alGet_isSome_iff {β : Type} (l : List (K × β)) (k : K) :
    (alGet l k).isSome = true ↔ k ∈ l.map Prod.fst := by
  induction l with
  | nil => simp [alGet]
  | cons e rest ih =>
    rw [alGet]
    by_cases he : e.1 = k
    · rw [if_pos he]
      simp [he]
    · rw [if_neg he]
      simp only [List.map_cons, List.mem_cons]
      rw [ih]
      constructor
      · exact fun h => Or.inr h
      · rintro (h | h)
        · exact absurd h.symm he
        · exact h

theorem alGet_alSet {β : Type} (l : List (K × β)) (k k' : K) (v : β) :
    alGet (alSet l k v) k' = if k' = k then some v else alGet l k' := by
  induction l with
  | nil =>
    simp only [alSet, alGet]
    by_cases h : k' = k
    · rw [if_pos h.symm, if_pos h]
    · rw [if_neg (fun h' => h h'.symm), if_neg h]
  | cons e rest ih =>
    rw [alSet]
    by_cases he : e.1 = k
    · rw [if_pos he, alGet]
      by_cases h' : e.1 = k'
      · rw [if_pos h', if_pos (show k' = k by rw [← h']; exact he)]
      · rw [if_neg h',
          if_neg (show ¬ k' = k from fun hk => h' (by rw [he, ← hk])), alGet,
          if_neg h']
    · rw [if_neg he, alGet]
      by_cases h' : e.1 = k'
      · rw [if_pos h', if_neg (fun hk => he (h'.trans hk)), alGet, if_pos h']
      · rw [if_neg h', ih, alGet, if_neg h']

theorem alGet_alRemove_ne {β : Type} (l : List (K × β)) (k k' : K) (h : k' ≠ k) :
    alGet (alRemove l k) k' = alGet l k' := by
  induction l with
  | nil => rfl
  | cons e rest ih =>
    rw [alRemove]
    by_cases he : e.1 = k
    · rw [if_pos he, alGet, if_neg (fun h' => h (h'.symm.trans he))]
    · rw [if_neg he, alGet, alGet]
      by_cases h' : e.1 = k'
      · rw [if_pos h', if_pos h']
      · rw [if_neg h', if_neg h', ih]

theorem alGet_alRemove_self {β : Type} (l : List (K × β)) (k : K)
    (hnd : (l.map Prod.fst).Nodup) : alGet (alRemove l k) k = none := by
  induction l with
  | nil => rfl
  | cons e rest ih =>
    rw [List.map_cons, List.nodup_cons] at hnd
    rw [alRemove]
    by_cases he : e.1 = k
    · rw [if_pos he]
      refine alGet_eq_none_of_not_mem rest k (he ▸ hnd.1)
    · rw [if_neg he, alGet, if_neg he]
      exact ih hnd.2

theorem mem_map_fst_alSet {β : Type} (l : List (K × β)) (k k' : K) (v : β) :
    k' ∈ (alSet l k v).map Prod.fst ↔ k' = k ∨ k' ∈ l.map Prod.fst := by
  induction l with
  | nil => simp [alSet]
  | cons e rest ih =>
    rw [alSet]
    by_cases he : e.1 = k
    · rw [if_pos he]
      simp only [List.map_cons, List.mem_cons]
      constructor
      · rintro (h | h)
        · exact Or.inl (h.trans he)
        · exact Or.inr (Or.inr h)
      · rintro (h | h | h)
        · exact Or.inl (h.trans he.symm)
        · exact Or.inl (h ▸ rfl)
        · exact Or.inr h
    · rw [if_neg he]
      simp only [List.map_cons, List.mem_cons]
      rw [ih]
      constructor
      · rintro (h | h | h)
        · exact Or.inr (Or.inl h)
        · exact Or.inl h
        · exact Or.inr (Or.inr h)
      · rintro (h | h | h)
        · exact Or.inr (Or.inl h)
        · exact Or.inl h
        · exact Or.inr (Or.inr h)

theorem alSet_nodup {β : Type} (l : List (K × β)) (k : K) (v : β)
    (hnd : (l.map Prod.fst).Nodup) : ((alSet l k v).map Prod.fst).Nodup := by
  induction l with
  | nil => simp [alSet]
  | cons e rest ih =>
    rw [List.map_cons, List.nodup_cons] at hnd
    rw [alSet]
    by_cases he : e.1 = k
    · rw [if_pos he]
      rw [List.map_cons, List.nodup_cons]
      exact hnd
    · rw [if_neg he]
      rw [List.map_cons, List.nodup_cons]
      refine ⟨?_, ih hnd.2⟩
      rw [mem_map_fst_alSet]
      rintro (h | h)
      · exact he h
      · exact hnd.1 h

theorem mem_map_fst_alRemove {β : Type} (l : List (K × β)) (k k' : K)
    (h : k' ∈ (alRemove l k).map Prod.fst) : k' ∈ l.map Prod.fst := by
  induction l with
  | nil => exact h
  | cons e rest ih =>
    rw [alRemove] at h
    by_cases he : e.1 = k
    · rw [if_pos he] at h
      exact List.mem_cons_of_mem _ h
    · rw [if_neg he, List.map_cons, List.mem_cons] at h
      rcases h with h | h
      · exact h ▸ List.mem_cons_self _ _
      · exact List.mem_cons_of_mem _ (ih h)

theorem alRemove_nodup {β : Type} (l : List (K × β)) (k : K)
    (hnd : (l.map Prod.fst).Nodup) : ((alRemove l k).map Prod.fst).Nodup := by
  induction l with
  | nil => exact hnd
  | cons e rest ih =>
    rw [List.map_cons, List.nodup_cons] at hnd
    rw [alRemove]
    by_cases he : e.1 = k
    · rw [if_pos he]
      exact hnd.2
    · rw [if_neg he, List.map_cons, List.nodup_cons]
      exact ⟨fun h => hnd.1 (mem_map_fst_alRemove rest k e.1 h), ih hnd.2⟩

/-! ### Chain structure of the `ArborIndex` map -/

/-- The top-level keys of the trie at index `j` (empty if out of range). -/
def trieKeysAtD (tries : List (TrieL K K2 × Nat)) (j : Nat) : List K :=
  ((tries.get? j).map (fun tc => tc.1.keys.map Prod.fst)).getD []

/-- Key `k` occurs in the trie at index `j`. -/
def KeyAt (tries : List (TrieL K K2 × Nat)) (k : K) (j : Nat) : Prop :=
  k ∈ trieKeysAtD tries j

instance (tries : List (TrieL K K2 × Nat)) (k : K) (j : Nat) :
    Decidable (KeyAt tries k j) := by
  unfold KeyAt
  infer_instance

/-- Key `k` is stored at offset `pos` of the trie at index `i`. -/
def KeyAtPos (tries : List (TrieL K K2 × Nat)) (k : K) (i pos : Nat) : Prop :=
  ∃ tc, tries.get? i = some tc ∧ ∃ w, tc.1.keys.get? pos = some (k, w)

/-- First spill slot owned by the trie at index `i`. -/
def spillOff (tries : List (TrieL K K2 × Nat)) (i : Nat) : Nat :=
  ((tries.take i).map (fun tc => tc.2)).sum

/-- Spill count of the trie at index `i`. -/
def countAt (tries : List (TrieL K K2 × Nat)) (i : Nat) : Nat :=
  ((tries.get? i).map (fun tc => tc.2)).getD 0

/-- `EntryChain tries S k e i`: `e` is a chain entry for key `k` whose trie
index is `i`, and the chain reachable from `e` through the spill vector `S`
lists exactly the occurrences of `k` in `tries[0 ..= i]` in strictly
decreasing index order, with every link slot inside the slot range owned by
its trie. -/
inductive EntryChain (tries : List (TrieL K K2 × Nat)) (S : List IdxEntry)
    (k : K) : IdxEntry → Nat → Prop
  | last (i pos : Nat) (hat : KeyAtPos tries k i pos)
      (hbelow : ∀ j, j < i → ¬ KeyAt tries k j) :
      EntryChain tries S k (i, pos, none) i
  | more (i pos s : Nat) (e2 : IdxEntry) (i2 : Nat)
      (hat : KeyAtPos tries k i pos) (hlt : i2 < i)
      (hgap : ∀ j, i2 < j → j < i → ¬ KeyAt tries k j)
      (hlo : spillOff tries i ≤ s)
      (hhi : s < spillOff tries i + countAt tries i)
      (hget : S.get? s = some e2) (htail : EntryChain tries S k e2 i2) :
      EntryChain tries S k (i, pos, some s) i

/-- Walk a chain of `(trie_index, key_offset)` locations through the spill
vector (fuelled). -/
def chainFollow (S : List IdxEntry) : Nat → IdxEntry → List (Nat × Nat)
  | 0, e => [(e.1, e.2.1)]
  | fuel + 1, e =>
    (e.1, e.2.1) ::
      (match e.2.2 with
       | none => []
       | some s =>
         match S.get? s with
         | none => []
         | some e2 => chainFollow S fuel e2)

/-- All `(trie_index, key_offset)` locations reachable from the map head of
key `k` by following spill links, as in `ArborIndex::get_into`. -/
def chainLocs (st : IdxState K K2) (k : K) : List (Nat × Nat) :=
  match alGet st.index k with
  | none => []
  | some e => chainFollow st.spill st.spill.length e

/-- Number of tries among `tries[0 .. m)` whose top-level keys contain `k`. -/
def occUpTo (tries : List (TrieL K K2 × Nat)) (k : K) (m : Nat) : Nat :=
  (List.range m).countP (fun j => decide (KeyAt tries k j))

theorem keyAtPos_keyAt (tries : List (TrieL K K2 × Nat)) (k : K) (i pos : Nat)
    (h : KeyAtPos tries k i pos) : KeyAt tries k i := by
  obtain ⟨tc, hget, w, hkey⟩ := h
  rw [KeyAt, trieKeysAtD, hget]
  simp only [Option.map_some', Option.getD_some]
  exact List.mem_map.mpr ⟨(k, w), List.get?_mem hkey, rfl⟩

theorem keyAt_lt_length (tries : List (TrieL K K2 × Nat)) (k : K) (j : Nat)
    (h : KeyAt tries k j) : j < tries.length := by
  by_contra hge
  push_neg at hge
  rw [KeyAt, trieKeysAtD, List.get?_eq_none.mpr hge] at h
  simp at h

theorem keyAtPos_lt_length (tries : List (TrieL K K2 × Nat)) (k : K)
    (i pos : Nat) (h : KeyAtPos tries k i pos) : i < tries.length :=
  keyAt_lt_length tries k i (keyAtPos_keyAt tries k i pos h)

theorem occUpTo_succ (tries : List (TrieL K K2 × Nat)) (k : K) (m : Nat) :
    occUpTo tries k (m + 1) =
      occUpTo tries k m + (if KeyAt tries k m then 1 else 0) := by
  rw [occUpTo, occUpTo, List.range_succ, List.countP_append]
  congr 1
  simp [List.countP_cons]

theorem occUpTo_const (tries : List (TrieL K K2 × Nat)) (k : K) :
    ∀ (b a : Nat), a ≤ b → (∀ j, a ≤ j → j < b → ¬ KeyAt tries k j) →
      occUpTo tries k b = occUpTo tries k a := by
  intro b
  induction b with
  | zero =>
    intro a ha _
    have : a = 0 := by omega
    rw [this]
  | succ b ihb =>
    intro a ha hgap
    rcases Nat.eq_or_lt_of_le ha with heq | hlt
    · rw [heq]
    · rw [occUpTo_succ, if_neg (hgap b (by omega) (by omega)), Nat.add_zero]
      exact ihb a (by omega) (fun j hj1 hj2 => hgap j hj1 (by omega))

theorem filterCount_eq_occUpTo (k : K) :
    ∀ (tries : List (TrieL K K2 × Nat)),
      (tries.filter (fun tc => decide (k ∈ tc.1.keys.map Prod.fst))).length =
        occUpTo tries k tries.length := by
  intro tries
  induction tries with
  | nil => rfl
  | cons tc rest ih =>
    rw [List.filter_cons]
    rw [occUpTo, List.length_cons, List.range_succ_eq_map, List.countP_cons,
      List.countP_map]
    have hcomp : List.countP
        ((fun j => decide (KeyAt (tc :: rest) k j)) ∘ Nat.succ) (List.range rest.length) =
        List.countP (fun j => decide (KeyAt rest k j)) (List.range rest.length) := by
      refine List.countP_congr ?_
      intro a _
      constructor
      · intro h
        simpa [Function.comp, KeyAt, trieKeysAtD] using h
      · intro h
        simpa [Function.comp, KeyAt, trieKeysAtD] using h
    rw [hcomp]
    by_cases hp : k ∈ tc.1.keys.map Prod.fst
    · rw [if_pos (by simpa using hp)]
      rw [List.length_cons, ih, occUpTo]
      have h0 : decide (KeyAt (tc :: rest) k 0) = true := by
        simpa [KeyAt, trieKeysAtD] using hp
      rw [if_pos h0]
    · rw [if_neg (by simpa using hp)]
      rw [ih, occUpTo]
      have h0 : ¬ decide (KeyAt (tc :: rest) k 0) = true := by
        simpa [KeyAt, trieKeysAtD] using hp
      rw [if_neg h0, Nat.add_zero]

theorem spillOff_succ (tries : List (TrieL K K2 × Nat)) (i : Nat)
    (h : i < tries.length) :
    spillOff tries (i + 1) = spillOff tries i + countAt tries i := by
  rw [spillOff, spillOff, List.take_succ, List.map_append, List.sum_append]
  congr 1
  rw [countAt, List.get?_eq_getElem?, List.getElem?_eq_getElem h]
  simp

theorem spillOff_mono (tries : List (TrieL K K2 × Nat)) (a b : Nat)
    (h : a ≤ b) : spillOff tries a ≤ spillOff tries b := by
  rw [spillOff, spillOff]
  have htk : tries.take a = (tries.take b).take a := by
    rw [List.take_take, min_eq_left h]
  rw [htk]
  refine List.Sublist.sum_le_sum ?_ (fun x _ => Nat.zero_le x)
  exact (List.take_sublist _ _).map _

theorem entryChain_link_bound (tries : List (TrieL K K2 × Nat))
    (S : List IdxEntry) (k : K) (e : IdxEntry) (i : Nat)
    (h : EntryChain tries S k e i) :
    ∀ s, e.2.2 = some s → spillOff tries i ≤ s ∧ s < spillOff tries (i + 1) := by
  cases h with
  | last i pos hat hbelow =>
    intro s hs
    simp at hs
  | more i pos s e2 i2 hat hlt hgap hlo hhi hget htail =>
    intro s' hs'
    simp only at hs'
    rw [Option.some_inj] at hs'
    rw [← hs']
    refine ⟨hlo, ?_⟩
    rw [spillOff_succ tries i (keyAtPos_lt_length tries k i pos hat)]
    exact hhi

theorem chainFollow_len (tries : List (TrieL K K2 × Nat)) (S : List IdxEntry)
    (k : K) (e : IdxEntry) (i : Nat) (h : EntryChain tries S k e i) :
    ∀ fuel, (∀ s, e.2.2 = some s → s < fuel) →
      (chainFollow S fuel e).length = occUpTo tries k (i + 1) := by
  induction h with
  | last i pos hat hbelow =>
    intro fuel _
    have hocc : occUpTo tries k (i + 1) = 1 := by
      rw [occUpTo_succ, if_pos (keyAtPos_keyAt tries k i pos hat),
        occUpTo_const tries k i 0 (Nat.zero_le i) (fun j _ hj => hbelow j hj)]
      rfl
    rw [hocc]
    cases fuel with
    | zero => rfl
    | succ fuel => rfl
  | more i pos s e2 i2 hat hlt hgap hlo hhi hget htail ih =>
    intro fuel hfuel
    have hs : s < fuel := hfuel s rfl
    cases fuel with
    | zero => omega
    | succ fuel =>
      show ((i, pos) :: _).length = _
      rw [List.length_cons]
      have hred : (match (some s : Option Nat) with
          | none => ([] : List (Nat × Nat))
          | some s =>
            match S.get? s with
            | none => []
            | some e2 => chainFollow S fuel e2) = chainFollow S fuel e2 := by
        show (match S.get? s with
          | none => ([] : List (Nat × Nat))
          | some e2 => chainFollow S fuel e2) = chainFollow S fuel e2
        rw [hget]
      rw [hred]
      have htail_fuel : ∀ s2, e2.2.2 = some s2 → s2 < fuel := by
        intro s2 hs2
        have hb := entryChain_link_bound tries S k e2 i2 htail s2 hs2
        have hmono : spillOff tries (i2 + 1) ≤ spillOff tries i :=
          spillOff_mono tries (i2 + 1) i hlt
        omega
      have hocc : occUpTo tries k (i + 1) = occUpTo tries k (i2 + 1) + 1 := by
        rw [occUpTo_succ, if_pos (keyAtPos_keyAt tries k i pos hat),
          occUpTo_const tries k i (i2 + 1) (by omega)
            (fun j hj1 hj2 => hgap j (by omega) hj2)]
      rw [ih fuel htail_fuel, hocc]

/-- Per-key map consistency: a missing entry means the key occurs nowhere; a
present entry heads a chain rooted at the topmost occurrence. -/
def IndexOkAt (st : IdxState K K2) (k : K) : Prop :=
  (alGet st.index k = none → ∀ j, ¬ KeyAt st.tries k j) ∧
  (∀ e, alGet st.index k = some e →
    ∃ i, EntryChain st.tries st.spill k e i ∧ ∀ j, i < j → ¬ KeyAt st.tries k j)

/-- The `ArborIndex` data-structure invariant. -/
def IdxInv (st : IdxState K K2) : Prop :=
  (∀ tc ∈ st.tries, KeySorted tc.1.keys) ∧
  (st.index.map Prod.fst).Nodup ∧
  st.spill.length = spillOff st.tries st.tries.length ∧
  ∀ k : K, IndexOkAt st k

theorem keyAt_append_lt (tries : List (TrieL K K2 × Nat)) (x : TrieL K K2 × Nat)
    (k : K) (j : Nat) (h : j < tries.length) :
    KeyAt (tries ++ [x]) k j ↔ KeyAt tries k j := by
  rw [KeyAt, KeyAt, trieKeysAtD, trieKeysAtD, List.get?_eq_getElem?,
    List.get?_eq_getElem?, List.getElem?_append_left h]

theorem keyAt_append_last (tries : List (TrieL K K2 × Nat))
    (x : TrieL K K2 × Nat) (k : K) :
    KeyAt (tries ++ [x]) k tries.length ↔ k ∈ x.1.keys.map Prod.fst := by
  rw [KeyAt, trieKeysAtD, List.get?_eq_getElem?, List.getElem?_concat_length]
  simp

theorem keyAt_restrict (tries : List (TrieL K K2 × Nat)) (x : TrieL K K2 × Nat)
    (k : K) (j : Nat) (hall : ∀ j', ¬ KeyAt (tries ++ [x]) k j') :
    ¬ KeyAt tries k j := by
  intro h
  have hj : j < tries.length := keyAt_lt_length tries k j h
  exact hall j ((keyAt_append_lt tries x k j hj).mpr h)

theorem spillOff_append_le (tries : List (TrieL K K2 × Nat))
    (x : TrieL K K2 × Nat) (i : Nat) (h : i ≤ tries.length) :
    spillOff (tries ++ [x]) i = spillOff tries i := by
  rw [spillOff, spillOff, List.take_append_of_le_length h]

theorem countAt_append_lt (tries : List (TrieL K K2 × Nat))
    (x : TrieL K K2 × Nat) (i : Nat) (h : i < tries.length) :
    countAt (tries ++ [x]) i = countAt tries i := by
  rw [countAt, countAt, List.get?_eq_getElem?, List.get?_eq_getElem?,
    List.getElem?_append_left h]

theorem keyAtPos_append (tries : List (TrieL K K2 × Nat))
    (x : TrieL K K2 × Nat) (k : K) (i pos : Nat)
    (h : KeyAtPos tries k i pos) : KeyAtPos (tries ++ [x]) k i pos := by
  obtain ⟨tc, hget, w, hkey⟩ := h
  have hi : i < tries.length := by
    rw [List.get?_eq_getElem?] at hget
    exact (List.getElem?_eq_some.mp hget).1
  refine ⟨tc, ?_, w, hkey⟩
  rw [List.get?_eq_getElem?, List.getElem?_append_left hi,
    ← List.get?_eq_getElem?]
  exact hget

theorem entryChain_append_trie (tries : List (TrieL K K2 × Nat))
    (S : List IdxEntry) (k : K) (e : IdxEntry) (i : Nat)
    (x : TrieL K K2 × Nat) (h : EntryChain tries S k e i) :
    EntryChain (tries ++ [x]) S k e i := by
  induction h with
  | last i pos hat hbelow =>
    refine EntryChain.last i pos (keyAtPos_append tries x k i pos hat) ?_
    intro j hj hkj
    have hjlen : j < tries.length :=
      lt_of_lt_of_le hj (le_of_lt (keyAtPos_lt_length tries k i pos hat))
    exact hbelow j hj ((keyAt_append_lt tries x k j hjlen).mp hkj)
  | more i pos s e2 i2 hat hlt hgap hlo hhi hget htail ih =>
    have hilen : i < tries.length := keyAtPos_lt_length tries k i pos hat
    refine EntryChain.more i pos s e2 i2 (keyAtPos_append tries x k i pos hat)
      hlt ?_ ?_ ?_ hget ih
    · intro j hj1 hj2 hkj
      have hjlen : j < tries.length := lt_of_lt_of_le hj2 (le_of_lt hilen)
      exact hgap j hj1 hj2 ((keyAt_append_lt tries x k j hjlen).mp hkj)
    · rw [spillOff_append_le tries x i (le_of_lt hilen)]
      exact hlo
    · rw [spillOff_append_le tries x i (le_of_lt hilen),
        countAt_append_lt tries x i hilen]
      exact hhi

theorem entryChain_spill_extend (tries : List (TrieL K K2 × Nat))
    (S add : List IdxEntry) (k : K) (e : IdxEntry) (i : Nat)
    (h : EntryChain tries S k e i)
    (hbound : spillOff tries (i + 1) ≤ S.length) :
    EntryChain tries (S ++ add) k e i := by
  induction h with
  | last i pos hat hbelow => exact EntryChain.last i pos hat hbelow
  | more i pos s e2 i2 hat hlt hgap hlo hhi hget htail ih =>
    have hilen : i < tries.length := keyAtPos_lt_length tries k i pos hat
    have hsb : s < S.length := by
      have := spillOff_succ tries i hilen
      omega
    refine EntryChain.more i pos s e2 i2 hat hlt hgap hlo hhi ?_ ?_
    · rw [List.get?_eq_getElem?, List.getElem?_append_left hsb,
        ← List.get?_eq_getElem?]
      exact hget
    · refine ih ?_
      have hmono : spillOff tries (i2 + 1) ≤ spillOff tries i :=
        spillOff_mono tries (i2 + 1) i hlt
      omega

theorem keyAtPos_restrict_lt (tries : List (TrieL K K2 × Nat))
    (x : TrieL K K2 × Nat) (k : K) (i pos : Nat) (hl : i < tries.length)
    (h : KeyAtPos (tries ++ [x]) k i pos) : KeyAtPos tries k i pos := by
  obtain ⟨tc, hget, w, hkey⟩ := h
  refine ⟨tc, ?_, w, hkey⟩
  rw [List.get?_eq_getElem?, List.getElem?_append_left hl] at hget
  rw [List.get?_eq_getElem?]
  exact hget

theorem entryChain_pop (T : List (TrieL K K2 × Nat)) (x : TrieL K K2 × Nat)
    (S : List IdxEntry) (k : K) (e : IdxEntry) (i : Nat) (L : Nat)
    (h : EntryChain (T ++ [x]) S k e i)
    (hL : spillOff T T.length ≤ L) :
    i < T.length → EntryChain T (S.take L) k e i := by
  induction h with
  | last i pos hat hbelow =>
    intro hi
    refine EntryChain.last i pos ?_ ?_
    · exact keyAtPos_restrict_lt T x k i pos hi hat
    · intro j hj hkj
      have hjlen : j < T.length := by omega
      exact hbelow j hj ((keyAt_append_lt T x k j hjlen).mpr hkj)
  | more i pos s e2 i2 hat hlt hgap hlo hhi hget htail ih =>
    intro hi
    have hoff : spillOff (T ++ [x]) i = spillOff T i :=
      spillOff_append_le T x i (le_of_lt hi)
    have hcnt : countAt (T ++ [x]) i = countAt T i :=
      countAt_append_lt T x i hi
    have hsL : s < L := by
      have hstep := spillOff_succ T i hi
      have hstep2 := spillOff_succ (T ++ [x]) i
        (by rw [List.length_append]; omega)
      have hoff2 : spillOff (T ++ [x]) (i + 1) = spillOff T (i + 1) :=
        spillOff_append_le T x (i + 1) (by omega)
      have hmono := spillOff_mono T (i + 1) T.length hi
      omega
    refine EntryChain.more i pos s e2 i2
      (keyAtPos_restrict_lt T x k i pos hi hat) hlt ?_ ?_ ?_ ?_ (ih (by omega))
    · intro j hj1 hj2 hkj
      have hjlen : j < T.length := by omega
      exact hgap j hj1 hj2 ((keyAt_append_lt T x k j hjlen).mpr hkj)
    · rw [← hoff]; exact hlo
    · rw [← hoff, ← hcnt]; exact hhi
    · rw [List.get?_eq_getElem?, List.getElem?_take_of_lt hsL,
        ← List.get?_eq_getElem?]
      exact hget

theorem entryChain_lt_length (tries : List (TrieL K K2 × Nat))
    (S : List IdxEntry) (k : K) (e : IdxEntry) (i : Nat)
    (h : EntryChain tries S k e i) : i < tries.length := by
  cases h with
  | last i pos hat hbelow => exact keyAtPos_lt_length tries k i pos hat
  | more i pos s e2 i2 hat hlt hgap hlo hhi hget htail =>
    exact keyAtPos_lt_length tries k i pos hat

theorem entryChain_keyAt (tries : List (TrieL K K2 × Nat))
    (S : List IdxEntry) (k : K) (e : IdxEntry) (i : Nat)
    (h : EntryChain tries S k e i) : KeyAt tries k i := by
  cases h with
  | last i pos hat hbelow => exact keyAtPos_keyAt tries k i pos hat
  | more i pos s e2 i2 hat hlt hgap hlo hhi hget htail =>
    exact keyAtPos_keyAt tries k i pos hat

/-! ### Eviction (the merge loop of `ArborIndex::append`) -/

/-- The value `evictKey` leaves in the map for the evicted key itself. -/
def evictedGet (S : List IdxEntry) (idx : List (K × IdxEntry)) (k : K) :
    Option IdxEntry :=
  match alGet idx k with
  | some (_, _, some nxt) => some ((S.get? nxt).getD (0, 0, none))
  | some (_, _, none) => none
  | none => none

theorem evictKey_get_ne (S : List IdxEntry) (idx : List (K × IdxEntry))
    (k k' : K) (h : k' ≠ k) :
    alGet (evictKey S idx k) k' = alGet idx k' := by
  rcases hg : alGet idx k with _ | ⟨i, p, link⟩
  · simp only [evictKey, hg]
  · rcases link with _ | nxt
    · simp only [evictKey, hg]
      exact alGet_alRemove_ne idx k k' h
    · simp only [evictKey, hg]
      rw [alGet_alSet, if_neg h]

theorem evictKey_get_self (S : List IdxEntry) (idx : List (K × IdxEntry))
    (k : K) (hnd : (idx.map Prod.fst).Nodup) :
    alGet (evictKey S idx k) k = evictedGet S idx k := by
  rcases hg : alGet idx k with _ | ⟨i, p, link⟩
  · simp only [evictKey, evictedGet, hg]
  · rcases link with _ | nxt
    · simp only [evictKey, evictedGet, hg]
      exact alGet_alRemove_self idx k hnd
    · simp only [evictKey, evictedGet, hg]
      rw [alGet_alSet, if_pos rfl]

theorem evictKey_nodup (S : List IdxEntry) (idx : List (K × IdxEntry)) (k : K)
    (hnd : (idx.map Prod.fst).Nodup) :
    ((evictKey S idx k).map Prod.fst).Nodup := by
  rcases hg : alGet idx k with _ | ⟨i, p, link⟩
  · simp only [evictKey, hg]
    exact hnd
  · rcases link with _ | nxt
    · simp only [evictKey, hg]
      exact alRemove_nodup idx k hnd
    · simp only [evictKey, hg]
      exact alSet_nodup idx k _ hnd

theorem evictedGet_congr (S : List IdxEntry) (idx idx' : List (K × IdxEntry))
    (k : K) (h : alGet idx k = alGet idx' k) :
    evictedGet S idx k = evictedGet S idx' k := by
  rw [evictedGet, evictedGet, h]

theorem evict_fold_nodup (S : List IdxEntry) :
    ∀ (ks : List K) (idx : List (K × IdxEntry)), (idx.map Prod.fst).Nodup →
      ((ks.foldl (fun acc k1 => evictKey S acc k1) idx).map Prod.fst).Nodup := by
  intro ks
  induction ks with
  | nil => intro idx h; exact h
  | cons k1 rest ih =>
    intro idx h
    rw [List.foldl_cons]
    exact ih _ (evictKey_nodup S idx k1 h)

theorem evict_fold_get (S : List IdxEntry) :
    ∀ (ks : List K) (idx : List (K × IdxEntry)), ks.Nodup →
      (idx.map Prod.fst).Nodup →
      ∀ k, alGet (ks.foldl (fun acc k1 => evictKey S acc k1) idx) k =
        if k ∈ ks then evictedGet S idx k else alGet idx k := by
  intro ks
  induction ks with
  | nil =>
    intro idx _ _ k
    rw [List.foldl_nil, if_neg (List.not_mem_nil k)]
  | cons k1 rest ih =>
    intro idx hnd hal k
    rw [List.nodup_cons] at hnd
    rw [List.foldl_cons,
      ih (evictKey S idx k1) hnd.2 (evictKey_nodup S idx k1 hal) k]
    by_cases hk : k ∈ k1 :: rest
    · rw [if_pos hk]
      rcases List.mem_cons.mp hk with heq | hkr
      · rw [heq, if_neg hnd.1]
        exact evictKey_get_self S idx k1 hal
      · have hk1 : k ≠ k1 := fun he => hnd.1 (he ▸ hkr)
        rw [if_pos hkr]
        exact evictedGet_congr S _ _ k (evictKey_get_ne S idx k1 k hk1)
    · rw [if_neg hk]
      have hk1 : k ≠ k1 := fun he => hk (he ▸ List.mem_cons_self k1 rest)
      have hkr : k ∉ rest := fun h => hk (List.mem_cons_of_mem _ h)
      rw [if_neg hkr]
      exact evictKey_get_ne S idx k1 k hk1

theorem evict_step_inv (T : List (TrieL K K2 × Nat)) (other : TrieL K K2)
    (c : Nat) (idx : List (K × IdxEntry)) (S : List IdxEntry)
    (hinv : IdxInv ⟨T ++ [(other, c)], idx, S⟩) :
    IdxInv ⟨T, evictTrie S idx other, S.take (S.length - c)⟩ := by
  obtain ⟨h1, h2, h3, h4⟩ := hinv
  replace h1 : ∀ tc ∈ T ++ [(other, c)], KeySorted tc.1.keys := h1
  replace h2 : (idx.map Prod.fst).Nodup := h2
  replace h3 : S.length =
    spillOff (T ++ [(other, c)]) (T ++ [(other, c)]).length := h3
  replace h4 : ∀ k : K,
      (alGet idx k = none → ∀ j, ¬ KeyAt (T ++ [(other, c)]) k j) ∧
      (∀ e, alGet idx k = some e →
        ∃ i, EntryChain (T ++ [(other, c)]) S k e i ∧
          ∀ j, i < j → ¬ KeyAt (T ++ [(other, c)]) k j) := h4
  have hson : KeySorted other.keys :=
    h1 (other, c) (List.mem_append_right _ (List.mem_singleton_self _))
  have hks_nodup : (other.keys.map Prod.fst).Nodup :=
    keySorted_map_fst_nodup _ hson
  have hcntx : countAt (T ++ [(other, c)]) T.length = c := by
    rw [countAt, List.get?_eq_getElem?, List.getElem?_concat_length]
    rfl
  have hlen : S.length = spillOff T T.length + c := by
    have hh : S.length = spillOff (T ++ [(other, c)]) (T.length + 1) := by
      have : (T ++ [(other, c)]).length = T.length + 1 := by simp
      rw [h3, this]
    rw [hh, spillOff_succ (T ++ [(other, c)]) T.length (by simp),
      spillOff_append_le T (other, c) T.length (le_refl _), hcntx]
  have hLeq : S.length - c = spillOff T T.length := by omega
  have hget := evict_fold_get S (other.keys.map Prod.fst) idx hks_nodup h2
  refine ⟨?_, ?_, ?_, ?_⟩
  · intro tc htc
    exact h1 tc (List.mem_append_left _ htc)
  · exact evict_fold_nodup S (other.keys.map Prod.fst) idx h2
  · show (S.take (S.length - c)).length = spillOff T T.length
    rw [List.length_take, hLeq]
    omega
  · intro k
    have hgetk : alGet (evictTrie S idx other) k =
        if k ∈ other.keys.map Prod.fst then evictedGet S idx k
        else alGet idx k := hget k
    show (alGet (evictTrie S idx other) k = none → ∀ j, ¬ KeyAt T k j) ∧
      (∀ e, alGet (evictTrie S idx other) k = some e →
        ∃ i, EntryChain T (S.take (S.length - c)) k e i ∧
          ∀ j, i < j → ¬ KeyAt T k j)
    by_cases hmem : k ∈ other.keys.map Prod.fst
    · rw [if_pos hmem] at hgetk
      have h4k := h4 k
      rcases hold : alGet idx k with _ | e
      · exfalso
        have hkt : KeyAt (T ++ [(other, c)]) k T.length :=
          (keyAt_append_last T (other, c) k).mpr hmem
        exact h4k.1 hold T.length hkt
      · obtain ⟨i, hchain, htop⟩ := h4k.2 e hold
        have hitop : i = T.length := by
          have hkt : KeyAt (T ++ [(other, c)]) k T.length :=
            (keyAt_append_last T (other, c) k).mpr hmem
          have hile : i < T.length + 1 := by
            have := entryChain_lt_length _ _ _ _ _ hchain
            simpa using this
          by_contra hne
          exact htop T.length (by omega) hkt
        cases hchain with
        | last i pos hat hbelow =>
          have hnone : evictedGet S idx k = none := by
            simp [evictedGet, hold]
          rw [hnone] at hgetk
          constructor
          · intro _ j hkj
            have hjlen : j < T.length := keyAt_lt_length T k j hkj
            refine hbelow j ?_ ((keyAt_append_lt T (other, c) k j hjlen).mpr hkj)
            omega
          · intro e' hg'
            rw [hgetk] at hg'
            exact absurd hg' (by simp)
        | more i pos s e2 i2 hat hlt hgap hlo hhi hgetS htail =>
          have hsome : evictedGet S idx k = some e2 := by
            simp only [evictedGet, hold]
            rw [hgetS]
            rfl
          rw [hsome] at hgetk
          constructor
          · intro hg'
            rw [hgetk] at hg'
            exact absurd hg' (by simp)
          · intro e' hg'
            rw [hgetk, Option.some_inj] at hg'
            rw [← hg']
            refine ⟨i2, ?_, ?_⟩
            · exact entryChain_pop T (other, c) S k e2 i2 (S.length - c) htail
                (by omega) (by omega)
            · intro j hj hkj
              have hjlen : j < T.length := keyAt_lt_length T k j hkj
              exact hgap j hj (by omega)
                ((keyAt_append_lt T (other, c) k j hjlen).mpr hkj)
    · rw [if_neg hmem] at hgetk
      have h4k := h4 k
      constructor
      · intro hg'
        rw [hgetk] at hg'
        intro j hkj
        have hjlen : j < T.length := keyAt_lt_length T k j hkj
        exact h4k.1 hg' j ((keyAt_append_lt T (other, c) k j hjlen).mpr hkj)
      · intro e' hg'
        rw [hgetk] at hg'
        obtain ⟨i, hchain, htop⟩ := h4k.2 e' hg'
        have hile : i < T.length + 1 := by
          have := entryChain_lt_length _ _ _ _ _ hchain
          simpa using this
        have hine : i ≠ T.length := by
          intro heq
          have hkt := entryChain_keyAt _ _ _ _ _ hchain
          rw [heq, keyAt_append_last] at hkt
          exact hmem hkt
        refine ⟨i, ?_, ?_⟩
        · exact entryChain_pop T (other, c) S k e' i (S.length - c) hchain
            (by omega) (by omega)
        · intro j hj hkj
          have hjlen : j < T.length := keyAt_lt_length T k j hkj
          exact htop j hj ((keyAt_append_lt T (other, c) k j hjlen).mpr hkj)

/-! ### Insertion (the index-update loop of `ArborIndex::append`) -/

theorem insertKeysIdx_spec (tl : Nat) :
    ∀ (ks : List (K × Nat)) (idx : List (K × IdxEntry)) (sp : List IdxEntry)
      (pos : Nat), (ks.map Prod.fst).Nodup → (idx.map Prod.fst).Nodup →
      ((insertKeysIdx tl idx sp pos ks).1.map Prod.fst).Nodup ∧
      (∃ add, (insertKeysIdx tl idx sp pos ks).2 = sp ++ add) ∧
      (∀ k, k ∉ ks.map Prod.fst →
        alGet (insertKeysIdx tl idx sp pos ks).1 k = alGet idx k) ∧
      (∀ k, k ∈ ks.map Prod.fst →
        ∃ j w, ks.get? j = some (k, w) ∧
          ((alGet idx k = none ∧
              alGet (insertKeysIdx tl idx sp pos ks).1 k =
                some (tl, pos + j, none)) ∨
            (∃ old s, alGet idx k = some old ∧
              alGet (insertKeysIdx tl idx sp pos ks).1 k =
                some (tl, pos + j, some s) ∧
              sp.length ≤ s ∧
              (insertKeysIdx tl idx sp pos ks).2.get? s = some old))) := by
  intro ks
  induction ks with
  | nil =>
    intro idx sp pos _ hal
    refine ⟨hal, ⟨[], (List.append_nil sp).symm⟩, ?_, ?_⟩
    · intro k _
      rfl
    · intro k hk
      simp at hk
  | cons e rest ih =>
    intro idx sp pos hnd hal
    rw [List.map_cons, List.nodup_cons] at hnd
    rcases hold : alGet idx e.1 with _ | old
    · have hstep : insertKeysIdx tl idx sp pos (e :: rest) =
          insertKeysIdx tl (alSet idx e.1 (tl, pos, none)) sp (pos + 1) rest := by
        simp only [insertKeysIdx, hold]
      obtain ⟨ihnd, ⟨add, hadd⟩, ihmiss, ihhit⟩ :=
        ih (alSet idx e.1 (tl, pos, none)) sp (pos + 1) hnd.2
          (alSet_nodup idx e.1 _ hal)
      rw [hstep]
      refine ⟨ihnd, ⟨add, hadd⟩, ?_, ?_⟩
      · intro k hk
        simp only [List.map_cons, List.mem_cons] at hk
        push_neg at hk
        rw [ihmiss k hk.2, alGet_alSet, if_neg hk.1]
      · intro k hk
        simp only [List.map_cons, List.mem_cons] at hk
        by_cases hke : k = e.1
        · have hknr : k ∉ rest.map Prod.fst := fun h => hnd.1 (hke ▸ h)
          refine ⟨0, e.2, ?_, ?_⟩
          · rw [hke]
            rfl
          · refine Or.inl ⟨by rw [hke]; exact hold, ?_⟩
            rw [ihmiss k hknr, alGet_alSet, if_pos hke, Nat.add_zero]
        · have hkr : k ∈ rest.map Prod.fst := by
            rcases hk with hk | hk
            · exact absurd hk hke
            · exact hk
          obtain ⟨j, w, hj, hdisj⟩ := ihhit k hkr
          refine ⟨j + 1, w, by rw [List.get?_cons_succ]; exact hj, ?_⟩
          have hposj : pos + 1 + j = pos + (j + 1) := by omega
          have halk : alGet (alSet idx e.1 (tl, pos, none)) k = alGet idx k := by
            rw [alGet_alSet, if_neg hke]
          rcases hdisj with ⟨hn, hres⟩ | ⟨old', s, ho, hres, hs1, hs2⟩
          · exact Or.inl ⟨by rw [← halk]; exact hn, by rw [← hposj]; exact hres⟩
          · exact Or.inr ⟨old', s, by rw [← halk]; exact ho,
              by rw [← hposj]; exact hres, hs1, hs2⟩
    · have hstep : insertKeysIdx tl idx sp pos (e :: rest) =
          insertKeysIdx tl (alSet idx e.1 (tl, pos, some sp.length))
            (sp ++ [old]) (pos + 1) rest := by
        simp only [insertKeysIdx, hold]
      obtain ⟨ihnd, ⟨add, hadd⟩, ihmiss, ihhit⟩ :=
        ih (alSet idx e.1 (tl, pos, some sp.length)) (sp ++ [old]) (pos + 1)
          hnd.2 (alSet_nodup idx e.1 _ hal)
      rw [hstep]
      refine ⟨ihnd, ⟨[old] ++ add, by rw [hadd, List.append_assoc]⟩, ?_, ?_⟩
      · intro k hk
        simp only [List.map_cons, List.mem_cons] at hk
        push_neg at hk
        rw [ihmiss k hk.2, alGet_alSet, if_neg hk.1]
      · intro k hk
        simp only [List.map_cons, List.mem_cons] at hk
        by_cases hke : k = e.1
        · have hknr : k ∉ rest.map Prod.fst := fun h => hnd.1 (hke ▸ h)
          refine ⟨0, e.2, ?_, ?_⟩
          · rw [hke]
            rfl
          · refine Or.inr ⟨old, sp.length, by rw [hke]; exact hold, ?_, le_refl _, ?_⟩
            · rw [ihmiss k hknr, alGet_alSet, if_pos hke, Nat.add_zero]
            · rw [hadd, List.get?_eq_getElem?,
                List.getElem?_append_left (by simp),
                List.getElem?_concat_length]
        · have hkr : k ∈ rest.map Prod.fst := by
            rcases hk with hk | hk
            · exact absurd hk hke
            · exact hk
          obtain ⟨j, w, hj, hdisj⟩ := ihhit k hkr
          refine ⟨j + 1, w, by rw [List.get?_cons_succ]; exact hj, ?_⟩
          have hposj : pos + 1 + j = pos + (j + 1) := by omega
          have halk : alGet (alSet idx e.1 (tl, pos, some sp.length)) k =
              alGet idx k := by
            rw [alGet_alSet, if_neg hke]
          rcases hdisj with ⟨hn, hres⟩ | ⟨old', s, ho, hres, hs1, hs2⟩
          · exact Or.inl ⟨by rw [← halk]; exact hn, by rw [← hposj]; exact hres⟩
          · refine Or.inr ⟨old', s, by rw [← halk]; exact ho,
              by rw [← hposj]; exact hres, ?_, hs2⟩
            rw [List.length_append] at hs1
            omega

theorem insert_step_inv (T : List (TrieL K K2 × Nat)) (idx : List (K × IdxEntry))
    (S : List IdxEntry) (t : TrieL K K2) (hinv : IdxInv ⟨T, idx, S⟩)
    (ht : KeySorted t.keys) :
    IdxInv ⟨T ++ [(t, (insertKeysIdx T.length idx S 0 t.keys).2.length - S.length)],
      (insertKeysIdx T.length idx S 0 t.keys).1,
      (insertKeysIdx T.length idx S 0 t.keys).2⟩ := by
  obtain ⟨h1, h2, h3, h4⟩ := hinv
  replace h1 : ∀ tc ∈ T, KeySorted tc.1.keys := h1
  replace h2 : (idx.map Prod.fst).Nodup := h2
  replace h3 : S.length = spillOff T T.length := h3
  replace h4 : ∀ k : K,
      (alGet idx k = none → ∀ j, ¬ KeyAt T k j) ∧
      (∀ e, alGet idx k = some e →
        ∃ i, EntryChain T S k e i ∧ ∀ j, i < j → ¬ KeyAt T k j) := h4
  obtain ⟨hnod, ⟨add, hadd⟩, hmiss, hhit⟩ :=
    insertKeysIdx_spec T.length t.keys idx S 0
      (keySorted_map_fst_nodup _ ht) h2
  set R := insertKeysIdx T.length idx S 0 t.keys with hR
  set c := R.2.length - S.length with hc
  have hRlen : R.2.length = S.length + add.length := by
    rw [hadd, List.length_append]
  have hcadd : c = add.length := by omega
  have hxget : (T ++ [(t, c)]).get? T.length = some (t, c) := by
    rw [List.get?_eq_getElem?, List.getElem?_concat_length]
  have hcnt : countAt (T ++ [(t, c)]) T.length = c := by
    rw [countAt, hxget]
    rfl
  have hofffull : spillOff (T ++ [(t, c)]) T.length = S.length := by
    rw [spillOff_append_le T (t, c) T.length (le_refl _), ← h3]
  have hnotat : ∀ k, k ∉ t.keys.map Prod.fst →
      ∀ j, T.length ≤ j → ¬ KeyAt (T ++ [(t, c)]) k j := by
    intro k hk j hj hkj
    have hjj := keyAt_lt_length _ k j hkj
    rw [List.length_append, List.length_singleton] at hjj
    have hje : j = T.length := by omega
    rw [hje, keyAt_append_last] at hkj
    exact hk hkj
  have hchain_lift : ∀ k e i, EntryChain T S k e i →
      EntryChain (T ++ [(t, c)]) R.2 k e i := by
    intro k e i hch
    have hi := entryChain_lt_length T S k e i hch
    rw [hadd]
    refine entryChain_spill_extend (T ++ [(t, c)]) S add k e i
      (entryChain_append_trie T S k e i (t, c) hch) ?_
    rw [spillOff_append_le T (t, c) (i + 1) (by omega), h3]
    exact spillOff_mono T (i + 1) T.length (by omega)
  refine ⟨?_, ?_, ?_, ?_⟩
  · intro tc htc
    rcases List.mem_append.mp htc with htc | htc
    · exact h1 tc htc
    · rw [List.mem_singleton] at htc
      rw [htc]
      exact ht
  · exact hnod
  · show R.2.length = spillOff (T ++ [(t, c)]) (T ++ [(t, c)]).length
    have hlenx : (T ++ [(t, c)]).length = T.length + 1 := by simp
    rw [hlenx, spillOff_succ (T ++ [(t, c)]) T.length (by simp), hofffull, hcnt]
    omega
  · intro k
    show (alGet R.1 k = none → ∀ j, ¬ KeyAt (T ++ [(t, c)]) k j) ∧
      (∀ e, alGet R.1 k = some e →
        ∃ i, EntryChain (T ++ [(t, c)]) R.2 k e i ∧
          ∀ j, i < j → ¬ KeyAt (T ++ [(t, c)]) k j)
    by_cases hmem : k ∈ t.keys.map Prod.fst
    · obtain ⟨j, w, hj, hdisj⟩ := hhit k hmem
      have hat : KeyAtPos (T ++ [(t, c)]) k T.length j :=
        ⟨(t, c), hxget, w, hj⟩
      rcases hdisj with ⟨holdn, hres⟩ | ⟨old, s, holds, hres, hs1, hs2⟩
      · constructor
        · intro hg'
          rw [hres] at hg'
          exact absurd hg' (by simp)
        · intro e' hg'
          rw [hres, Option.some_inj] at hg'
          rw [← hg']
          have hzj : (0 : Nat) + j = j := Nat.zero_add j
          refine ⟨T.length, ?_, ?_⟩
          · rw [hzj]
            refine EntryChain.last T.length j hat ?_
            intro j' hj' hkj'
            exact (h4 k).1 holdn j'
              ((keyAt_append_lt T (t, c) k j' hj').mp hkj')
          · intro j' hj' hkj'
            have hjj := keyAt_lt_length _ k j' hkj'
            rw [List.length_append, List.length_singleton] at hjj
            omega
      · constructor
        · intro hg'
          rw [hres] at hg'
          exact absurd hg' (by simp)
        · intro e' hg'
          rw [hres, Option.some_inj] at hg'
          rw [← hg']
          obtain ⟨i0, hch0, htop0⟩ := (h4 k).2 old holds
          have hi0 := entryChain_lt_length T S k old i0 hch0
          have hzj : (0 : Nat) + j = j := Nat.zero_add j
          refine ⟨T.length, ?_, ?_⟩
          · rw [hzj]
            refine EntryChain.more T.length j s old i0 hat hi0 ?_ ?_ ?_ ?_ ?_
            · intro j' hj1 hj2 hkj'
              exact htop0 j' hj1 ((keyAt_append_lt T (t, c) k j' hj2).mp hkj')
            · rw [hofffull]
              exact hs1
            · rw [hofffull, hcnt]
              have hslt : s < R.2.length := (List.get?_eq_some.mp hs2).1
              omega
            · exact hs2
            · exact hchain_lift k old i0 hch0
          · intro j' hj' hkj'
            have hjj := keyAt_lt_length _ k j' hkj'
            rw [List.length_append, List.length_singleton] at hjj
            omega
    · have hgetk : alGet R.1 k = alGet idx k := hmiss k hmem
      constructor
      · intro hg'
        rw [hgetk] at hg'
        intro j hkj
        by_cases hjT : j < T.length
        · exact (h4 k).1 hg' j ((keyAt_append_lt T (t, c) k j hjT).mp hkj)
        · exact hnotat k hmem j (by omega) hkj
      · intro e' hg'
        rw [hgetk] at hg'
        obtain ⟨i, hch, htop⟩ := (h4 k).2 e' hg'
        refine ⟨i, hchain_lift k e' i hch, ?_⟩
        intro j hj hkj
        by_cases hjT : j < T.length
        · exact htop j hj ((keyAt_append_lt T (t, c) k j hjT).mp hkj)
        · exact hnotat k hmem j (by omega) hkj

/-! ### The invariant through `append` -/

theorem getLast?_split {α : Type} (l : List α) (x : α)
    (h : l.getLast? = some x) : l.dropLast ++ [x] = l := by
  have hne : l ≠ [] := by
    intro h0
    rw [h0] at h
    simp at h
  have hg := List.getLast?_eq_getLast l hne
  rw [hg, Option.some_inj] at h
  rw [← h]
  exact List.dropLast_append_getLast hne

theorem idxLoop_inv :
    ∀ (fuel : Nat) (st : IdxState K K2) (t : TrieL K K2),
      IdxInv st → KeySorted t.keys →
      IdxInv (idxLoop fuel st t).1 ∧ KeySorted ((idxLoop fuel st t).2).keys := by
  intro fuel
  induction fuel with
  | zero =>
    intro st t hinv ht
    exact ⟨hinv, ht⟩
  | succ fuel ih =>
    intro st t hinv ht
    rcases hlast : st.tries.getLast? with _ | ⟨other, count⟩
    · simp only [idxLoop, hlast]
      exact ⟨hinv, ht⟩
    · simp only [idxLoop, hlast]
      by_cases hc : other.vals.length ≤ 2 * t.vals.length
      · rw [if_pos hc]
        have hsplit : st.tries.dropLast ++ [(other, count)] = st.tries :=
          getLast?_split st.tries (other, count) hlast
        have hmem : (other, count) ∈ st.tries := by
          rw [← hsplit]
          exact List.mem_append_right _ (List.mem_singleton_self _)
        have hos : KeySorted other.keys := hinv.1 (other, count) hmem
        have hinv' : IdxInv ⟨st.tries.dropLast ++ [(other, count)],
            st.index, st.spill⟩ := by
          rw [hsplit]
          exact hinv
        refine ih _ _ (evict_step_inv st.tries.dropLast other count
          st.index st.spill hinv') (trieMerge_sorted t other ht hos)
      · rw [if_neg hc]
        exact ⟨hinv, ht⟩

theorem indexAppend_inv (st : IdxState K K2) (t : TrieL K K2)
    (hinv : IdxInv st) (ht : KeySorted t.keys) :
    IdxInv (indexAppend st t) := by
  obtain ⟨hinv1, hs1⟩ :=
    idxLoop_inv (st.tries.length + 1) st t hinv ht
  have hinv1' : IdxInv ⟨(idxAfterLoop st t).1.tries,
      (idxAfterLoop st t).1.index, (idxAfterLoop st t).1.spill⟩ := hinv1
  exact insert_step_inv (idxAfterLoop st t).1.tries (idxAfterLoop st t).1.index
    (idxAfterLoop st t).1.spill (idxAfterLoop st t).2 hinv1' hs1

theorem emptyIdx_inv : IdxInv (emptyIdx : IdxState K K2) := by
  refine ⟨?_, ?_, ?_, ?_⟩
  · intro tc htc
    simp [emptyIdx] at htc
  · show (List.map Prod.fst ([] : List (K × IdxEntry))).Nodup
    simp
  · rfl
  · intro k
    constructor
    · intro _ j hkj
      have := keyAt_lt_length ([] : List (TrieL K K2 × Nat)) k j hkj
      simp at this
    · intro e hg
      exact absurd hg (by simp [emptyIdx, alGet])

theorem idx_fold_inv (ts : List (TrieL K K2))
    (hs : ∀ t ∈ ts, KeySorted t.keys) :
    IdxInv (ts.foldl indexAppend emptyIdx) := by
  have hgen : ∀ (l : List (TrieL K K2)) (st : IdxState K K2), IdxInv st →
      (∀ t ∈ l, KeySorted t.keys) → IdxInv (l.foldl indexAppend st) := by
    intro l
    induction l with
    | nil =>
      intro st h _
      exact h
    | cons t rest ihl =>
      intro st h hl
      rw [List.foldl_cons]
      exact ihl _ (indexAppend_inv st t h (hl t (List.mem_cons_self _ _)))
        (fun t' ht' => hl t' (List.mem_cons_of_mem _ ht'))
  exact hgen ts emptyIdx emptyIdx_inv hs

theorem exists_mem_iff_keyAt (tries : List (TrieL K K2 × Nat)) (k : K) :
    (∃ tc ∈ tries, k ∈ tc.1.keys.map Prod.fst) ↔ ∃ j, KeyAt tries k j := by
  constructor
  · rintro ⟨tc, htc, hk⟩
    obtain ⟨j, hj, hget⟩ := List.getElem_of_mem htc
    refine ⟨j, ?_⟩
    rw [KeyAt, trieKeysAtD, List.get?_eq_getElem?, List.getElem?_eq_getElem hj,
      hget]
    simpa using hk
  · rintro ⟨j, hkj⟩
    rw [KeyAt, trieKeysAtD] at hkj
    rcases hg : tries.get? j with _ | tc
    · rw [hg] at hkj
      simp at hkj
    · rw [hg] at hkj
      simp only [Option.map_some', Option.getD_some] at hkj
      exact ⟨tc, List.get?_mem hg, hkj⟩

/-- C4.  For `ArborIndex`, after any sequence of `append`s of key-sorted
tries starting from the empty collection, for every top-level key `k` the
number of `(trie_index, key_offset)` locations reachable from the hash-map
head of `k` through the spill links equals the number of resident tries
whose top-level key array contains `k`; and a hash-map entry for `k` exists
iff `k` appears in at least one resident trie. -/
theorem claim_C4 (ts : List (TrieL K K2)) (hs : ∀ t ∈ ts, KeySorted t.keys)
    (k : K) :
    (chainLocs (ts.foldl indexAppend emptyIdx) k).length =
      ((ts.foldl indexAppend emptyIdx).tries.filter
        (fun tc => decide (k ∈ tc.1.keys.map Prod.fst))).length ∧
    ((alGet (ts.foldl indexAppend emptyIdx).index k).isSome = true ↔
      ∃ tc ∈ (ts.foldl indexAppend emptyIdx).tries,
        k ∈ tc.1.keys.map Prod.fst) := by
  set st := ts.foldl indexAppend emptyIdx with hst
  have hinv : IdxInv st := idx_fold_inv ts hs
  obtain ⟨h1, h2, h3, h4⟩ := hinv
  have h4k : (alGet st.index k = none → ∀ j, ¬ KeyAt st.tries k j) ∧
      (∀ e, alGet st.index k = some e →
        ∃ i, EntryChain st.tries st.spill k e i ∧
          ∀ j, i < j → ¬ KeyAt st.tries k j) := h4 k
  rw [filterCount_eq_occUpTo]
  rcases hg : alGet st.index k with _ | e
  · have hnone := h4k.1 hg
    constructor
    · have hlocs : chainLocs st k = [] := by
        simp only [chainLocs, hg]
      rw [hlocs, occUpTo_const st.tries k st.tries.length 0 (Nat.zero_le _)
        (fun j _ _ => hnone j)]
      rfl
    · constructor
      · intro h
        simp at h
      · intro hex
        exfalso
        obtain ⟨j, hkj⟩ := (exists_mem_iff_keyAt st.tries k).mp hex
        exact hnone j hkj
  · obtain ⟨i, hchain, htop⟩ := h4k.2 e hg
    have hilen := entryChain_lt_length _ _ _ _ _ hchain
    constructor
    · have hlocs : chainLocs st k = chainFollow st.spill st.spill.length e := by
        simp only [chainLocs, hg]
      have hfuel : ∀ s, e.2.2 = some s → s < st.spill.length := by
        intro s hse
        obtain ⟨hlo2, hhi2⟩ := entryChain_link_bound _ _ _ _ _ hchain s hse
        have hmono := spillOff_mono st.tries (i + 1) st.tries.length (by omega)
        omega
      rw [hlocs,
        chainFollow_len st.tries st.spill k e i hchain st.spill.length hfuel,
        occUpTo_const st.tries k st.tries.length (i + 1) (by omega)
          (fun j hj1 hj2 => htop j (by omega))]
    · simp only [Option.isSome_some, true_iff]
      exact (exists_mem_iff_keyAt st.tries k).mpr
        ⟨i, entryChain_keyAt _ _ _ _ _ hchain⟩

/-- Witness for C4 on a two-batch `ArborIndex` history (the second append
triggers a merge). -/
theorem claim_C4_witness :
    (∀ t ∈ ([fromOrdered1 idx4batch, fromOrdered1 idx2batch] :
        List (TrieL Nat Nat)), KeySorted t.keys) ∧
    ((chainLocs ([fromOrdered1 idx4batch, fromOrdered1 idx2batch].foldl
          indexAppend emptyIdx) 2).length =
      (([fromOrdered1 idx4batch, fromOrdered1 idx2batch].foldl
          indexAppend emptyIdx).tries.filter
        (fun tc => decide (2 ∈ tc.1.keys.map Prod.fst))).length ∧
      ((alGet ([fromOrdered1 idx4batch, fromOrdered1 idx2batch].foldl
            indexAppend emptyIdx).index 2).isSome = true ↔
        ∃ tc ∈ ([fromOrdered1 idx4batch, fromOrdered1 idx2batch].foldl
            indexAppend emptyIdx).tries, 2 ∈ tc.1.keys.map Prod.fst)) :=
  ⟨by decide, claim_C4 [fromOrdered1 idx4batch, fromOrdered1 idx2batch]
    (by decide) 2⟩

/-! ### `ArborIndex::get_into` (src/arbor_index.rs lines 164-176) -/

/-- The resident trie at index `i` (a default empty trie if out of range;
the code indexes `self.tries[index]` directly). -/
def trieAtD (st : IdxState K K2) (i : Nat) : TrieL K K2 :=
  ((st.tries.get? i).map Prod.fst).getD ⟨[], []⟩

/-- Modelled from the spec: `CursorMerger::clear` empties the merger (`the
supplied merger is cleared`); no `clear` exists in src/merge.rs. -/
def cmClear (_m : CM K) : CM K := ⟨none, []⟩

/-- `CursorMerger::push` as in the commented-out block of src/merge.rs:
advance the pushed cursor once and keep `(front, rest)` unless exhausted. -/
def cmPush (m : CM K) (c : List (K × Int)) : CM K :=
  match c with
  | [] => m
  | x :: rest => ⟨m.started, m.cursors ++ [(x, rest)]⟩

/-- The chain walk of `ArborIndex::get_into`: push a value cursor for each
location, then follow the spill link. -/
def getIntoLoop (st : IdxState K K2) :
    Nat → Option IdxEntry → CM K2 → CM K2
  | _, none, m => m
  | 0, some _, m => m
  | fuel + 1, some e, m =>
    getIntoLoop st fuel
      (match e.2.2 with
       | none => none
       | some nxt => some ((st.spill.get? nxt).getD (0, 0, none)))
      (cmPush m (slice (trieAtD st e.1).vals
        (basisAt (trieAtD st e.1).keys e.2.1)
        (offAt (trieAtD st e.1).keys e.2.1)))

/-- `ArborIndex::get_into`: clear the merger, walk the chain of the key
pushing value-range cursors, and sort the cursors by front key.  `get_into`
borrows the `ArborIndex` immutably, so the collection itself is unchanged;
the embedding is a pure function of the state. -/
def getInto (st : IdxState K K2) (k : K) (m : CM K2) : CM K2 :=
  ⟨(getIntoLoop st (st.spill.length + 1) (alGet st.index k) (cmClear m)).started,
   sortByKey (getIntoLoop st (st.spill.length + 1) (alGet st.index k)
     (cmClear m)).cursors⟩

/-- C8.  `ArborIndex::get_into` on a key that is absent from every resident
trie is not an error: the supplied merger is cleared and left empty (and the
state, borrowed immutably, is unchanged). -/
theorem claim_C8 (ts : List (TrieL K K2)) (hs : ∀ t ∈ ts, KeySorted t.keys)
    (k : K) (m : CM K2)
    (habs : ∀ tc ∈ (ts.foldl indexAppend emptyIdx).tries,
      k ∉ tc.1.keys.map Prod.fst) :
    getInto (ts.foldl indexAppend emptyIdx) k m = ⟨none, []⟩ := by
  set st := ts.foldl indexAppend emptyIdx with hst
  have hinv : IdxInv st := idx_fold_inv ts hs
  obtain ⟨h1, h2, h3, h4⟩ := hinv
  have h4k : (alGet st.index k = none → ∀ j, ¬ KeyAt st.tries k j) ∧
      (∀ e, alGet st.index k = some e →
        ∃ i, EntryChain st.tries st.spill k e i ∧
          ∀ j, i < j → ¬ KeyAt st.tries k j) := h4 k
  have hnone : alGet st.index k = none := by
    rcases hg : alGet st.index k with _ | e
    · rfl
    · exfalso
      obtain ⟨i, hchain, htop⟩ := h4k.2 e hg
      have hkt := entryChain_keyAt _ _ _ _ _ hchain
      obtain ⟨tc, htc, hk⟩ := (exists_mem_iff_keyAt st.tries k).mpr ⟨i, hkt⟩
      exact habs tc htc hk
  rw [getInto, hnone]
  rfl

/-- Witness for C8: a key absent from the resident tries leaves a previously
non-empty merger empty. -/
theorem claim_C8_witness :
    (∀ t ∈ ([fromOrdered1 idx4batch] : List (TrieL Nat Nat)),
      KeySorted t.keys) ∧
    (∀ tc ∈ ([fromOrdered1 idx4batch].foldl indexAppend
        (emptyIdx : IdxState Nat Nat)).tries, 99 ∉ tc.1.keys.map Prod.fst) ∧
    getInto ([fromOrdered1 idx4batch].foldl indexAppend emptyIdx) 99
      ⟨some 0, [((3, 1), [(4, 1)])]⟩ = ⟨none, []⟩ :=
  ⟨by decide, by decide,
    claim_C8 [fromOrdered1 idx4batch] (by decide) 99
      ⟨some 0, [((3, 1), [(4, 1)])]⟩ (by decide)⟩

end TrieV
